import Mathlib

/-!
# go-scheduler: the job state machine and the scheduler registry

A shallow embedding of `globals.go`, `job.go` and `scheduler.go`.

* A `*jobStruct` is an index into `Scheduler.heap`; a `*time.Timer` is an index
  into `Scheduler.timers`.  Go pointers never dangle, so a step that would read
  outside either table has no result (`none`), like a step that dereferences a nil
  `*time.Timer`.
* The job mutex is not a field: each section of code that runs with the job mutex
  held is one function of the embedding (`stop`, `jobDelete`, `lockedStart`, ...),
  and the registry lookup that precedes it is a separate, earlier step.
* `time.Now().UTC()` is an argument (`now`) of every operation that reads the clock.
* `github.com/gorhill/cronexpr` is an external library: its `Parse` and `Next` are
  the two fields of the parameter `Cronexpr`.
* The callback is user code.  Its invocation by `run` is recorded in
  `Scheduler.calls`; what the callback does is outside the embedding.
-/

namespace GoScheduler

/-! ## globals.go -/

/-- State what state the job is in (`type State int`, used as a set of bit flags). -/
abbrev State := Nat

/-- StateScheduled when job pending schedule to run. -/
def StateScheduled : State := 1
/-- StateRunning when job is running. -/
def StateRunning : State := 2
/-- StateStopping when job is scheduled to stop after run. -/
def StateStopping : State := 4
/-- StateStopped when job is stopped. -/
def StateStopped : State := 8
/-- StateDeleting when job is scheduled to be deleted after run. -/
def StateDeleting : State := 16

/-- Go `error` values returned by the scheduler; `nil` is the absence of an error and
`Errorf msg` is the value built by `fmt.Errorf`, identified by its message. -/
inductive Error where
  | nil
  | ErrJobNotFound
  | ErrJobAlreadyExists
  | ErrJobMustBeStopped
  | ErrJobIsRunning
  | Errorf (msg : String)
deriving DecidableEq, Repr

/-- Instants (`time.Time`) as a count of nanoseconds. -/
abbrev Time := Int

/-- Largest `time.Duration` (`1<<63 - 1` nanoseconds). -/
def maxDuration : Int := 9223372036854775807
/-- Smallest `time.Duration` (`-1 << 63` nanoseconds). -/
def minDuration : Int := -9223372036854775808

/-- Duration `t.Sub(u)`: the difference `t - u`, saturated to the range of
`time.Duration` as `time.Time.Sub` does. -/
def Sub (t u : Time) : Int :=
  if t - u > maxDuration then maxDuration
  else if t - u < minDuration then minDuration
  else t - u

/-- A parsed rule (`*cronexpr.Expression`), identified by a token. -/
structure Expression where
  token : Nat
deriving DecidableEq, Repr

/-- The two functions of `cronexpr` the scheduler calls: `Parse` (a parsed rule, or
the parser's error message) and `Expression.Next`. -/
structure Cronexpr where
  Parse : String → Except String Expression
  Next : Expression → Time → Time

/-- A callback (`func(interface{})`), identified by a token. -/
abbrev Func := Nat

/-- A payload (`interface{}`): `none` is the nil interface, `some v` a value token. -/
abbrev Data := Option Nat

/-- The fields of `jobStruct` (the mutex apart, see the header). -/
structure jobStruct where
  name : String
  cronExpression : Expression
  function : Func
  data : Data
  state : State
  nextRun : Time
  timer : Option Nat
deriving DecidableEq, Repr

/-- Life of a `time.Timer` made by `time.AfterFunc`: `armed` until it expires or is
stopped; `fired` once it expired and its goroutine (`s.run(job)`) is started but has
not yet taken the job mutex; `ran` once that goroutine has taken it; `stopped` after a
`Stop` that returned true. -/
inductive TimerStatus where
  | armed
  | fired
  | ran
  | stopped
deriving DecidableEq, Repr

/-- A timer made by `time.AfterFunc(d, func() { s.run(job) })`. -/
structure Timer where
  d : Int
  job : Nat
  status : TimerStatus
deriving DecidableEq, Repr

/-- The fields of `Scheduler` (`jobs`, `jobsNotStopped`, `chanJobsNotStopped` as the
number of values buffered in the channel), then the memory they point into (`heap`,
`timers`) and the record of callback invocations (`calls`). -/
structure Scheduler where
  jobs : List (String × Nat)
  jobsNotStopped : Int
  chanJobsNotStopped : Nat
  heap : List jobStruct
  timers : List Timer
  calls : List (Func × Data)
deriving DecidableEq, Repr

/-! ## Go primitives -/

/-- Map read `m[name]`. -/
def mapLookup (m : List (String × Nat)) (name : String) : Option Nat :=
  match m with
  | [] => none
  | (k, v) :: rest => if k = name then some v else mapLookup rest name

/-- Builtin `delete(m, name)`. -/
def mapDelete (m : List (String × Nat)) (name : String) : List (String × Nat) :=
  match m with
  | [] => []
  | (k, v) :: rest => if k = name then mapDelete rest name else (k, v) :: mapDelete rest name

/-- Map write `m[name] = p`. -/
def mapInsert (m : List (String × Nat)) (name : String) (p : Nat) : List (String × Nat) :=
  (name, p) :: mapDelete m name

/-- Capacity of `chanJobsNotStopped` (`make(chan struct{}, 2)` in `NewScheduler`). -/
def chanCap : Nat := 2

/-- The non-blocking send `select { case ch <- struct{}{}: default: }` on a channel
holding `c` values. -/
def trySend (c : Nat) : Nat :=
  if c < chanCap then c + 1 else c

/-- Write through a job pointer. -/
def setJob (s : Scheduler) (p : Nat) (job : jobStruct) : Scheduler :=
  { s with heap := s.heap.set p job }

/-- Function `time.AfterFunc(d, func() { s.run(job) })`: a new armed timer; returns its
handle. -/
def AfterFunc (s : Scheduler) (d : Int) (p : Nat) : Nat × Scheduler :=
  (s.timers.length, { s with timers := s.timers ++ [{ d := d, job := p, status := .armed }] })

/-- Method `(*time.Timer).Stop`: true, and the timer is stopped, when the timer was
still armed; false when it had already expired or been stopped.  A nil receiver
(`none`) has no result. -/
def timerStop (s : Scheduler) (t : Option Nat) : Option (Bool × Scheduler) :=
  match t with
  | none => none
  | some i =>
    match s.timers[i]? with
    | none => none
    | some tm =>
      if tm.status = .armed then
        some (true, { s with timers := s.timers.set i { tm with status := .stopped } })
      else some (false, s)

/-! ## job.go -/

/-- Make creates a new job.  Will error if job with same name is already created. -/
def Make (cx : Cronexpr) (s : Scheduler) (name cron : String) (function : Func) (data : Data)
    (now : Time) : Error × Scheduler :=
  match cx.Parse cron with
  | .error err => (.Errorf ("cron parse error: " ++ err), s)
  | .ok expr =>
    let job : jobStruct :=
      { name := name, cronExpression := expr, function := function, data := data,
        state := StateStopped, nextRun := cx.Next expr now, timer := none }
    match mapLookup s.jobs name with
    | some _ => (.ErrJobAlreadyExists, s)
    | none =>
      (.nil, { s with heap := s.heap ++ [job], jobs := mapInsert s.jobs name s.heap.length })

/-- The part of `Start` that runs with the job mutex held. -/
def lockedStart (s : Scheduler) (p : Nat) (now : Time) : Option (Error × Scheduler) :=
  match s.heap[p]? with
  | none => none
  | some job =>
    if job.state ≠ StateStopped then some (.ErrJobMustBeStopped, s)
    else
      let s1 := { s with jobsNotStopped := s.jobsNotStopped + 1 }
      let (t, s2) := AfterFunc s1 (Sub job.nextRun now) p
      some (.nil, setJob s2 p { job with state := StateScheduled, timer := some t })

/-- Start starts the job run schedule.  Job will run at next run time. -/
def Start (s : Scheduler) (name : String) (now : Time) : Option (Error × Scheduler) :=
  match mapLookup s.jobs name with
  | none => some (.ErrJobNotFound, s)
  | some p => lockedStart s p now

/-- The function `stop`: stops the job if can or sets flag to stop on next run
(assumes the job mutex is held). -/
def stop (s : Scheduler) (p : Nat) : Option Scheduler :=
  match s.heap[p]? with
  | none => none
  | some job =>
    if job.state = StateStopped then some s
    else if job.state &&& StateRunning > 0 then
      some (setJob s p { job with state := job.state ||| StateStopping })
    else
      match timerStop s job.timer with
      | none => none
      | some (true, s1) =>
        some (setJob
          { s1 with jobsNotStopped := s1.jobsNotStopped - 1,
                    chanJobsNotStopped := trySend s1.chanJobsNotStopped }
          p { job with timer := none, state := StateStopped })
      | some (false, s1) =>
        some (setJob s1 p { job with state := job.state ||| StateStopping })

/-- Stop stops the job run schedule.  Will not error if job is stopped more than once. -/
def Stop (s : Scheduler) (name : String) : Option (Error × Scheduler) :=
  match mapLookup s.jobs name with
  | none => some (.ErrJobNotFound, s)
  | some p => (stop s p).map fun s1 => (.nil, s1)

/-- The function `jobDelete`: deletes the job if can or sets flag to delete on run
(assumes the job mutex is held). -/
def jobDelete (s : Scheduler) (p : Nat) : Option Scheduler :=
  match s.heap[p]? with
  | none => none
  | some job =>
    if job.state ≠ StateStopped then
      some (setJob s p { job with state := job.state ||| StateDeleting })
    else some { s with jobs := mapDelete s.jobs job.name }

/-- The part of `Delete` that runs with the job mutex held. -/
def lockedDelete (s : Scheduler) (p : Nat) : Option Scheduler :=
  (stop s p).bind fun s1 => jobDelete s1 p

/-- Delete stops the job and deletes the job. -/
def Delete (s : Scheduler) (name : String) : Option (Error × Scheduler) :=
  match mapLookup s.jobs name with
  | none => some (.ErrJobNotFound, s)
  | some p => (lockedDelete s p).map fun s1 => (.nil, s1)

/-- The part of `UpdateCron` that runs with the job mutex held. -/
def lockedUpdateCron (s : Scheduler) (p : Nat) (cronExpression : Expression) :
    Option Scheduler :=
  match s.heap[p]? with
  | none => none
  | some job => some (setJob s p { job with cronExpression := cronExpression })

/-- UpdateCron updates the job's cron shedule. -/
def UpdateCron (cx : Cronexpr) (s : Scheduler) (name cron : String) :
    Option (Error × Scheduler) :=
  match mapLookup s.jobs name with
  | none => some (.ErrJobNotFound, s)
  | some p =>
    match cx.Parse cron with
    | .error err => some (.Errorf ("cron parse error: " ++ err), s)
    | .ok cronExpression => (lockedUpdateCron s p cronExpression).map fun s1 => (.nil, s1)

/-- The part of `UpdateNextRun` that runs with the job mutex held. -/
def lockedUpdateNextRun (s : Scheduler) (p : Nat) (nextRun : Time) (now : Time) :
    Option (Error × Scheduler) :=
  match s.heap[p]? with
  | none => none
  | some job =>
    if job.state = StateStopped then
      some (.nil, setJob s p { job with nextRun := nextRun })
    else if job.state &&& StateRunning > 0 then some (.ErrJobIsRunning, s)
    else
      match timerStop s job.timer with
      | none => none
      | some (true, s1) =>
        let (t, s2) := AfterFunc s1 (Sub nextRun now) p
        some (.nil, setJob s2 p { job with nextRun := nextRun, timer := some t })
      | some (false, s1) => some (.ErrJobIsRunning, s1)

/-- UpdateNextRun updates the job's next run time. -/
def UpdateNextRun (s : Scheduler) (name : String) (nextRun : Time) (now : Time) :
    Option (Error × Scheduler) :=
  match mapLookup s.jobs name with
  | none => some (.ErrJobNotFound, s)
  | some p => lockedUpdateNextRun s p nextRun now

/-- The part of `UpdateFunction` that runs with the job mutex held. -/
def lockedUpdateFunction (s : Scheduler) (p : Nat) (function : Func) (data : Data) :
    Option Scheduler :=
  match s.heap[p]? with
  | none => none
  | some job => some (setJob s p { job with function := function, data := data })

/-- UpdateFunction updates the job's function and data. -/
def UpdateFunction (s : Scheduler) (name : String) (function : Func) (data : Data) :
    Option (Error × Scheduler) :=
  match mapLookup s.jobs name with
  | none => some (.ErrJobNotFound, s)
  | some p => (lockedUpdateFunction s p function data).map fun s1 => (.nil, s1)

/-- GetState returns job state. -/
def GetState (s : Scheduler) (name : String) : Option (State × Error) :=
  match mapLookup s.jobs name with
  | none => some (0, .ErrJobNotFound)
  | some p => (s.heap[p]?).map fun job => (job.state, .nil)

/-- GetData returns job data. -/
def GetData (s : Scheduler) (name : String) : Option (Data × Error) :=
  match mapLookup s.jobs name with
  | none => some (none, .ErrJobNotFound)
  | some p => (s.heap[p]?).map fun job => (job.data, .nil)

/-- The function `doStoppingOrDeleting`: return true if stopping or deleting (assumes
the job mutex is held). -/
def doStoppingOrDeleting (s : Scheduler) (p : Nat) : Option (Bool × Scheduler) :=
  match s.heap[p]? with
  | none => none
  | some job =>
    if job.state &&& StateDeleting > 0 then
      (jobDelete
        (setJob
          { s with jobsNotStopped := s.jobsNotStopped - 1,
                   chanJobsNotStopped := trySend s.chanJobsNotStopped }
          p { job with state := StateStopped })
        p).map fun s1 => (true, s1)
    else if job.state &&& StateStopping > 0 then
      some (true,
        setJob
          { s with jobsNotStopped := s.jobsNotStopped - 1,
                   chanJobsNotStopped := trySend s.chanJobsNotStopped }
          p { job with state := StateStopped })
    else some (false, s)

/-- First section of `run` under the job mutex (from `job.mutex.Lock()` to the first
`job.mutex.Unlock()`).  The boolean tells whether `run` goes on to the callback
(false: it returned). -/
def runBegin (cx : Cronexpr) (s : Scheduler) (p : Nat) (now : Time) :
    Option (Bool × Scheduler) :=
  match s.heap[p]? with
  | none => none
  | some job =>
    match doStoppingOrDeleting (setJob s p { job with timer := none }) p with
    | none => none
    | some (true, s1) => some (false, s1)
    | some (false, s1) =>
      match s1.heap[p]? with
      | none => none
      | some job1 =>
        some (true, setJob s1 p
          { job1 with state := StateRunning, nextRun := cx.Next job1.cronExpression now })

/-- The statement `job.function(job.data)` of `run`, executed with no lock held: the
invocation is recorded. -/
def runCall (s : Scheduler) (p : Nat) : Option Scheduler :=
  (s.heap[p]?).map fun job => { s with calls := s.calls ++ [(job.function, job.data)] }

/-- Second section of `run` under the job mutex (after the callback returned). -/
def runEnd (s : Scheduler) (p : Nat) (now : Time) : Option Scheduler :=
  match doStoppingOrDeleting s p with
  | none => none
  | some (true, s1) => some s1
  | some (false, s1) =>
    match s1.heap[p]? with
    | none => none
    | some job =>
      let (t, s2) := AfterFunc s1 (Sub job.nextRun now) p
      some (setJob s2 p { job with state := StateScheduled, timer := some t })

/-- The function `run` when nothing else touches the scheduler while it executes:
`now1` is the clock in the first locked section, `now2` the clock when the callback
has returned. -/
def run (cx : Cronexpr) (s : Scheduler) (p : Nat) (now1 now2 : Time) : Option Scheduler :=
  match runBegin cx s p now1 with
  | none => none
  | some (false, s1) => some s1
  | some (true, s1) => (runCall s1 p).bind fun s2 => runEnd s2 p now2

/-- The runtime expires timer `t`: an armed timer becomes fired (its goroutine is
started); any other timer is left alone. -/
def timerFire (s : Scheduler) (t : Nat) : Scheduler :=
  match s.timers[t]? with
  | none => s
  | some tm =>
    if tm.status = .armed then { s with timers := s.timers.set t { tm with status := .fired } }
    else s

/-- The goroutine of a fired timer `t` takes the job mutex and executes the first
locked section of `run` on the timer's job; a timer that has not fired (or whose
goroutine already ran) has nothing to execute. -/
def timerRun (cx : Cronexpr) (s : Scheduler) (t : Nat) (now : Time) :
    Option (Bool × Scheduler) :=
  match s.timers[t]? with
  | none => some (false, s)
  | some tm =>
    if tm.status = .fired then
      runBegin cx { s with timers := s.timers.set t { tm with status := .ran } } tm.job now
    else some (false, s)

/-! ## scheduler.go -/

/-- NewScheduler creates a new Scheduler. -/
def NewScheduler : Scheduler :=
  { jobs := [], jobsNotStopped := 0, chanJobsNotStopped := 0, heap := [], timers := [],
    calls := [] }

/-- The loop `for name := range s.jobs { names = append(names, name) }` of `Jobs`, over
the entries of the registry in the order the map yields them. -/
def appendNames (names : List String) (entries : List (String × Nat)) : List String :=
  match entries with
  | [] => names
  | (name, _) :: rest => appendNames (names ++ [name]) rest

/-- Jobs returns all job names. -/
def Jobs (s : Scheduler) : List String :=
  appendNames [] s.jobs

/-- The loop of `StopAll` over the entries of the registry. -/
def stopEach (s : Scheduler) (entries : List (String × Nat)) : Option Scheduler :=
  match entries with
  | [] => some s
  | (_, p) :: rest => (stop s p).bind fun s1 => stopEach s1 rest

/-- StopAll stops all job from running again.  Does not kill any running jobs. -/
def StopAll (s : Scheduler) : Option Scheduler :=
  stopEach s s.jobs

/-! ## What other goroutines do while a callback executes -/

/-- One step of another goroutine: `Make`, the locked section of an administrative
call on a job pointer (the pointer its registry lookup returned, at that time or
earlier), or the expiry of a timer.  `StopAll` is a sequence of `stop` steps, and a call
that fails before its locked section (name not found, rule not parsed) is no step. -/
inductive Meanwhile where
  | make (name cron : String) (function : Func) (data : Data) (now : Time)
  | start (p : Nat) (now : Time)
  | stop (p : Nat)
  | delete (p : Nat)
  | updateCron (p : Nat) (cronExpression : Expression)
  | updateNextRun (p : Nat) (nextRun now : Time)
  | updateFunction (p : Nat) (function : Func) (data : Data)
  | fire (t : Nat)
deriving DecidableEq, Repr

/-- The scheduler after one step of another goroutine. -/
def Meanwhile.exec (cx : Cronexpr) (s : Scheduler) (a : Meanwhile) : Option Scheduler :=
  match a with
  | .make name cron function data now => some (Make cx s name cron function data now).2
  | .start p now => (lockedStart s p now).map Prod.snd
  | .stop p => GoScheduler.stop s p
  | .delete p => lockedDelete s p
  | .updateCron p cronExpression => lockedUpdateCron s p cronExpression
  | .updateNextRun p nextRun now => (lockedUpdateNextRun s p nextRun now).map Prod.snd
  | .updateFunction p function data => lockedUpdateFunction s p function data
  | .fire t => some (timerFire s t)

/-- The scheduler after a sequence of steps of other goroutines. -/
def meanwhile (cx : Cronexpr) (s : Scheduler) (steps : List Meanwhile) : Option Scheduler :=
  match steps with
  | [] => some s
  | a :: rest => (Meanwhile.exec cx s a).bind fun s1 => meanwhile cx s1 rest

/-! ## The scheduler as a transition system -/

/-- Whether the job at `p` exists and is not in state Stopped. -/
def notStoppedAt (s : Scheduler) (p : Nat) : Bool :=
  match s.heap[p]? with
  | some job => job.state != StateStopped
  | none => false

/-- Whether the job at `p` is not Stopped in `s` and Stopped in `s1`. -/
def wentStopped (s s1 : Scheduler) (p : Nat) : Bool :=
  notStoppedAt s p && !notStoppedAt s1 p


/-- Where a goroutine of `run` stands once it has left the first locked section: about
to execute `job.function(job.data)`, or back from it and about to take the job mutex
again. -/
inductive Phase where
  | toCall
  | toEnd
deriving DecidableEq, Repr

/-- The scheduler together with the goroutines of `run` that are between their two
locked sections, each with the job it runs. -/
structure World where
  sched : Scheduler
  runs : List (Nat × Phase)
deriving DecidableEq, Repr

/-- The world `NewScheduler` returns: no job, no timer, no goroutine. -/
def NewWorld : World :=
  { sched := NewScheduler, runs := [] }

/-- One step of the system: a call of the API executed to its end, the expiry of a timer,
or one of the three parts of `run` (first locked section, callback, second locked
section). -/
inductive Step where
  | Make (name cron : String) (function : Func) (data : Data) (now : Time)
  | Start (name : String) (now : Time)
  | Stop (name : String)
  | Delete (name : String)
  | UpdateCron (name cron : String)
  | UpdateNextRun (name : String) (nextRun now : Time)
  | UpdateFunction (name : String) (function : Func) (data : Data)
  | StopAll
  | fire (t : Nat)
  | runBegin (t : Nat) (now : Time)
  | runCall (p : Nat)
  | runEnd (p : Nat) (now : Time)
deriving DecidableEq, Repr

/-- The world after a step, when the step can be taken: `runBegin t` needs timer `t`
fired, `runCall p` and `runEnd p` a goroutine of job `p` in the matching phase. -/
def Step.exec (cx : Cronexpr) (w : World) (a : Step) : Option World :=
  match a with
  | .Make name cron function data now =>
    some { w with sched := (GoScheduler.Make cx w.sched name cron function data now).2 }
  | .Start name now =>
    (GoScheduler.Start w.sched name now).map fun r => { w with sched := r.2 }
  | .Stop name => (GoScheduler.Stop w.sched name).map fun r => { w with sched := r.2 }
  | .Delete name => (GoScheduler.Delete w.sched name).map fun r => { w with sched := r.2 }
  | .UpdateCron name cron =>
    (GoScheduler.UpdateCron cx w.sched name cron).map fun r => { w with sched := r.2 }
  | .UpdateNextRun name nextRun now =>
    (GoScheduler.UpdateNextRun w.sched name nextRun now).map fun r => { w with sched := r.2 }
  | .UpdateFunction name function data =>
    (GoScheduler.UpdateFunction w.sched name function data).map fun r =>
      { w with sched := r.2 }
  | .StopAll => (GoScheduler.StopAll w.sched).map fun s1 => { w with sched := s1 }
  | .fire t => some { w with sched := timerFire w.sched t }
  | .runBegin t now =>
    match w.sched.timers[t]? with
    | none => none
    | some tm =>
      if tm.status = .fired then
        (timerRun cx w.sched t now).map fun r =>
          { sched := r.2, runs := if r.1 then (tm.job, .toCall) :: w.runs else w.runs }
      else none
  | .runCall p =>
    if (p, Phase.toCall) ∈ w.runs then
      (GoScheduler.runCall w.sched p).map fun s1 =>
        { sched := s1, runs := (p, .toEnd) :: w.runs.erase (p, .toCall) }
    else none
  | .runEnd p now =>
    if (p, Phase.toEnd) ∈ w.runs then
      (GoScheduler.runEnd w.sched p now).map fun s1 =>
        { sched := s1, runs := w.runs.erase (p, .toEnd) }
    else none

/-- The world after a sequence of steps. -/
def execAll (cx : Cronexpr) (w : World) (steps : List Step) : Option World :=
  match steps with
  | [] => some w
  | a :: rest => (Step.exec cx w a).bind fun w1 => execAll cx w1 rest

/-- The worlds reachable from `NewScheduler`. -/
def Reachable (cx : Cronexpr) (w : World) : Prop :=
  ∃ steps, execAll cx NewWorld steps = some w

/-- The values the state of a job takes: Stopped, or Scheduled or Running with no flag,
with Stopping, or with Stopping and Deleting. -/
def validState (st : State) : Prop :=
  st = StateStopped ∨ st = StateScheduled ∨ st = StateScheduled ||| StateStopping ∨
  st = StateScheduled ||| StateStopping ||| StateDeleting ∨ st = StateRunning ∨
  st = StateRunning ||| StateStopping ∨ st = StateRunning ||| StateStopping ||| StateDeleting

/-- Jobs and timers agree: an armed or fired timer is the handle of its job; a job
that is Stopped or Running holds no handle; a job that is neither holds the handle of
an armed or fired timer made for it. -/
structure TimersOk (s : Scheduler) : Prop where
  owner : ∀ (t : Nat) (tm : Timer), s.timers[t]? = some tm →
    tm.status = .armed ∨ tm.status = .fired →
    ∃ job, s.heap[tm.job]? = some job ∧ job.timer = some t
  shape : ∀ (p : Nat) (job : jobStruct), s.heap[p]? = some job → validState job.state
  idle : ∀ (p : Nat) (job : jobStruct), s.heap[p]? = some job →
    job.state = StateStopped ∨ job.state &&& StateRunning > 0 → job.timer = none
  pending : ∀ (p : Nat) (job : jobStruct), s.heap[p]? = some job →
    job.state ≠ StateStopped → ¬ job.state &&& StateRunning > 0 →
    ∃ t tm, job.timer = some t ∧ s.timers[t]? = some tm ∧ tm.job = p ∧
      (tm.status = .armed ∨ tm.status = .fired)

/-- The registry and the counter: keys and pointers occur once, every entry points to a
job of that name, every job that is not Stopped is registered under its name, and the
counter is the number of registered jobs that are not Stopped. -/
structure RegistryOk (s : Scheduler) : Prop where
  keys : (s.jobs.map Prod.fst).Nodup
  ptrs : (s.jobs.map Prod.snd).Nodup
  named : ∀ kv ∈ s.jobs, ∃ job, s.heap[kv.2]? = some job ∧ job.name = kv.1
  registered : ∀ (p : Nat) (job : jobStruct), s.heap[p]? = some job →
    job.state ≠ StateStopped → (job.name, p) ∈ s.jobs
  count : s.jobsNotStopped = ((s.jobs.filter fun kv => notStoppedAt s kv.2).length : Int)

/-- The goroutines of `run` between their locked sections: each runs a job that has the
Running flag, and no job has two. -/
structure RunsOk (w : World) : Prop where
  running : ∀ r ∈ w.runs, ∃ job, w.sched.heap[r.1]? = some job ∧ job.state &&& StateRunning > 0
  once : (w.runs.map Prod.fst).Nodup

/-- Every job that has the Running flag in `s` has it in `s1`. -/
def RunningKept (s s1 : Scheduler) : Prop :=
  ∀ (q : Nat) (jq : jobStruct), s.heap[q]? = some jq → jq.state &&& StateRunning > 0 →
    ∃ jq1, s1.heap[q]? = some jq1 ∧ jq1.state &&& StateRunning > 0

/-- The number of timers whose goroutine has taken the job mutex. -/
def ranCount (s : Scheduler) : Nat :=
  (s.timers.filter fun tm => decide (tm.status = .ran)).length

/-- The number of goroutines of `run` that are about to invoke the callback. -/
def toCallCount (w : World) : Nat :=
  (w.runs.filter fun r => decide (r.2 = Phase.toCall)).length

/-- The step from `s` to `s1` invokes no callback and starts no goroutine of `run`. -/
def Quiet (s s1 : Scheduler) : Prop :=
  s1.calls = s.calls ∧ ranCount s1 = ranCount s

/-- Every invocation made or about to be made belongs to a timer whose goroutine has
taken the job mutex: there are no more of the former than of the latter. -/
def CallsOk (w : World) : Prop :=
  w.sched.calls.length + toCallCount w ≤ ranCount w.sched

/-- The step from `s` to `s1` takes no value out of the channel. -/
def ChanKept (s s1 : Scheduler) : Prop :=
  s.chanJobsNotStopped ≤ s1.chanJobsNotStopped

/-- The invariant of the transition system. -/
def Inv (w : World) : Prop :=
  TimersOk w.sched ∧ RegistryOk w.sched ∧ RunsOk w

/-! ## StopAllWait -/

/-- The `return` by which a call of `StopAllWait` ended: the one after the first load of
the counter, the one of the timeout case of the `select`, or the end of the function,
after the loop and the final send. -/
inductive Return where
  | atOnce
  | timeout
  | drained
deriving DecidableEq, Repr

/-- The case that the `select` of the loop takes. -/
inductive Select where
  | timeout
  | receive
deriving DecidableEq, Repr

/-- Where a goroutine executing `StopAllWait` stands: before `s.StopAll()`; after it,
before the first load of the counter; at the head of the loop, the local variable
`jobsNotStopped` holding `c`; after a receive from the channel, before the next load;
returned, with the last value loaded.  The number `n` is history, not a variable of the
code: how many values this call has received from the channel. -/
inductive Waiter where
  | called
  | stopped
  | loop (c : Int) (n : Nat)
  | woken (n : Nat)
  | returned (how : Return) (c : Int) (n : Nat)
deriving DecidableEq, Repr

/-- StopAllWait stops all job from running again and waits till they have all stopped or
the timeout duration has passed.  The function is given as the steps between which other
goroutines can act; `sel` is the case the `select` takes when the goroutine is at the
head of the loop, where the timeout case may be taken at any time (the duration is not
modelled) and the receive case only when the channel holds a value.  No result: StopAll
panics, the case chosen is not ready, or the call has returned. -/
def StopAllWait (s : Scheduler) (w : Waiter) (sel : Select) : Option (Waiter × Scheduler) :=
  match w with
  | .called => (StopAll s).map fun s1 => (.stopped, s1)
  | .stopped =>
    if s.jobsNotStopped < 1 then some (.returned .atOnce s.jobsNotStopped 0, s)
    else some (.loop s.jobsNotStopped 0, s)
  | .loop c n =>
    if c > 0 then
      match sel with
      | .timeout => some (.returned .timeout c n, s)
      | .receive =>
        if s.chanJobsNotStopped > 0 then
          some (.woken (n + 1), { s with chanJobsNotStopped := s.chanJobsNotStopped - 1 })
        else none
    else
      some (.returned .drained c n,
        { s with chanJobsNotStopped := trySend s.chanJobsNotStopped })
  | .woken n => some (.loop s.jobsNotStopped n, s)
  | .returned _ _ _ => none

/-- A world with one goroutine in `StopAllWait`. -/
structure Waiting where
  world : World
  waiter : Waiter
deriving DecidableEq, Repr

/-- What happens next: a step of another goroutine, or the next step of the goroutine in
`StopAllWait`. -/
inductive Event where
  | other (a : Step)
  | wait (sel : Select)
deriving DecidableEq, Repr

/-- The world and the goroutine in `StopAllWait` after one event. -/
def Event.exec (cx : Cronexpr) (x : Waiting) (e : Event) : Option Waiting :=
  match e with
  | .other a => (Step.exec cx x.world a).map fun w1 => { x with world := w1 }
  | .wait sel =>
    (StopAllWait x.world.sched x.waiter sel).map fun r =>
      { world := { x.world with sched := r.2 }, waiter := r.1 }

/-- The world and the goroutine in `StopAllWait` after a sequence of events. -/
def waitAll (cx : Cronexpr) (x : Waiting) (events : List Event) : Option Waiting :=
  match events with
  | [] => some x
  | e :: rest => (Event.exec cx x e).bind fun x1 => waitAll cx x1 rest

/-- What the local variable and the history of a call of `StopAllWait` satisfy at each
point: at the head of the loop the value loaded is not negative and, before the first
receive, at least 1; a call that returned at once or after the loop loaded 0 last, the
latter after a receive; a call that returned by the timeout loaded a positive value. -/
def WaiterOk (w : Waiter) : Prop :=
  match w with
  | .called => True
  | .stopped => True
  | .loop c n => 0 ≤ c ∧ (n = 0 → 1 ≤ c)
  | .woken n => 0 < n
  | .returned .atOnce c n => c = 0 ∧ n = 0
  | .returned .timeout c _ => 0 < c
  | .returned .drained c n => c = 0 ∧ 0 < n

/-! ## Calls with the lookup and the locked section apart -/

/-- One move of the scheduler when the registry lookup of a call and its locked section
are taken apart: a step of the transition system, or a step of `Meanwhile` on a job
pointer, which a lookup returned at that time or earlier (every job ever made was
registered by `Make`). -/
inductive Move where
  | call (a : Step)
  | held (a : Meanwhile)
deriving DecidableEq, Repr

/-- The world after one move. -/
def Move.exec (cx : Cronexpr) (w : World) (m : Move) : Option World :=
  match m with
  | .call a => Step.exec cx w a
  | .held a => (Meanwhile.exec cx w.sched a).map fun s1 => { w with sched := s1 }

/-- The world after a sequence of moves. -/
def moveAll (cx : Cronexpr) (w : World) (moves : List Move) : Option World :=
  match moves with
  | [] => some w
  | m :: rest => (Move.exec cx w m).bind fun w1 => moveAll cx w1 rest

/-- The worlds that moves lead to from `NewScheduler`. -/
def Attainable (cx : Cronexpr) (w : World) : Prop :=
  ∃ moves, moveAll cx NewWorld moves = some w

/-- The part of the invariant that does not read the registry. -/
def Sound (w : World) : Prop :=
  TimersOk w.sched ∧ RunsOk w

/-! ## Sample values -/

/-- A sample rule library: the rule `1 0 0 1 1 * 1`, which the repository's tests give
as one that does not parse, is refused with the message the tests expect; every other
rule parses to a token (its length), and the next occurrence of token `k` after `t` is
`t + k + 1`. -/
def sampleCron : Cronexpr :=
  { Parse := fun r =>
      if r = "1 0 0 1 1 * 1" then .error "syntax error in year field: '1'" else .ok ⟨r.length⟩
    Next := fun e t => t + e.token + 1 }

/-- A job named `a` in state `st` with timer handle `tm`. -/
def sampleJob (st : State) (tm : Option Nat) : jobStruct :=
  { name := "a", cronExpression := ⟨7⟩, function := 3, data := some 5, state := st,
    nextRun := 1000, timer := tm }

/-- A scheduler holding the one job `sampleJob st tm` under its name, with one timer of
status `ts` made for that job, and `n` not-stopped jobs counted. -/
def sampleSched (st : State) (tm : Option Nat) (ts : TimerStatus) (n : Int) : Scheduler :=
  { jobs := [("a", 0)], jobsNotStopped := n, chanJobsNotStopped := 0,
    heap := [sampleJob st tm], timers := [{ d := 900, job := 0, status := ts }], calls := [] }

/-- A scheduler with two registered jobs: `a`, whose callback is executing, and `b`,
Scheduled with its timer armed. -/
def sampleTwo : Scheduler :=
  { jobs := [("a", 0), ("b", 1)], jobsNotStopped := 2, chanJobsNotStopped := 0,
    heap := [sampleJob StateRunning none,
             { sampleJob StateScheduled (some 0) with name := "b" }],
    timers := [{ d := 900, job := 1, status := .armed }], calls := [] }

/-- Two goroutines and one name.  The first calls `Delete("a")` and has looked the name
up (`stale`) when the second runs `Delete("a")`, `Make("a", ...)` and `Start("a")` to
their ends; then the first takes the job mutex and executes its locked section on the
pointer it holds.  The result is the scheduler before and after that locked section. -/
def staleDelete : Option (Scheduler × Scheduler) :=
  let s1 := (Make sampleCron NewScheduler "a" "* * * * * * *" 3 none 0).2
  match mapLookup s1.jobs "a" with
  | none => none
  | some stale =>
    (Delete s1 "a").bind fun r2 =>
      let s3 := (Make sampleCron r2.2 "a" "* * * * * * *" 4 none 10).2
      (Start s3 "a" 20).bind fun r4 =>
        (lockedDelete r4.2 stale).map fun s5 => (r4.2, s5)

/-- Four steps from a new scheduler: the job `a` is made and started, its timer expires,
and `a` is stopped before the goroutine of the timer has taken the job mutex. -/
def sampleSteps : List Step :=
  [.Make "a" "* * * * * * *" 3 none 0, .Start "a" 5, .fire 0, .Stop "a"]

/-- The world after `sampleSteps`: the job is Scheduled|Stopping and holds the handle of
its fired timer. -/
def sampleWorld : World :=
  { sched :=
      { jobs := [("a", 0)], jobsNotStopped := 1, chanJobsNotStopped := 0,
        heap := [{ name := "a", cronExpression := ⟨13⟩, function := 3, data := none,
                   state := StateScheduled ||| StateStopping, nextRun := 14, timer := some 0 }],
        timers := [{ d := 9, job := 0, status := .fired }], calls := [] },
    runs := [] }

/-- The world after the first two of `sampleSteps`: the job `a` is Scheduled and its
timer is armed. -/
def sampleIdle : World :=
  { sched :=
      { jobs := [("a", 0)], jobsNotStopped := 1, chanJobsNotStopped := 0,
        heap := [{ name := "a", cronExpression := ⟨13⟩, function := 3, data := none,
                   state := StateScheduled, nextRun := 14, timer := some 0 }],
        timers := [{ d := 9, job := 0, status := .armed }], calls := [] },
    runs := [] }

/-- A run of `StopAllWait` from `sampleIdle` that has to wait: the timer of `a` expires
and `run` takes the job before `StopAll`, the callback is invoked after the first load of
the counter, and the second section of `run` stops the job and sends on the channel. -/
def sampleWait : List Event :=
  [.other (.fire 0), .other (.runBegin 0 20), .wait .receive, .wait .receive,
    .other (.runCall 0), .other (.runEnd 0 30), .wait .receive, .wait .receive,
    .wait .receive]

/-- A run of `StopAllWait` from `sampleIdle` that ends by the timeout: the timer of `a`
expires and `run` takes the job before `StopAll`, the call loads the counter, enters the
loop, and the timeout case is taken while the callback has not returned. -/
def sampleTimeout : List Event :=
  [.other (.fire 0), .other (.runBegin 0 20), .wait .receive, .wait .receive,
    .wait .timeout]

/-- The world and the call after the run `sampleWait` from `sampleIdle`. -/
def sampleDrained : Waiting :=
  { world :=
      { sched :=
          { jobs := [("a", 0)], jobsNotStopped := 0, chanJobsNotStopped := 1,
            heap := [{ name := "a", cronExpression := ⟨13⟩, function := 3, data := none,
                       state := StateStopped, nextRun := 34, timer := none }],
            timers := [{ d := 9, job := 0, status := .ran }], calls := [(3, none)] },
        runs := [] },
    waiter := .returned .drained 0 1 }

/-- Seven moves from a new scheduler, three of them on a pointer held from an earlier
lookup: the job `a` is made and deleted, a second job `a` is made, both are started, the
timer of the first expires, and the first is deleted again before its `run` has taken
the job mutex. -/
def sampleMoves : List Move :=
  [.call (.Make "a" "* * * * * * *" 3 none 0), .held (.delete 0),
    .call (.Make "a" "* * * * * * *" 3 none 0), .held (.start 0 5), .call (.Start "a" 5),
    .call (.fire 0), .held (.delete 0)]

/-- The world after `sampleMoves`: the first job, no longer registered, is
Scheduled|Stopping|Deleting and holds the handle of its fired timer; the second is
Scheduled. -/
def sampleHeld : World :=
  { sched :=
      { jobs := [("a", 1)], jobsNotStopped := 2, chanJobsNotStopped := 0,
        heap := [{ name := "a", cronExpression := ⟨13⟩, function := 3, data := none,
                   state := StateScheduled ||| StateStopping ||| StateDeleting,
                   nextRun := 14, timer := some 0 },
                 { name := "a", cronExpression := ⟨13⟩, function := 3, data := none,
                   state := StateScheduled, nextRun := 14, timer := some 1 }],
        timers := [{ d := 9, job := 0, status := .fired },
                   { d := 9, job := 1, status := .armed }], calls := [] },
    runs := [] }

/-- Two goroutines and one name, as moves: `a` is made; a `Delete("a")` looks the name up
(job 0) and waits for the job mutex while `Delete("a")`, `Make("a", ...)` (job 1) and
`Start("a")` run to their ends; then the first Delete executes its locked section on the
pointer it holds. -/
def orphanMoves : List Move :=
  [.call (.Make "a" "* * * * * * *" 3 none 0), .call (.Delete "a"),
    .call (.Make "a" "* * * * * * *" 3 none 0), .call (.Start "a" 5), .held (.delete 0)]

/-- The world after `orphanMoves`: the registry is empty, job 0 is Stopped, and job 1 is
Scheduled with its timer armed and counted. -/
def sampleOrphan : World :=
  { sched :=
      { jobs := [], jobsNotStopped := 1, chanJobsNotStopped := 0,
        heap := [{ name := "a", cronExpression := ⟨13⟩, function := 3, data := none,
                   state := StateStopped, nextRun := 14, timer := none },
                 { name := "a", cronExpression := ⟨13⟩, function := 3, data := none,
                   state := StateScheduled, nextRun := 14, timer := some 0 }],
        timers := [{ d := 9, job := 1, status := .armed }], calls := [] },
    runs := [] }

/-! ## Outcomes, named for the statements below -/

/-- The scheduler `doStoppingOrDeleting` leaves when a flag is set: the job Stopped,
one off the counter, a send, and the registry entry of the job's name deleted when the
Deleting flag was set. -/
def stoppedBy (s : Scheduler) (p : Nat) (job : jobStruct) : Scheduler :=
  { jobs := if job.state &&& StateDeleting > 0 then mapDelete s.jobs job.name else s.jobs
    jobsNotStopped := s.jobsNotStopped - 1
    chanJobsNotStopped := trySend s.chanJobsNotStopped
    heap := s.heap.set p { job with state := StateStopped }
    timers := s.timers
    calls := s.calls }

/-- What a step of another goroutine may change in a job whose callback is executing:
flags are added and the rule, the callback and the payload replaced, nothing else. -/
def leftRunning (job job1 : jobStruct) : Prop :=
  job1.state &&& StateRunning > 0 ∧ job1.nextRun = job.nextRun ∧ job1.timer = job.timer ∧
  job1.name = job.name

/-- The job at `p` exists, and its timer handle points to a timer whenever `stop` would
call `job.timer.Stop()` (the state is not Stopped and lacks the Running flag). -/
def Usable (s : Scheduler) (p : Nat) : Prop :=
  ∃ job, s.heap[p]? = some job ∧
    (job.state ≠ StateStopped → ¬ job.state &&& StateRunning > 0 →
      ∃ t, job.timer = some t ∧ t < s.timers.length)

/-- The job at `p` is idle: it is Stopped, or it is Scheduled and holds the handle of an
armed timer made for it, which `timer.Stop()` can still cancel. -/
def Idle (s : Scheduler) (p : Nat) : Prop :=
  ∃ job, s.heap[p]? = some job ∧
    (job.state = StateStopped ∨
      (job.state = StateScheduled ∧
        ∃ t tm, job.timer = some t ∧ s.timers[t]? = some tm ∧ tm.job = p ∧
          tm.status = .armed))

/-! ## Bit flags -/

theorem testBit_two (i : Nat) : Nat.testBit 2 i = decide (1 = i) := by
  have h := @Nat.testBit_two_pow 1 i
  simpa using h

theorem testBit_four (i : Nat) : Nat.testBit 4 i = decide (2 = i) := by
  have h := @Nat.testBit_two_pow 2 i
  simpa using h

theorem testBit_eight (i : Nat) : Nat.testBit 8 i = decide (3 = i) := by
  have h := @Nat.testBit_two_pow 3 i
  simpa using h

theorem testBit_sixteen (i : Nat) : Nat.testBit 16 i = decide (4 = i) := by
  have h := @Nat.testBit_two_pow 4 i
  simpa using h

/-- Adding the Stopping flag does not touch the Running flag. -/
theorem stopping_keeps_running (st : State) :
    (st ||| StateStopping) &&& StateRunning = st &&& StateRunning := by
  apply Nat.eq_of_testBit_eq
  intro i
  simp only [StateStopping, StateRunning, Nat.testBit_land, Nat.testBit_lor, testBit_two,
    testBit_four]
  by_cases h : 1 = i
  · subst h; simp
  · simp [h]

/-- Adding the Deleting flag does not touch the Running flag. -/
theorem deleting_keeps_running (st : State) :
    (st ||| StateDeleting) &&& StateRunning = st &&& StateRunning := by
  apply Nat.eq_of_testBit_eq
  intro i
  simp only [StateDeleting, StateRunning, Nat.testBit_land, Nat.testBit_lor, testBit_two,
    testBit_sixteen]
  by_cases h : 1 = i
  · subst h; simp
  · simp [h]

/-- A state with the Stopping flag is not the state Stopped. -/
theorem stopping_ne_stopped (st : State) : st ||| StateStopping ≠ StateStopped := by
  intro h
  have h2 := congrArg (fun n => Nat.testBit n 2) h
  simp [StateStopping, StateStopped, Nat.testBit_lor, testBit_four, testBit_eight] at h2

/-- A state with the Deleting flag is not the state Stopped. -/
theorem deleting_ne_stopped (st : State) : st ||| StateDeleting ≠ StateStopped := by
  intro h
  have h2 := congrArg (fun n => Nat.testBit n 4) h
  simp [StateDeleting, StateStopped, Nat.testBit_lor, testBit_sixteen, testBit_eight] at h2

/-- A state with the Running flag is not the state Stopped. -/
theorem running_ne_stopped (st : State) (h : st &&& StateRunning > 0) : st ≠ StateStopped := by
  intro h2
  subst h2
  revert h
  decide

/-- Adding the Stopping flag twice is adding it once. -/
theorem stopping_idem (st : State) :
    (st ||| StateStopping) ||| StateStopping = st ||| StateStopping := by
  simp [Nat.lor_assoc]

/-- The Stopping flag is set once added. -/
theorem stopping_set (st : State) : (st ||| StateStopping) &&& StateStopping > 0 := by
  have h : (st ||| StateStopping) &&& StateStopping ≠ 0 := by
    intro h
    have h2 := congrArg (fun n => Nat.testBit n 2) h
    simp [StateStopping, Nat.testBit_lor, Nat.testBit_land, testBit_four] at h2
  exact Nat.pos_of_ne_zero h

/-- The Deleting flag is set once added. -/
theorem deleting_set (st : State) : (st ||| StateDeleting) &&& StateDeleting > 0 := by
  have h : (st ||| StateDeleting) &&& StateDeleting ≠ 0 := by
    intro h
    have h2 := congrArg (fun n => Nat.testBit n 4) h
    simp [StateDeleting, Nat.testBit_lor, Nat.testBit_land, testBit_sixteen] at h2
  exact Nat.pos_of_ne_zero h

/-! ## Memory -/

theorem heap_lt {s : Scheduler} {p : Nat} {job : jobStruct} (h : s.heap[p]? = some job) :
    p < s.heap.length := by
  obtain ⟨hlt, _⟩ := List.getElem?_eq_some.mp h
  exact hlt

@[simp] theorem setJob_jobs (s : Scheduler) (p : Nat) (job : jobStruct) :
    (setJob s p job).jobs = s.jobs := rfl

@[simp] theorem setJob_timers (s : Scheduler) (p : Nat) (job : jobStruct) :
    (setJob s p job).timers = s.timers := rfl

@[simp] theorem setJob_jobsNotStopped (s : Scheduler) (p : Nat) (job : jobStruct) :
    (setJob s p job).jobsNotStopped = s.jobsNotStopped := rfl

@[simp] theorem setJob_chanJobsNotStopped (s : Scheduler) (p : Nat) (job : jobStruct) :
    (setJob s p job).chanJobsNotStopped = s.chanJobsNotStopped := rfl

@[simp] theorem setJob_calls (s : Scheduler) (p : Nat) (job : jobStruct) :
    (setJob s p job).calls = s.calls := rfl

theorem setJob_heap_self {s : Scheduler} {p : Nat} {job : jobStruct} (h : s.heap[p]? = some job)
    (job1 : jobStruct) : (setJob s p job1).heap[p]? = some job1 := by
  simp [setJob, List.getElem?_set, heap_lt h]

theorem setJob_heap_ne (s : Scheduler) {p q : Nat} (h : q ≠ p) (job1 : jobStruct) :
    (setJob s p job1).heap[q]? = s.heap[q]? := by
  simp [setJob, List.getElem?_set, Ne.symm h]

theorem setJob_same {s : Scheduler} {p : Nat} {job : jobStruct} (h : s.heap[p]? = some job) :
    setJob s p job = s := by
  obtain ⟨hlt, hget⟩ := List.getElem?_eq_some.mp h
  have : s.heap.set p job = s.heap := by
    apply List.ext_getElem?
    intro i
    by_cases hi : p = i
    · subst hi; simp [List.getElem?_set, hlt, h]
    · simp [List.getElem?_set, hi]
  simp [setJob, this]

theorem setJob_setJob (s : Scheduler) (p : Nat) (j1 j2 : jobStruct) :
    setJob (setJob s p j1) p j2 = setJob s p j2 := by
  simp [setJob, List.set_set]

/-! ## Start -/

theorem lockedStart_stopped {s : Scheduler} {p : Nat} {job : jobStruct} (now : Time)
    (hj : s.heap[p]? = some job) (h : job.state = StateStopped) :
    lockedStart s p now = some (Error.nil, setJob
      { s with jobsNotStopped := s.jobsNotStopped + 1,
               timers := s.timers ++
                 [{ d := Sub job.nextRun now, job := p, status := .armed }] }
      p { job with state := StateScheduled, timer := some s.timers.length }) := by
  simp [lockedStart, hj, h, AfterFunc]

/-- C1: for an existing job, Start returns nil exactly when the state is Stopped; on
success the state is Scheduled, the counter has grown by one, one armed timer was added
for `nextRun - now` and the job holds its handle, everything else being unchanged; in
any other state Start returns ErrJobMustBeStopped and the scheduler is unchanged. -/
theorem Start_contract (s : Scheduler) (name : String) (now : Time) (p : Nat) (job : jobStruct)
    (hl : mapLookup s.jobs name = some p) (hj : s.heap[p]? = some job) :
    ((Start s name now).map Prod.fst = some Error.nil ↔ job.state = StateStopped) ∧
    (job.state = StateStopped →
      ∃ s1, Start s name now = some (Error.nil, s1) ∧
        s1.heap[p]? =
          some { job with state := StateScheduled, timer := some s.timers.length } ∧
        s1.jobsNotStopped = s.jobsNotStopped + 1 ∧
        s1.timers = s.timers ++ [{ d := Sub job.nextRun now, job := p, status := .armed }] ∧
        (∀ q, q ≠ p → s1.heap[q]? = s.heap[q]?) ∧
        s1.jobs = s.jobs ∧ s1.chanJobsNotStopped = s.chanJobsNotStopped ∧
        s1.calls = s.calls) ∧
    (job.state ≠ StateStopped → Start s name now = some (Error.ErrJobMustBeStopped, s)) := by
  refine ⟨?_, ?_, ?_⟩
  · by_cases h : job.state = StateStopped <;>
      simp [Start, lockedStart, hl, hj, h, AfterFunc]
  · intro h
    refine ⟨_, by simp [Start, lockedStart, hl, hj, h, AfterFunc]; rfl, ?_⟩
    refine ⟨?_, rfl, rfl, ?_, rfl, rfl, rfl⟩
    · simp [setJob, List.getElem?_set, heap_lt hj]
    · intro q hq
      simp [setJob, List.getElem?_set, Ne.symm hq]
  · intro h
    simp [Start, lockedStart, hl, hj, h]

/-- C1 at a sample: Start on the stopped sample job. -/
theorem Start_contract_witness :
    ((Start (sampleSched StateStopped none .stopped 0) "a" 100).map Prod.fst = some Error.nil ↔
      (sampleJob StateStopped none).state = StateStopped) ∧
    ((sampleJob StateStopped none).state = StateStopped →
      ∃ s1, Start (sampleSched StateStopped none .stopped 0) "a" 100 = some (Error.nil, s1) ∧
        s1.heap[0]? =
          some { sampleJob StateStopped none with
                 state := StateScheduled,
                 timer := some (sampleSched StateStopped none .stopped 0).timers.length } ∧
        s1.jobsNotStopped = (sampleSched StateStopped none .stopped 0).jobsNotStopped + 1 ∧
        s1.timers = (sampleSched StateStopped none .stopped 0).timers ++
          [{ d := Sub (sampleJob StateStopped none).nextRun 100, job := 0, status := .armed }] ∧
        (∀ q, q ≠ 0 → s1.heap[q]? = (sampleSched StateStopped none .stopped 0).heap[q]?) ∧
        s1.jobs = (sampleSched StateStopped none .stopped 0).jobs ∧
        s1.chanJobsNotStopped = (sampleSched StateStopped none .stopped 0).chanJobsNotStopped ∧
        s1.calls = (sampleSched StateStopped none .stopped 0).calls) ∧
    ((sampleJob StateStopped none).state ≠ StateStopped →
      Start (sampleSched StateStopped none .stopped 0) "a" 100 =
        some (Error.ErrJobMustBeStopped, sampleSched StateStopped none .stopped 0)) :=
  Start_contract (sampleSched StateStopped none .stopped 0) "a" 100 0
    (sampleJob StateStopped none) (by decide) (by decide)

/-! ## Stop -/

/-- The call `timer.Stop()` on a handle that points to an armed timer. -/
theorem timerStop_armed {s : Scheduler} {t : Nat} {tm : Timer} (h : s.timers[t]? = some tm)
    (ha : tm.status = .armed) :
    timerStop s (some t) =
      some (true, { s with timers := s.timers.set t { tm with status := .stopped } }) := by
  simp [timerStop, h, ha]

/-- The call `timer.Stop()` on a handle that points to a timer no longer armed. -/
theorem timerStop_not_armed {s : Scheduler} {t : Nat} {tm : Timer} (h : s.timers[t]? = some tm)
    (ha : tm.status ≠ .armed) : timerStop s (some t) = some (false, s) := by
  simp [timerStop, h, ha]

theorem jobDelete_stopped {s : Scheduler} {p : Nat} {job : jobStruct}
    (hj : s.heap[p]? = some job) (h : job.state = StateStopped) :
    jobDelete s p = some { s with jobs := mapDelete s.jobs job.name } := by
  simp [jobDelete, hj, h]

theorem jobDelete_busy {s : Scheduler} {p : Nat} {job : jobStruct}
    (hj : s.heap[p]? = some job) (h : job.state ≠ StateStopped) :
    jobDelete s p = some (setJob s p { job with state := job.state ||| StateDeleting }) := by
  simp [jobDelete, hj, h]

/-- C2: the outcomes of the locked stop step, by case on the job's state: Stopped,
nothing changes; Running flag set, only the Stopping flag is added; otherwise (as for a
Scheduled job) a successful timer cancel clears the handle, sets Stopped, takes one off
the counter and sends without blocking, while a failed cancel only adds the Stopping
flag; Stop on a job in state Running shows Running|Stopping. -/
theorem stop_outcomes (s : Scheduler) (p : Nat) (job : jobStruct)
    (hj : s.heap[p]? = some job) :
    (job.state = StateStopped → stop s p = some s) ∧
    (job.state &&& StateRunning > 0 →
      stop s p = some (setJob s p { job with state := job.state ||| StateStopping }) ∧
      (job.state ||| StateStopping) &&& StateStopping > 0 ∧
      (job.state ||| StateStopping) &&& StateRunning > 0) ∧
    (∀ t tm, job.state ≠ StateStopped → ¬ job.state &&& StateRunning > 0 →
      job.timer = some t → s.timers[t]? = some tm →
      (tm.status = .armed →
        ∃ s1, stop s p = some s1 ∧
          s1.heap[p]? = some { job with timer := none, state := StateStopped } ∧
          s1.jobsNotStopped = s.jobsNotStopped - 1 ∧
          s1.chanJobsNotStopped = trySend s.chanJobsNotStopped ∧
          s1.timers = s.timers.set t { tm with status := .stopped } ∧
          (∀ q, q ≠ p → s1.heap[q]? = s.heap[q]?) ∧ s1.jobs = s.jobs ∧ s1.calls = s.calls) ∧
      (tm.status ≠ .armed →
        stop s p = some (setJob s p { job with state := job.state ||| StateStopping }) ∧
        (job.state = StateScheduled →
          (job.state ||| StateStopping) = StateScheduled ||| StateStopping))) ∧
    (∀ name, mapLookup s.jobs name = some p → job.state = StateRunning →
      ∃ s1, Stop s name = some (Error.nil, s1) ∧
        GetState s1 name = some (StateRunning ||| StateStopping, Error.nil)) := by
  refine ⟨?_, ?_, ?_, ?_⟩
  · intro h
    simp [stop, hj, h]
  · intro h
    refine ⟨?_, stopping_set _, ?_⟩
    · simp [stop, hj, h, running_ne_stopped _ h]
    · rw [stopping_keeps_running]; exact h
  · intro t tm h1 h2 ht htm
    refine ⟨?_, ?_⟩
    · intro ha
      refine ⟨_, by simp [stop, hj, h1, h2, ht, timerStop_armed htm ha]; rfl, ?_⟩
      refine ⟨?_, rfl, rfl, rfl, ?_, rfl, rfl⟩
      · simp [setJob, List.getElem?_set, heap_lt hj]
      · intro q hq
        simp [setJob, List.getElem?_set, Ne.symm hq]
    · intro ha
      refine ⟨?_, ?_⟩
      · simp [stop, hj, h1, h2, ht, timerStop_not_armed htm ha]
      · intro h
        rw [h]
  · intro name hl h
    have hr : job.state &&& StateRunning > 0 := by rw [h]; decide
    refine ⟨setJob s p { job with state := job.state ||| StateStopping }, ?_, ?_⟩
    · simp [Stop, hl, stop, hj, hr, running_ne_stopped _ hr]
    · simp [GetState, hl, setJob_heap_self hj, h]

/-- C2 at a sample: the stop step on the sample job, Scheduled with its timer armed. -/
theorem stop_outcomes_witness :
    ∃ s1, stop (sampleSched StateScheduled (some 0) .armed 1) 0 = some s1 ∧
      s1.heap[0]? = some { sampleJob StateScheduled (some 0) with
                           timer := none, state := StateStopped } ∧
      s1.jobsNotStopped = 1 - 1 ∧
      s1.chanJobsNotStopped = trySend 0 ∧
      s1.timers = [{ d := 900, job := 0, status := .stopped }] ∧
      (∀ q, q ≠ 0 → s1.heap[q]? = (sampleSched StateScheduled (some 0) .armed 1).heap[q]?) ∧
      s1.jobs = [("a", 0)] ∧ s1.calls = [] :=
  ((stop_outcomes (sampleSched StateScheduled (some 0) .armed 1) 0
      (sampleJob StateScheduled (some 0)) (by decide)).2.2.1 0
      { d := 900, job := 0, status := .armed } (by decide) (by decide) (by decide)
      (by decide)).1 (by decide)

/-- C3: Stop on an existing job returns nil, and a second Stop right after the first
returns nil and leaves the whole scheduler (so the job's state, timer handle and the
counter) as the first left it; the first takes at most one off the counter. -/
theorem Stop_idempotent (s : Scheduler) (name : String) (p : Nat) (job : jobStruct)
    (hl : mapLookup s.jobs name = some p) (hj : s.heap[p]? = some job)
    (hT : job.state ≠ StateStopped → ¬ job.state &&& StateRunning > 0 →
      ∃ t tm, job.timer = some t ∧ s.timers[t]? = some tm) :
    ∃ s1, Stop s name = some (Error.nil, s1) ∧ Stop s1 name = some (Error.nil, s1) ∧
      (s1.jobsNotStopped = s.jobsNotStopped ∨ s1.jobsNotStopped = s.jobsNotStopped - 1) := by
  by_cases h1 : job.state = StateStopped
  · exact ⟨s, by simp [Stop, hl, stop, hj, h1], by simp [Stop, hl, stop, hj, h1], Or.inl rfl⟩
  by_cases h2 : job.state &&& StateRunning > 0
  · have h3 : (job.state ||| StateStopping) &&& StateRunning > 0 := by
      rw [stopping_keeps_running]; exact h2
    refine ⟨setJob s p { job with state := job.state ||| StateStopping }, ?_, ?_, Or.inl rfl⟩
    · simp [Stop, hl, stop, hj, h1, h2]
    · simp [Stop, hl, stop, setJob_heap_self hj, stopping_ne_stopped, h3, setJob_setJob,
        stopping_idem]
  obtain ⟨t, tm, ht, htm⟩ := hT h1 h2
  by_cases ha : tm.status = .armed
  · refine ⟨setJob
        { s with timers := s.timers.set t { tm with status := .stopped },
                 jobsNotStopped := s.jobsNotStopped - 1,
                 chanJobsNotStopped := trySend s.chanJobsNotStopped }
        p { job with timer := none, state := StateStopped }, ?_, ?_, Or.inr rfl⟩
    · simp [Stop, hl, stop, hj, h1, h2, ht, timerStop_armed htm ha]
    · have hj1 : (setJob
          { s with timers := s.timers.set t { tm with status := .stopped },
                   jobsNotStopped := s.jobsNotStopped - 1,
                   chanJobsNotStopped := trySend s.chanJobsNotStopped }
          p { job with timer := none, state := StateStopped }).heap[p]? =
          some { job with timer := none, state := StateStopped } := by
        simp [setJob, List.getElem?_set, heap_lt hj]
      simp [Stop, hl, stop, hj1]
  · have h3 : ¬ (job.state ||| StateStopping) &&& StateRunning > 0 := by
      rw [stopping_keeps_running]; exact h2
    refine ⟨setJob s p { job with state := job.state ||| StateStopping }, ?_, ?_, Or.inl rfl⟩
    · simp [Stop, hl, stop, hj, h1, h2, ht, timerStop_not_armed htm ha]
    · have hts : ∀ j, timerStop (setJob s p j) (some t) = some (false, setJob s p j) :=
        fun j => timerStop_not_armed (s := setJob s p j) htm ha
      simp [Stop, hl, stop, setJob_heap_self hj, stopping_ne_stopped, h3, ht, hts,
        setJob_setJob, stopping_idem]

/-- C3 at a sample: Stop twice on the sample job whose timer has already fired. -/
theorem Stop_idempotent_witness :
    ∃ s1, Stop (sampleSched StateScheduled (some 0) .fired 1) "a" = some (Error.nil, s1) ∧
      Stop s1 "a" = some (Error.nil, s1) ∧
      (s1.jobsNotStopped = (sampleSched StateScheduled (some 0) .fired 1).jobsNotStopped ∨
        s1.jobsNotStopped = (sampleSched StateScheduled (some 0) .fired 1).jobsNotStopped - 1) :=
  Stop_idempotent (sampleSched StateScheduled (some 0) .fired 1) "a" 0
    (sampleJob StateScheduled (some 0)) (by decide) (by decide)
    (fun _ _ => ⟨0, { d := 900, job := 0, status := .fired }, by decide, by decide⟩)

/-! ## run -/

theorem mapLookup_mapDelete (m : List (String × Nat)) (name : String) :
    mapLookup (mapDelete m name) name = none := by
  induction m with
  | nil => rfl
  | cons kv rest ih =>
    obtain ⟨k, v⟩ := kv
    by_cases h : k = name
    · simp [mapDelete, h, ih]
    · simp [mapDelete, mapLookup, h, ih]

theorem mapLookup_mapDelete_ne (m : List (String × Nat)) {name other : String}
    (h : other ≠ name) : mapLookup (mapDelete m name) other = mapLookup m other := by
  induction m with
  | nil => rfl
  | cons kv rest ih =>
    obtain ⟨k, v⟩ := kv
    by_cases hk : k = name
    · have hk2 : k ≠ other := by rw [hk]; exact Ne.symm h
      simp [mapDelete, mapLookup, hk, ih, Ne.symm h]
    · by_cases ho : k = other
      · subst ho
        simp [mapDelete, mapLookup, h]
      · simp [mapDelete, mapLookup, hk, ho, ih]

theorem doStoppingOrDeleting_flagged {s : Scheduler} {p : Nat} {job : jobStruct}
    (hj : s.heap[p]? = some job)
    (hf : job.state &&& StateDeleting > 0 ∨ job.state &&& StateStopping > 0) :
    doStoppingOrDeleting s p = some (true, stoppedBy s p job) := by
  by_cases hd : job.state &&& StateDeleting > 0
  · simp [doStoppingOrDeleting, hj, hd, jobDelete, setJob, List.getElem?_set, heap_lt hj,
      stoppedBy]
  · have hs : job.state &&& StateStopping > 0 := hf.resolve_left hd
    simp [doStoppingOrDeleting, hj, hd, hs, setJob, stoppedBy]

theorem doStoppingOrDeleting_clear {s : Scheduler} {p : Nat} {job : jobStruct}
    (hj : s.heap[p]? = some job)
    (hd : ¬ job.state &&& StateDeleting > 0) (hs : ¬ job.state &&& StateStopping > 0) :
    doStoppingOrDeleting s p = some (false, s) := by
  simp [doStoppingOrDeleting, hj, hd, hs]

theorem runBegin_flagged (cx : Cronexpr) {s : Scheduler} {p : Nat} {job : jobStruct}
    (now : Time) (hj : s.heap[p]? = some job)
    (hf : job.state &&& StateDeleting > 0 ∨ job.state &&& StateStopping > 0) :
    runBegin cx s p now =
      some (false, stoppedBy (setJob s p { job with timer := none }) p
        { job with timer := none }) := by
  have hj1 := setJob_heap_self hj { job with timer := none }
  simp [runBegin, hj, doStoppingOrDeleting_flagged hj1 hf]

theorem timerFire_idle {s : Scheduler} {t : Nat} {tm : Timer} (h : s.timers[t]? = some tm)
    (hna : tm.status ≠ .armed) : timerFire s t = s := by
  simp [timerFire, h, hna]

theorem timerRun_idle (cx : Cronexpr) {s : Scheduler} {t : Nat} {tm : Timer} (now : Time)
    (h : s.timers[t]? = some tm) (hnf : tm.status ≠ .fired) :
    timerRun cx s t now = some (false, s) := by
  simp [timerRun, h, hnf]

/-- C4: when `run` takes the job mutex and finds the Stopping or Deleting flag, it
returns without invoking the callback: the state is Stopped, the timer handle nil, no
timer is made, the counter is one less, and the registry entry of the job's name is
deleted exactly when the Deleting flag was set.  From a Scheduled job whose timer is
armed or has just fired, Stop, then the expiry of the timer, then its goroutine, end in
state Stopped with no invocation and the counter one less. -/
theorem run_suppressed (cx : Cronexpr) (s : Scheduler) (p : Nat) (job : jobStruct)
    (now now2 : Time) (hj : s.heap[p]? = some job) :
    (job.state &&& StateDeleting > 0 ∨ job.state &&& StateStopping > 0 →
      ∃ s1, runBegin cx s p now = some (false, s1) ∧ run cx s p now now2 = some s1 ∧
        s1.calls = s.calls ∧
        s1.heap[p]? = some { job with timer := none, state := StateStopped } ∧
        s1.timers = s.timers ∧
        s1.jobsNotStopped = s.jobsNotStopped - 1 ∧
        s1.chanJobsNotStopped = trySend s.chanJobsNotStopped ∧
        (∀ q, q ≠ p → s1.heap[q]? = s.heap[q]?) ∧
        (job.state &&& StateDeleting > 0 →
          s1.jobs = mapDelete s.jobs job.name ∧ mapLookup s1.jobs job.name = none) ∧
        (¬ job.state &&& StateDeleting > 0 → s1.jobs = s.jobs)) ∧
    (∀ name t tm, mapLookup s.jobs name = some p → job.state = StateScheduled →
      job.timer = some t → s.timers[t]? = some tm → tm.job = p →
      tm.status = .armed ∨ tm.status = .fired →
      ∃ s1 s3, Stop s name = some (Error.nil, s1) ∧
        timerRun cx (timerFire s1 t) t now = some (false, s3) ∧
        (s3.heap[p]?).map (fun j => (j.state, j.timer)) = some (StateStopped, none) ∧
        s3.calls = s.calls ∧
        s3.jobsNotStopped = s.jobsNotStopped - 1 ∧
        s3.jobs = s.jobs) := by
  refine ⟨?_, ?_⟩
  · intro hf
    refine ⟨_, runBegin_flagged cx now hj hf, by simp [run, runBegin_flagged cx now hj hf],
      rfl, ?_, rfl, rfl, rfl, ?_, ?_, ?_⟩
    · simp [stoppedBy, setJob, List.getElem?_set, heap_lt hj]
    · intro q hq
      simp [stoppedBy, setJob, List.getElem?_set, Ne.symm hq]
    · intro hd
      have hd2 : 0 < job.state &&& StateDeleting := hd
      simp [stoppedBy, hd2, mapLookup_mapDelete]
    · intro hd
      have hd2 : ¬ 0 < job.state &&& StateDeleting := hd
      simp [stoppedBy, hd2]
  · intro name t tm hl hst ht htm htj hstatus
    have h1 : job.state ≠ StateStopped := by rw [hst]; decide
    have h2 : ¬ job.state &&& StateRunning > 0 := by rw [hst]; decide
    have hlt : t < s.timers.length := (List.getElem?_eq_some.mp htm).1
    rcases hstatus with ha | hfi
    · obtain ⟨s1, hs1⟩ : ∃ s1 : Scheduler, s1 = setJob
          { s with timers := s.timers.set t { tm with status := .stopped },
                   jobsNotStopped := s.jobsNotStopped - 1,
                   chanJobsNotStopped := trySend s.chanJobsNotStopped }
          p { job with timer := none, state := StateStopped } := ⟨_, rfl⟩
      have hstop : Stop s name = some (Error.nil, s1) := by
        rw [hs1]
        simp [Stop, hl, stop, hj, h1, h2, ht, timerStop_armed htm ha]
      have htm1 : s1.timers[t]? = some { tm with status := .stopped } := by
        rw [hs1]
        simp [List.getElem?_set, hlt]
      refine ⟨s1, s1, hstop, ?_, ?_, ?_, ?_, ?_⟩
      · rw [timerFire_idle htm1 (by simp), timerRun_idle cx now htm1 (by simp)]
      · rw [hs1]
        simp [setJob, List.getElem?_set, heap_lt hj]
      · rw [hs1]; rfl
      · rw [hs1]; rfl
      · rw [hs1]; rfl
    · have hna : tm.status ≠ .armed := by rw [hfi]; decide
      have hj1 := setJob_heap_self hj { job with state := job.state ||| StateStopping }
      have hfl : ({ job with state := job.state ||| StateStopping } : jobStruct).state &&&
            StateDeleting > 0 ∨
          ({ job with state := job.state ||| StateStopping } : jobStruct).state &&&
            StateStopping > 0 := Or.inr (stopping_set _)
      have hnd : ¬ 0 < (StateScheduled ||| StateStopping) &&& StateDeleting := by decide
      obtain ⟨s1, hs1⟩ : ∃ s1 : Scheduler,
          s1 = setJob s p { job with state := job.state ||| StateStopping } := ⟨_, rfl⟩
      have hstop : Stop s name = some (Error.nil, s1) := by
        rw [hs1]
        simp [Stop, hl, stop, hj, h1, h2, ht, timerStop_not_armed htm hna]
      have htm1 : s1.timers[t]? = some tm := by rw [hs1]; exact htm
      have hj2 : ({ s1 with timers := s1.timers.set t { tm with status := .ran } } :
          Scheduler).heap[p]? = some { job with state := job.state ||| StateStopping } := by
        rw [hs1]; exact hj1
      have hrun : timerRun cx (timerFire s1 t) t now = some (false,
          stoppedBy (setJob { s1 with timers := s1.timers.set t { tm with status := .ran } } p
            { job with state := job.state ||| StateStopping, timer := none }) p
            { job with state := job.state ||| StateStopping, timer := none }) := by
        rw [timerFire_idle htm1 hna]
        simp only [timerRun, htm1, hfi, if_true]
        rw [show runBegin cx { s1 with timers := s1.timers.set t { tm with status := .ran } }
            tm.job now =
          runBegin cx { s1 with timers := s1.timers.set t { tm with status := .ran } } p now
          from by rw [htj]]
        exact runBegin_flagged cx now hj2 hfl
      refine ⟨s1, _, hstop, hrun, ?_, ?_, ?_, ?_⟩
      · rw [hs1]
        simp [stoppedBy, setJob, List.getElem?_set, heap_lt hj]
      · rw [hs1]; rfl
      · rw [hs1]; rfl
      · rw [hs1]
        simp [stoppedBy, hst, hnd]

/-- C4 at a sample: the sample job, Scheduled with its timer fired, is stopped and then
its goroutine runs. -/
theorem run_suppressed_witness :
    ∃ s1 s3, Stop (sampleSched StateScheduled (some 0) .fired 1) "a" = some (Error.nil, s1) ∧
      timerRun sampleCron (timerFire s1 0) 0 2000 = some (false, s3) ∧
      (s3.heap[0]?).map (fun j => (j.state, j.timer)) = some (StateStopped, none) ∧
      s3.calls = (sampleSched StateScheduled (some 0) .fired 1).calls ∧
      s3.jobsNotStopped = (sampleSched StateScheduled (some 0) .fired 1).jobsNotStopped - 1 ∧
      s3.jobs = (sampleSched StateScheduled (some 0) .fired 1).jobs :=
  (run_suppressed sampleCron (sampleSched StateScheduled (some 0) .fired 1) 0
    (sampleJob StateScheduled (some 0)) 2000 2001 (by decide)).2 "a" 0
    { d := 900, job := 0, status := .fired } (by decide) (by decide) (by decide) (by decide)
    (by decide) (Or.inr (by decide))

theorem runBegin_clear (cx : Cronexpr) {s : Scheduler} {p : Nat} {job : jobStruct}
    (now : Time) (hj : s.heap[p]? = some job)
    (hd : ¬ job.state &&& StateDeleting > 0) (hs : ¬ job.state &&& StateStopping > 0) :
    runBegin cx s p now =
      some (true, setJob s p { job with timer := none, state := StateRunning,
                                        nextRun := cx.Next job.cronExpression now }) := by
  have hj1 := setJob_heap_self hj { job with timer := none }
  have hc : doStoppingOrDeleting (setJob s p { job with timer := none }) p =
      some (false, setJob s p { job with timer := none }) :=
    doStoppingOrDeleting_clear hj1 hd hs
  simp [runBegin, hj, hc, hj1, setJob_setJob]

theorem runEnd_flagged {s : Scheduler} {p : Nat} {job : jobStruct} (now : Time)
    (hj : s.heap[p]? = some job)
    (hf : job.state &&& StateDeleting > 0 ∨ job.state &&& StateStopping > 0) :
    runEnd s p now = some (stoppedBy s p job) := by
  simp [runEnd, doStoppingOrDeleting_flagged hj hf]

theorem runEnd_clear {s : Scheduler} {p : Nat} {job : jobStruct} (now : Time)
    (hj : s.heap[p]? = some job)
    (hd : ¬ job.state &&& StateDeleting > 0) (hs : ¬ job.state &&& StateStopping > 0) :
    runEnd s p now =
      some (setJob
        { s with timers := s.timers ++ [{ d := Sub job.nextRun now, job := p, status := .armed }] }
        p { job with state := StateScheduled, timer := some s.timers.length }) := by
  simp [runEnd, doStoppingOrDeleting_clear hj hd hs, hj, AfterFunc]

/-! ## A Running job is left alone -/

theorem timerStop_frame {s s1 : Scheduler} {t : Option Nat} {b : Bool}
    (h : timerStop s t = some (b, s1)) :
    s1.heap = s.heap ∧ s1.jobs = s.jobs ∧ s1.jobsNotStopped = s.jobsNotStopped ∧
    s1.chanJobsNotStopped = s.chanJobsNotStopped ∧ s1.calls = s.calls := by
  cases t with
  | none => simp [timerStop] at h
  | some i =>
    cases htm : s.timers[i]? with
    | none => simp [timerStop, htm] at h
    | some tm =>
      by_cases ha : tm.status = .armed
      · simp [timerStop, htm, ha] at h
        obtain ⟨_, h2⟩ := h
        subst h2
        exact ⟨rfl, rfl, rfl, rfl, rfl⟩
      · simp [timerStop, htm, ha] at h
        obtain ⟨_, h2⟩ := h
        subst h2
        exact ⟨rfl, rfl, rfl, rfl, rfl⟩

/-- The stop step on one job leaves every other job as it was. -/
theorem stop_heap_ne {s s1 : Scheduler} {p q : Nat} (h : stop s q = some s1) (hpq : p ≠ q) :
    s1.heap[p]? = s.heap[p]? := by
  cases hq : s.heap[q]? with
  | none => simp [stop, hq] at h
  | some jq =>
    by_cases h1 : jq.state = StateStopped
    · simp [stop, hq, h1] at h
      rw [← h]
    by_cases h2 : jq.state &&& StateRunning > 0
    · simp [stop, hq, h1, h2] at h
      rw [← h]
      exact setJob_heap_ne s hpq _
    cases hts : timerStop s jq.timer with
    | none => simp [stop, hq, h1, h2, hts] at h
    | some r =>
      obtain ⟨b, s2⟩ := r
      have hf := (timerStop_frame hts).1
      cases b with
      | true =>
        simp [stop, hq, h1, h2, hts] at h
        rw [← h]
        simp [setJob, List.getElem?_set, Ne.symm hpq, hf]
      | false =>
        simp [stop, hq, h1, h2, hts] at h
        rw [← h]
        simp [setJob, List.getElem?_set, Ne.symm hpq, hf]

/-- The step `jobDelete` on one job leaves every other job as it was. -/
theorem jobDelete_heap_ne {s s1 : Scheduler} {p q : Nat} (h : jobDelete s q = some s1)
    (hpq : p ≠ q) : s1.heap[p]? = s.heap[p]? := by
  cases hq : s.heap[q]? with
  | none => simp [jobDelete, hq] at h
  | some jq =>
    by_cases h1 : jq.state = StateStopped
    · simp [jobDelete, hq, h1] at h
      rw [← h]
    · simp [jobDelete, hq, h1] at h
      rw [← h]
      exact setJob_heap_ne s hpq _

theorem leftRunning_refl {job : jobStruct} (hr : job.state &&& StateRunning > 0) :
    leftRunning job job :=
  ⟨hr, rfl, rfl, rfl⟩

/-- The stop step on a job whose callback is executing. -/
theorem stop_running {s : Scheduler} {p : Nat} {job : jobStruct} (hj : s.heap[p]? = some job)
    (hr : job.state &&& StateRunning > 0) :
    stop s p = some (setJob s p { job with state := job.state ||| StateStopping }) := by
  simp [stop, hj, hr, running_ne_stopped _ hr]

/-- One step of another goroutine leaves a job whose callback is executing Running, with
its `nextRun`, timer handle and name. -/
theorem exec_leftRunning (cx : Cronexpr) {s s1 : Scheduler} {p : Nat} {job : jobStruct}
    (a : Meanwhile) (hj : s.heap[p]? = some job) (hr : job.state &&& StateRunning > 0)
    (h : Meanwhile.exec cx s a = some s1) :
    ∃ job1, s1.heap[p]? = some job1 ∧ leftRunning job job1 := by
  have hne := running_ne_stopped _ hr
  cases a with
  | make name cron function data now =>
    simp only [Meanwhile.exec, Option.some.injEq] at h
    refine ⟨job, ?_, leftRunning_refl hr⟩
    rw [← h]
    cases hp : cx.Parse cron with
    | error err => simp [Make, hp, hj]
    | ok expr =>
      cases hl : mapLookup s.jobs name with
      | some _ => simp [Make, hp, hl, hj]
      | none =>
        simp only [Make, hp, hl]
        rw [List.getElem?_append_left (heap_lt hj)]
        exact hj
  | start q now =>
    simp only [Meanwhile.exec] at h
    by_cases hq : q = p
    · subst hq
      simp [lockedStart, hj, hne] at h
      exact ⟨job, by rw [← h]; exact hj, leftRunning_refl hr⟩
    · refine ⟨job, ?_, leftRunning_refl hr⟩
      cases hjq : s.heap[q]? with
      | none => simp [lockedStart, hjq] at h
      | some jq =>
        by_cases h1 : jq.state = StateStopped
        · simp [lockedStart, hjq, h1, AfterFunc] at h
          rw [← h]
          simp [setJob, List.getElem?_set, hq, hj]
        · simp [lockedStart, hjq, h1] at h
          rw [← h]
          exact hj
  | stop q =>
    simp only [Meanwhile.exec] at h
    by_cases hq : q = p
    · subst hq
      rw [stop_running hj hr] at h
      simp only [Option.some.injEq] at h
      refine ⟨{ job with state := job.state ||| StateStopping },
        by rw [← h]; exact setJob_heap_self hj _, ?_, rfl, rfl, rfl⟩
      show (job.state ||| StateStopping) &&& StateRunning > 0
      rw [stopping_keeps_running]
      exact hr
    · exact ⟨job, by rw [stop_heap_ne h (Ne.symm hq)]; exact hj, leftRunning_refl hr⟩
  | delete q =>
    simp only [Meanwhile.exec, lockedDelete] at h
    cases hs : GoScheduler.stop s q with
    | none => simp [hs] at h
    | some s2 =>
      simp only [hs, Option.bind] at h
      by_cases hq : q = p
      · subst hq
        rw [stop_running hj hr] at hs
        simp only [Option.some.injEq] at hs
        have hj2 : s2.heap[q]? = some { job with state := job.state ||| StateStopping } := by
          rw [← hs]
          exact setJob_heap_self hj _
        rw [jobDelete_busy hj2 (stopping_ne_stopped _)] at h
        simp only [Option.some.injEq] at h
        refine ⟨{ job with state := (job.state ||| StateStopping) ||| StateDeleting },
          by rw [← h]; exact setJob_heap_self hj2 _, ?_, rfl, rfl, rfl⟩
        show ((job.state ||| StateStopping) ||| StateDeleting) &&& StateRunning > 0
        rw [deleting_keeps_running, stopping_keeps_running]
        exact hr
      · refine ⟨job, ?_, leftRunning_refl hr⟩
        rw [jobDelete_heap_ne h (Ne.symm hq), stop_heap_ne hs (Ne.symm hq)]
        exact hj
  | updateCron q cronExpression =>
    simp only [Meanwhile.exec] at h
    by_cases hq : q = p
    · subst hq
      simp [lockedUpdateCron, hj] at h
      exact ⟨{ job with cronExpression := cronExpression },
        by rw [← h]; exact setJob_heap_self hj _, hr, rfl, rfl, rfl⟩
    · cases hjq : s.heap[q]? with
      | none => simp [lockedUpdateCron, hjq] at h
      | some jq =>
        simp [lockedUpdateCron, hjq] at h
        refine ⟨job, ?_, leftRunning_refl hr⟩
        rw [← h, setJob_heap_ne s (Ne.symm hq)]
        exact hj
  | updateNextRun q nextRun now =>
    simp only [Meanwhile.exec] at h
    by_cases hq : q = p
    · subst hq
      simp [lockedUpdateNextRun, hj, hne, hr] at h
      exact ⟨job, by rw [← h]; exact hj, leftRunning_refl hr⟩
    · refine ⟨job, ?_, leftRunning_refl hr⟩
      cases hjq : s.heap[q]? with
      | none => simp [lockedUpdateNextRun, hjq] at h
      | some jq =>
        by_cases h1 : jq.state = StateStopped
        · simp [lockedUpdateNextRun, hjq, h1] at h
          rw [← h, setJob_heap_ne s (Ne.symm hq)]
          exact hj
        by_cases h2 : jq.state &&& StateRunning > 0
        · simp [lockedUpdateNextRun, hjq, h1, h2] at h
          rw [← h]
          exact hj
        cases hts : timerStop s jq.timer with
        | none => simp [lockedUpdateNextRun, hjq, h1, h2, hts] at h
        | some r =>
          obtain ⟨b, s2⟩ := r
          have hf := (timerStop_frame hts).1
          cases b with
          | true =>
            simp [lockedUpdateNextRun, hjq, h1, h2, hts, AfterFunc] at h
            rw [← h]
            simp [setJob, List.getElem?_set, hq, hf, hj]
          | false =>
            simp [lockedUpdateNextRun, hjq, h1, h2, hts] at h
            rw [← h, hf]
            exact hj
  | updateFunction q function data =>
    simp only [Meanwhile.exec] at h
    by_cases hq : q = p
    · subst hq
      simp [lockedUpdateFunction, hj] at h
      exact ⟨{ job with function := function, data := data },
        by rw [← h]; exact setJob_heap_self hj _, hr, rfl, rfl, rfl⟩
    · cases hjq : s.heap[q]? with
      | none => simp [lockedUpdateFunction, hjq] at h
      | some jq =>
        simp [lockedUpdateFunction, hjq] at h
        refine ⟨job, ?_, leftRunning_refl hr⟩
        rw [← h, setJob_heap_ne s (Ne.symm hq)]
        exact hj
  | fire t =>
    simp only [Meanwhile.exec, Option.some.injEq] at h
    refine ⟨job, ?_, leftRunning_refl hr⟩
    rw [← h]
    cases htm : s.timers[t]? with
    | none => simp [timerFire, htm, hj]
    | some tm =>
      by_cases ha : tm.status = .armed
      · simp [timerFire, htm, ha, hj]
      · simp [timerFire, htm, ha, hj]

/-- A sequence of steps of other goroutines leaves a job whose callback is executing
Running, with its `nextRun`, timer handle and name. -/
theorem meanwhile_leftRunning (cx : Cronexpr) (steps : List Meanwhile) :
    ∀ {s s1 : Scheduler} {p : Nat} {job : jobStruct}, s.heap[p]? = some job →
      job.state &&& StateRunning > 0 → meanwhile cx s steps = some s1 →
      ∃ job1, s1.heap[p]? = some job1 ∧ leftRunning job job1 := by
  induction steps with
  | nil =>
    intro s s1 p job hj hr h
    simp only [meanwhile, Option.some.injEq] at h
    exact ⟨job, by rw [← h]; exact hj, leftRunning_refl hr⟩
  | cons a rest ih =>
    intro s s1 p job hj hr h
    cases ha : Meanwhile.exec cx s a with
    | none => simp [meanwhile, ha] at h
    | some s2 =>
      simp only [meanwhile, ha, Option.bind] at h
      obtain ⟨job2, hj2, hr2, hn2, ht2, hm2⟩ := exec_leftRunning cx a hj hr ha
      obtain ⟨job3, hj3, hr3, hn3, ht3, hm3⟩ := ih hj2 hr2 h
      exact ⟨job3, hj3, hr3, hn3.trans hn2, ht3.trans ht2, hm3.trans hm2⟩

/-- C5: when `run` takes the job mutex with neither flag set it clears the timer handle,
sets the state Running and `nextRun` to the rule's next occurrence after the clock, and
the callback is then invoked once with the job's payload.  When the callback has
returned, a job that carries the Stopping or Deleting flag becomes Stopped, with one off
the counter, no timer made and its registry entry deleted exactly when Deleting was
set; a job with neither flag becomes Scheduled with exactly one new armed timer for its
`nextRun`, which is the time computed in the first section: in an undisturbed run, and
also whatever other goroutines did to the scheduler before and during the callback. -/
theorem run_invokes_once (cx : Cronexpr) (s : Scheduler) (p : Nat) (job : jobStruct)
    (now1 now2 : Time) (hj : s.heap[p]? = some job)
    (hd : ¬ job.state &&& StateDeleting > 0) (hs : ¬ job.state &&& StateStopping > 0) :
    (∃ s1, runBegin cx s p now1 = some (true, s1) ∧
      s1.heap[p]? = some { job with timer := none, state := StateRunning,
                                    nextRun := cx.Next job.cronExpression now1 } ∧
      (∀ q, q ≠ p → s1.heap[q]? = s.heap[q]?) ∧ s1.jobs = s.jobs ∧ s1.timers = s.timers ∧
      s1.jobsNotStopped = s.jobsNotStopped ∧ s1.chanJobsNotStopped = s.chanJobsNotStopped ∧
      s1.calls = s.calls ∧
      runCall s1 p = some { s1 with calls := s.calls ++ [(job.function, job.data)] }) ∧
    (∀ (s2 : Scheduler) (job2 : jobStruct), s2.heap[p]? = some job2 →
      (job2.state &&& StateDeleting > 0 ∨ job2.state &&& StateStopping > 0 →
        ∃ s3, runEnd s2 p now2 = some s3 ∧
          s3.heap[p]? = some { job2 with state := StateStopped } ∧
          s3.jobsNotStopped = s2.jobsNotStopped - 1 ∧
          s3.chanJobsNotStopped = trySend s2.chanJobsNotStopped ∧
          s3.timers = s2.timers ∧ s3.calls = s2.calls ∧
          (∀ q, q ≠ p → s3.heap[q]? = s2.heap[q]?) ∧
          (job2.state &&& StateDeleting > 0 →
            s3.jobs = mapDelete s2.jobs job2.name ∧ mapLookup s3.jobs job2.name = none) ∧
          (¬ job2.state &&& StateDeleting > 0 → s3.jobs = s2.jobs)) ∧
      (¬ job2.state &&& StateDeleting > 0 → ¬ job2.state &&& StateStopping > 0 →
        ∃ s3, runEnd s2 p now2 = some s3 ∧
          s3.heap[p]? =
            some { job2 with state := StateScheduled, timer := some s2.timers.length } ∧
          s3.timers =
            s2.timers ++ [{ d := Sub job2.nextRun now2, job := p, status := .armed }] ∧
          s3.jobsNotStopped = s2.jobsNotStopped ∧
          s3.chanJobsNotStopped = s2.chanJobsNotStopped ∧
          s3.jobs = s2.jobs ∧ s3.calls = s2.calls ∧
          (∀ q, q ≠ p → s3.heap[q]? = s2.heap[q]?))) ∧
    (∃ s3, run cx s p now1 now2 = some s3 ∧
      s3.calls = s.calls ++ [(job.function, job.data)] ∧
      s3.heap[p]? = some { job with state := StateScheduled,
                                    nextRun := cx.Next job.cronExpression now1,
                                    timer := some s.timers.length } ∧
      s3.timers = s.timers ++
        [{ d := Sub (cx.Next job.cronExpression now1) now2, job := p, status := .armed }] ∧
      s3.jobsNotStopped = s.jobsNotStopped ∧ s3.jobs = s.jobs) ∧
    (∀ (s1 sa sb sc : Scheduler) (before during : List Meanwhile),
      runBegin cx s p now1 = some (true, s1) → meanwhile cx s1 before = some sa →
      runCall sa p = some sb → meanwhile cx sb during = some sc →
      ∃ ja jc, sa.heap[p]? = some ja ∧ sb.calls = sa.calls ++ [(ja.function, ja.data)] ∧
        sc.heap[p]? = some jc ∧ jc.state &&& StateRunning > 0 ∧
        jc.nextRun = cx.Next job.cronExpression now1 ∧ jc.timer = none ∧
        (¬ jc.state &&& StateDeleting > 0 → ¬ jc.state &&& StateStopping > 0 →
          ∃ s3, runEnd sc p now2 = some s3 ∧
            s3.heap[p]? =
              some { jc with state := StateScheduled, timer := some sc.timers.length } ∧
            s3.timers = sc.timers ++
              [{ d := Sub (cx.Next job.cronExpression now1) now2, job := p,
                 status := .armed }])) := by
  have hb := runBegin_clear cx now1 hj hd hs
  have hj1 := setJob_heap_self hj { job with timer := none, state := StateRunning,
                                             nextRun := cx.Next job.cronExpression now1 }
  refine ⟨⟨_, hb, hj1, ?_, rfl, rfl, rfl, rfl, rfl, ?_⟩, ?_, ?_, ?_⟩
  · intro q hq
    exact setJob_heap_ne s hq _
  · simp [runCall, hj1]
  · intro s2 job2 hj2
    refine ⟨?_, ?_⟩
    · intro hf
      refine ⟨_, runEnd_flagged now2 hj2 hf, ?_, rfl, rfl, rfl, rfl, ?_, ?_, ?_⟩
      · simp [stoppedBy, List.getElem?_set, heap_lt hj2]
      · intro q hq
        simp [stoppedBy, List.getElem?_set, Ne.symm hq]
      · intro hd2
        have hd3 : 0 < job2.state &&& StateDeleting := hd2
        simp [stoppedBy, hd3, mapLookup_mapDelete]
      · intro hd2
        have hd3 : ¬ 0 < job2.state &&& StateDeleting := hd2
        simp [stoppedBy, hd3]
    · intro hd2 hs2
      refine ⟨_, runEnd_clear now2 hj2 hd2 hs2, ?_, rfl, rfl, rfl, rfl, rfl, ?_⟩
      · simp [setJob, List.getElem?_set, heap_lt hj2]
      · intro q hq
        simp [setJob, List.getElem?_set, Ne.symm hq]
  · obtain ⟨job1, hjob1⟩ : ∃ job1 : jobStruct,
        job1 = { job with timer := none, state := StateRunning,
                          nextRun := cx.Next job.cronExpression now1 } := ⟨_, rfl⟩
    obtain ⟨s1, hs1⟩ : ∃ s1 : Scheduler, s1 = setJob s p job1 := ⟨_, rfl⟩
    obtain ⟨s2, hs2⟩ : ∃ s2 : Scheduler,
        s2 = { s1 with calls := s1.calls ++ [(job1.function, job1.data)] } := ⟨_, rfl⟩
    rw [← hjob1] at hb hj1
    rw [← hs1] at hb hj1
    have hcall : runCall s1 p = some s2 := by
      rw [hs2]
      simp [runCall, hj1]
    have hj2 : s2.heap[p]? = some job1 := by rw [hs2]; exact hj1
    have hst1 : job1.state = StateRunning := by rw [hjob1]
    have hr1 : ¬ job1.state &&& StateDeleting > 0 := by rw [hst1]; decide
    have hr2 : ¬ job1.state &&& StateStopping > 0 := by rw [hst1]; decide
    have he := runEnd_clear now2 hj2 hr1 hr2
    have hrun : run cx s p now1 now2 = some (setJob
        { s2 with timers :=
            s2.timers ++ [{ d := Sub job1.nextRun now2, job := p, status := .armed }] }
        p { job1 with state := StateScheduled, timer := some s2.timers.length }) := by
      simp only [run, hb, hcall, Option.bind]
      exact he
    refine ⟨_, hrun, ?_, ?_, ?_, ?_, ?_⟩
    · rw [hs2, hs1, hjob1]; rfl
    · rw [hs2, hs1, hjob1]
      simp [setJob, List.getElem?_set, heap_lt hj]
    · rw [hs2, hs1, hjob1]; rfl
    · rw [hs2, hs1]; rfl
    · rw [hs2, hs1]; rfl
  · intro s1 sa sb sc before during hbeg hbefore hcall hduring
    rw [hb] at hbeg
    simp only [Option.some.injEq, Prod.mk.injEq, true_and] at hbeg
    rw [← hbeg] at hbefore
    have hrun :
        ({ job with
            timer := none, state := StateRunning,
            nextRun := cx.Next job.cronExpression now1 } : jobStruct).state &&&
          StateRunning > 0 := by
      show StateRunning &&& StateRunning > 0
      decide
    obtain ⟨ja, hja, hra, hna, hta, _⟩ := meanwhile_leftRunning cx before hj1 hrun hbefore
    have hsb : sb = { sa with calls := sa.calls ++ [(ja.function, ja.data)] } := by
      simp [runCall, hja] at hcall
      exact hcall.symm
    have hjb : sb.heap[p]? = some ja := by rw [hsb]; exact hja
    obtain ⟨jc, hjc, hrc, hnc, htc, _⟩ := meanwhile_leftRunning cx during hjb hra hduring
    have hnext : jc.nextRun = cx.Next job.cronExpression now1 := hnc.trans hna
    refine ⟨ja, jc, hja, by rw [hsb], hjc, hrc, hnext, htc.trans hta, ?_⟩
    intro hdc hsc
    refine ⟨_, runEnd_clear now2 hjc hdc hsc, ?_, ?_⟩
    · simp [setJob, List.getElem?_set, heap_lt hjc]
    · simp [hnext]

/-- C5 at a sample: the goroutine of the sample job, Scheduled with no flag, runs from
start to end. -/
theorem run_invokes_once_witness :
    ∃ s3, run sampleCron (sampleSched StateScheduled (some 0) .ran 1) 0 2000 2500 = some s3 ∧
      s3.calls = [] ++ [((3 : Func), (some 5 : Data))] ∧
      s3.heap[0]? = some { sampleJob StateScheduled (some 0) with
                           state := StateScheduled,
                           nextRun := sampleCron.Next ⟨7⟩ 2000,
                           timer := some 1 } ∧
      s3.timers = [{ d := 900, job := 0, status := .ran }] ++
        [{ d := Sub (sampleCron.Next ⟨7⟩ 2000) 2500, job := 0, status := .armed }] ∧
      s3.jobsNotStopped = 1 ∧ s3.jobs = [("a", 0)] :=
  (run_invokes_once sampleCron (sampleSched StateScheduled (some 0) .ran 1) 0
    (sampleJob StateScheduled (some 0)) 2000 2500 (by decide) (by decide) (by decide)).2.2.1

/-! ## Delete -/

/-- The four outcomes of the stop step on a job whose timer handle is usable. -/
theorem stop_cases {s : Scheduler} {p : Nat} {job : jobStruct} (hj : s.heap[p]? = some job)
    (hT : job.state ≠ StateStopped → ¬ job.state &&& StateRunning > 0 →
      ∃ t tm, job.timer = some t ∧ s.timers[t]? = some tm) :
    (job.state = StateStopped ∧ stop s p = some s) ∨
    (job.state &&& StateRunning > 0 ∧
      stop s p = some (setJob s p { job with state := job.state ||| StateStopping })) ∨
    (∃ t tm, job.state ≠ StateStopped ∧ ¬ job.state &&& StateRunning > 0 ∧
      job.timer = some t ∧ s.timers[t]? = some tm ∧ tm.status = .armed ∧
      stop s p = some (setJob
        { s with timers := s.timers.set t { tm with status := .stopped },
                 jobsNotStopped := s.jobsNotStopped - 1,
                 chanJobsNotStopped := trySend s.chanJobsNotStopped }
        p { job with timer := none, state := StateStopped })) ∨
    (∃ t tm, job.state ≠ StateStopped ∧ ¬ job.state &&& StateRunning > 0 ∧
      job.timer = some t ∧ s.timers[t]? = some tm ∧ tm.status ≠ .armed ∧
      stop s p = some (setJob s p { job with state := job.state ||| StateStopping })) := by
  by_cases h1 : job.state = StateStopped
  · exact Or.inl ⟨h1, by simp [stop, hj, h1]⟩
  by_cases h2 : job.state &&& StateRunning > 0
  · exact Or.inr (Or.inl ⟨h2, by simp [stop, hj, h1, h2]⟩)
  obtain ⟨t, tm, ht, htm⟩ := hT h1 h2
  by_cases ha : tm.status = .armed
  · exact Or.inr (Or.inr (Or.inl ⟨t, tm, h1, h2, ht, htm, ha,
      by simp [stop, hj, h1, h2, ht, timerStop_armed htm ha]⟩))
  · exact Or.inr (Or.inr (Or.inr ⟨t, tm, h1, h2, ht, htm, ha,
      by simp [stop, hj, h1, h2, ht, timerStop_not_armed htm ha]⟩))

/-- C6: Delete on an existing job returns nil after the stop step and `jobDelete`.  When
the state after the stop step is Stopped (the job was Stopped, or its armed timer was
cancelled) the registry entry of the name is deleted, and GetState and a second Delete
on the name return ErrJobNotFound; otherwise the job stays in the registry with the
Deleting flag added, and Delete on a Running job shows Running|Stopping|Deleting. -/
theorem Delete_contract (s : Scheduler) (name : String) (p : Nat) (job : jobStruct)
    (hl : mapLookup s.jobs name = some p) (hj : s.heap[p]? = some job)
    (hn : job.name = name)
    (hT : job.state ≠ StateStopped → ¬ job.state &&& StateRunning > 0 →
      ∃ t tm, job.timer = some t ∧ s.timers[t]? = some tm) :
    ∃ s1 job1 s2, stop s p = some s1 ∧ s1.heap[p]? = some job1 ∧
      jobDelete s1 p = some s2 ∧ Delete s name = some (Error.nil, s2) ∧
      (job1.state = StateStopped ↔
        job.state = StateStopped ∨
          (¬ job.state &&& StateRunning > 0 ∧
            ∃ t tm, job.timer = some t ∧ s.timers[t]? = some tm ∧ tm.status = .armed)) ∧
      (job1.state = StateStopped →
        s2.jobs = mapDelete s.jobs name ∧ s2.heap = s1.heap ∧
        GetState s2 name = some (0, Error.ErrJobNotFound) ∧
        Delete s2 name = some (Error.ErrJobNotFound, s2)) ∧
      (job1.state ≠ StateStopped →
        mapLookup s2.jobs name = some p ∧ s2.jobs = s.jobs ∧
        s2.heap[p]? = some { job1 with state := job1.state ||| StateDeleting } ∧
        (job1.state ||| StateDeleting) &&& StateDeleting > 0 ∧
        s2.jobsNotStopped = s.jobsNotStopped) ∧
      (job.state = StateRunning →
        GetState s2 name =
          some (StateRunning ||| StateStopping ||| StateDeleting, Error.nil)) := by
  have hgone : ∀ s2 : Scheduler, s2.jobs = mapDelete s.jobs name →
      GetState s2 name = some (0, Error.ErrJobNotFound) ∧
      Delete s2 name = some (Error.ErrJobNotFound, s2) := by
    intro s2 h2
    have : mapLookup s2.jobs name = none := by rw [h2]; exact mapLookup_mapDelete _ _
    simp [GetState, Delete, this]
  rcases stop_cases hj hT with ⟨h1, hs⟩ | ⟨h2, hs⟩ | ⟨t, tm, h1, h2, ht, htm, ha, hs⟩ |
      ⟨t, tm, h1, h2, ht, htm, ha, hs⟩
  · -- the job was Stopped
    have hd := jobDelete_stopped hj h1
    rw [hn] at hd
    refine ⟨s, job, _, hs, hj, hd, by simp [Delete, hl, lockedDelete, hs, hd], ?_, ?_, ?_, ?_⟩
    · simp [h1]
    · intro _
      exact ⟨rfl, rfl, hgone _ rfl⟩
    · intro h
      exact absurd h1 h
    · intro h
      rw [h1] at h
      exact absurd h (by decide)
  · -- the callback is executing
    have hj1 := setJob_heap_self hj { job with state := job.state ||| StateStopping }
    have hne : ({ job with state := job.state ||| StateStopping } : jobStruct).state ≠
        StateStopped := stopping_ne_stopped _
    have hd := jobDelete_busy hj1 hne
    refine ⟨_, _, _, hs, hj1, hd, by simp [Delete, hl, lockedDelete, hs, hd], ?_, ?_, ?_, ?_⟩
    · constructor
      · intro h
        exact absurd h hne
      · rintro (h | ⟨h, _⟩)
        · exact absurd h (running_ne_stopped _ h2)
        · exact absurd h2 h
    · intro h
      exact absurd h hne
    · intro _
      refine ⟨hl, rfl, ?_, deleting_set _, rfl⟩
      simp [setJob, List.getElem?_set, heap_lt hj]
    · intro h
      simp [GetState, hl, setJob, List.getElem?_set, heap_lt hj, h]
  · -- the armed timer is cancelled
    obtain ⟨s1, hs1⟩ : ∃ s1 : Scheduler, s1 = setJob
        { s with timers := s.timers.set t { tm with status := .stopped },
                 jobsNotStopped := s.jobsNotStopped - 1,
                 chanJobsNotStopped := trySend s.chanJobsNotStopped }
        p { job with timer := none, state := StateStopped } := ⟨_, rfl⟩
    rw [← hs1] at hs
    have hj1 : s1.heap[p]? = some { job with timer := none, state := StateStopped } := by
      rw [hs1]
      simp [setJob, List.getElem?_set, heap_lt hj]
    have hd := jobDelete_stopped hj1 rfl
    have hjobs : s1.jobs = s.jobs := by rw [hs1]; rfl
    rw [show ({ job with timer := none, state := StateStopped } : jobStruct).name = name
      from hn, hjobs] at hd
    refine ⟨s1, _, _, hs, hj1, hd, by simp [Delete, hl, lockedDelete, hs, hd], ?_, ?_, ?_, ?_⟩
    · constructor
      · intro _
        exact Or.inr ⟨h2, t, tm, ht, htm, ha⟩
      · intro _
        rfl
    · intro _
      exact ⟨rfl, rfl, hgone _ rfl⟩
    · intro h
      exact absurd rfl h
    · intro h
      rw [h] at h2
      exact absurd (by decide) h2
  · -- the timer has already fired
    have hj1 := setJob_heap_self hj { job with state := job.state ||| StateStopping }
    have hne : ({ job with state := job.state ||| StateStopping } : jobStruct).state ≠
        StateStopped := stopping_ne_stopped _
    have hd := jobDelete_busy hj1 hne
    refine ⟨_, _, _, hs, hj1, hd, by simp [Delete, hl, lockedDelete, hs, hd], ?_, ?_, ?_, ?_⟩
    · constructor
      · intro h
        exact absurd h hne
      · rintro (h | ⟨_, t2, tm2, ht2, htm2, ha2⟩)
        · exact absurd h h1
        · rw [ht] at ht2
          cases ht2
          rw [htm] at htm2
          cases htm2
          exact absurd ha2 ha
    · intro h
      exact absurd h hne
    · intro _
      refine ⟨hl, rfl, ?_, deleting_set _, rfl⟩
      simp [setJob, List.getElem?_set, heap_lt hj]
    · intro h
      rw [h] at h2
      exact absurd (by decide) h2

/-- C6 at a sample: Delete on the sample job while its callback is executing. -/
theorem Delete_contract_witness :
    ∃ s1 job1 s2, stop (sampleSched StateRunning none .ran 1) 0 = some s1 ∧
      s1.heap[0]? = some job1 ∧
      jobDelete s1 0 = some s2 ∧
      Delete (sampleSched StateRunning none .ran 1) "a" = some (Error.nil, s2) ∧
      (job1.state = StateStopped ↔
        (sampleJob StateRunning none).state = StateStopped ∨
          (¬ (sampleJob StateRunning none).state &&& StateRunning > 0 ∧
            ∃ t tm, (sampleJob StateRunning none).timer = some t ∧
              (sampleSched StateRunning none .ran 1).timers[t]? = some tm ∧
              tm.status = .armed)) ∧
      (job1.state = StateStopped →
        s2.jobs = mapDelete (sampleSched StateRunning none .ran 1).jobs "a" ∧
        s2.heap = s1.heap ∧
        GetState s2 "a" = some (0, Error.ErrJobNotFound) ∧
        Delete s2 "a" = some (Error.ErrJobNotFound, s2)) ∧
      (job1.state ≠ StateStopped →
        mapLookup s2.jobs "a" = some 0 ∧
        s2.jobs = (sampleSched StateRunning none .ran 1).jobs ∧
        s2.heap[0]? = some { job1 with state := job1.state ||| StateDeleting } ∧
        (job1.state ||| StateDeleting) &&& StateDeleting > 0 ∧
        s2.jobsNotStopped = (sampleSched StateRunning none .ran 1).jobsNotStopped) ∧
      ((sampleJob StateRunning none).state = StateRunning →
        GetState s2 "a" =
          some (StateRunning ||| StateStopping ||| StateDeleting, Error.nil)) :=
  Delete_contract (sampleSched StateRunning none .ran 1) "a" 0 (sampleJob StateRunning none)
    (by decide) (by decide) (by decide) (fun _ h => absurd (by decide) h)

/-! ## UpdateNextRun -/

/-- C7: UpdateNextRun on an existing job returns ErrJobIsRunning, and changes nothing,
exactly when the Running flag is set or the job is not Stopped and its timer is no
longer armed (the cancel fails); in every other case it returns nil, `nextRun` is the
given time and the state and the counter are unchanged: a Stopped job gets no timer and
a following Start arms one for the given time, a job with an armed timer has that timer
stopped and one new armed timer made for the given time. -/
theorem UpdateNextRun_contract (s : Scheduler) (name : String) (nextRun now now2 : Time)
    (p : Nat) (job : jobStruct)
    (hl : mapLookup s.jobs name = some p) (hj : s.heap[p]? = some job)
    (hT : job.state ≠ StateStopped → ¬ job.state &&& StateRunning > 0 →
      ∃ t tm, job.timer = some t ∧ s.timers[t]? = some tm) :
    ∃ e s1, UpdateNextRun s name nextRun now = some (e, s1) ∧
      (e = Error.ErrJobIsRunning ∨ e = Error.nil) ∧
      (e = Error.ErrJobIsRunning ↔
        job.state &&& StateRunning > 0 ∨
          (job.state ≠ StateStopped ∧
            ∃ t tm, job.timer = some t ∧ s.timers[t]? = some tm ∧ tm.status ≠ .armed)) ∧
      (e = Error.ErrJobIsRunning → s1 = s) ∧
      (e = Error.nil →
        s1.jobsNotStopped = s.jobsNotStopped ∧ s1.jobs = s.jobs ∧
        s1.chanJobsNotStopped = s.chanJobsNotStopped ∧ s1.calls = s.calls ∧
        (∀ q, q ≠ p → s1.heap[q]? = s.heap[q]?) ∧
        (job.state = StateStopped →
          s1.heap[p]? = some { job with nextRun := nextRun } ∧ s1.timers = s.timers ∧
          ∃ s2, Start s1 name now2 = some (Error.nil, s2) ∧
            s2.timers = s.timers ++ [{ d := Sub nextRun now2, job := p, status := .armed }] ∧
            s2.heap[p]? = some { job with nextRun := nextRun, state := StateScheduled,
                                          timer := some s.timers.length }) ∧
        (job.state ≠ StateStopped →
          ∃ t tm, job.timer = some t ∧ s.timers[t]? = some tm ∧ tm.status = .armed ∧
            s1.heap[p]? =
              some { job with nextRun := nextRun, timer := some s.timers.length } ∧
            s1.timers = s.timers.set t { tm with status := .stopped } ++
              [{ d := Sub nextRun now, job := p, status := .armed }])) := by
  by_cases h1 : job.state = StateStopped
  · -- Stopped: the time is stored
    have hnr : ¬ job.state &&& StateRunning > 0 := by rw [h1]; decide
    have hj1 := setJob_heap_self hj { job with nextRun := nextRun }
    refine ⟨Error.nil, setJob s p { job with nextRun := nextRun },
      by simp [UpdateNextRun, lockedUpdateNextRun, hl, hj, h1], Or.inr rfl, ?_, ?_, ?_⟩
    · constructor
      · intro h
        cases h
      · rintro (h | ⟨h, _⟩)
        · exact absurd h hnr
        · exact absurd h1 h
    · intro h
      cases h
    · intro _
      refine ⟨rfl, rfl, rfl, rfl, fun q hq => setJob_heap_ne s hq _, ?_, fun h => absurd h1 h⟩
      intro _
      refine ⟨hj1, rfl, ?_⟩
      have hst : ({ job with nextRun := nextRun } : jobStruct).state = StateStopped := h1
      have hstart := lockedStart_stopped now2 hj1 hst
      refine ⟨_, by simp only [Start, setJob_jobs, hl]; exact hstart, rfl, ?_⟩
      simp [setJob, List.getElem?_set, heap_lt hj]
  by_cases h2 : job.state &&& StateRunning > 0
  · -- the callback is executing
    refine ⟨Error.ErrJobIsRunning, s,
      by simp [UpdateNextRun, lockedUpdateNextRun, hl, hj, h1, h2], Or.inl rfl, ?_, ?_, ?_⟩
    · exact ⟨fun _ => Or.inl h2, fun _ => rfl⟩
    · intro _
      rfl
    · intro h
      cases h
  obtain ⟨t, tm, ht, htm⟩ := hT h1 h2
  by_cases ha : tm.status = .armed
  · -- the armed timer is cancelled and a new one made
    refine ⟨Error.nil, setJob
        { s with timers := s.timers.set t { tm with status := .stopped } ++
            [{ d := Sub nextRun now, job := p, status := .armed }] }
        p { job with nextRun := nextRun, timer := some s.timers.length }, ?_, Or.inr rfl, ?_,
      ?_, ?_⟩
    · simp [UpdateNextRun, lockedUpdateNextRun, hl, hj, h1, h2, ht, timerStop_armed htm ha,
        AfterFunc]
    · constructor
      · intro h
        cases h
      · rintro (h | ⟨_, t2, tm2, ht2, htm2, ha2⟩)
        · exact absurd h h2
        · rw [ht] at ht2
          cases ht2
          rw [htm] at htm2
          cases htm2
          exact absurd ha ha2
    · intro h
      cases h
    · intro _
      refine ⟨rfl, rfl, rfl, rfl, ?_, fun h => absurd h h1, ?_⟩
      · intro q hq
        simp [setJob, List.getElem?_set, Ne.symm hq]
      · intro _
        refine ⟨t, tm, ht, htm, ha, ?_, rfl⟩
        simp [setJob, List.getElem?_set, heap_lt hj]
  · -- the timer has already fired
    refine ⟨Error.ErrJobIsRunning, s, ?_, Or.inl rfl, ?_, ?_, ?_⟩
    · simp [UpdateNextRun, lockedUpdateNextRun, hl, hj, h1, h2, ht, timerStop_not_armed htm ha]
    · exact ⟨fun _ => Or.inr ⟨h1, t, tm, ht, htm, ha⟩, fun _ => rfl⟩
    · intro _
      rfl
    · intro h
      cases h

/-- C7 at a sample: UpdateNextRun on the sample job, Scheduled with its timer armed. -/
theorem UpdateNextRun_contract_witness :
    ∃ e s1, UpdateNextRun (sampleSched StateScheduled (some 0) .armed 1) "a" 5000 100 =
        some (e, s1) ∧
      (e = Error.ErrJobIsRunning ∨ e = Error.nil) ∧
      (e = Error.ErrJobIsRunning ↔
        (sampleJob StateScheduled (some 0)).state &&& StateRunning > 0 ∨
          ((sampleJob StateScheduled (some 0)).state ≠ StateStopped ∧
            ∃ t tm, (sampleJob StateScheduled (some 0)).timer = some t ∧
              (sampleSched StateScheduled (some 0) .armed 1).timers[t]? = some tm ∧
              tm.status ≠ .armed)) ∧
      (e = Error.ErrJobIsRunning → s1 = sampleSched StateScheduled (some 0) .armed 1) ∧
      (e = Error.nil →
        s1.jobsNotStopped = (sampleSched StateScheduled (some 0) .armed 1).jobsNotStopped ∧
        s1.jobs = (sampleSched StateScheduled (some 0) .armed 1).jobs ∧
        s1.chanJobsNotStopped =
          (sampleSched StateScheduled (some 0) .armed 1).chanJobsNotStopped ∧
        s1.calls = (sampleSched StateScheduled (some 0) .armed 1).calls ∧
        (∀ q, q ≠ 0 → s1.heap[q]? = (sampleSched StateScheduled (some 0) .armed 1).heap[q]?) ∧
        ((sampleJob StateScheduled (some 0)).state = StateStopped →
          s1.heap[0]? = some { sampleJob StateScheduled (some 0) with nextRun := 5000 } ∧
          s1.timers = (sampleSched StateScheduled (some 0) .armed 1).timers ∧
          ∃ s2, Start s1 "a" 200 = some (Error.nil, s2) ∧
            s2.timers = (sampleSched StateScheduled (some 0) .armed 1).timers ++
              [{ d := Sub 5000 200, job := 0, status := .armed }] ∧
            s2.heap[0]? = some { sampleJob StateScheduled (some 0) with
                nextRun := 5000, state := StateScheduled,
                timer := some (sampleSched StateScheduled (some 0) .armed 1).timers.length }) ∧
        ((sampleJob StateScheduled (some 0)).state ≠ StateStopped →
          ∃ t tm, (sampleJob StateScheduled (some 0)).timer = some t ∧
            (sampleSched StateScheduled (some 0) .armed 1).timers[t]? = some tm ∧
            tm.status = .armed ∧
            s1.heap[0]? = some { sampleJob StateScheduled (some 0) with
                nextRun := 5000,
                timer := some (sampleSched StateScheduled (some 0) .armed 1).timers.length } ∧
            s1.timers =
              (sampleSched StateScheduled (some 0) .armed 1).timers.set t
                  { tm with status := .stopped } ++
                [{ d := Sub 5000 100, job := 0, status := .armed }])) :=
  UpdateNextRun_contract (sampleSched StateScheduled (some 0) .armed 1) "a" 5000 100 200 0
    (sampleJob StateScheduled (some 0)) (by decide) (by decide)
    (fun _ _ => ⟨0, { d := 900, job := 0, status := .armed }, by decide, by decide⟩)

/-! ## Make -/

theorem mapDelete_absent (m : List (String × Nat)) (name : String)
    (h : mapLookup m name = none) : mapDelete m name = m := by
  induction m with
  | nil => rfl
  | cons kv rest ih =>
    obtain ⟨k, v⟩ := kv
    by_cases hk : k = name
    · simp [mapLookup, hk] at h
    · simp only [mapLookup, hk, if_false] at h
      simp [mapDelete, hk, ih h]

/-- C8, as the claim states it, fails: with the name `a` registered, Make of `a` with
the rule that does not parse returns the parse error, not ErrJobAlreadyExists. -/
theorem Make_existing_name_bad_rule :
    mapLookup (sampleSched StateStopped none .stopped 0).jobs "a" = some 0 ∧
    (Make sampleCron (sampleSched StateStopped none .stopped 0) "a" "1 0 0 1 1 * 1" 3 none
        100).1 =
      Error.Errorf "cron parse error: syntax error in year field: '1'" ∧
    (Make sampleCron (sampleSched StateStopped none .stopped 0) "a" "1 0 0 1 1 * 1" 3 none
        100).1 ≠
      Error.ErrJobAlreadyExists := by
  decide

/-- C8, amended: when the name is already registered, Make fails with
ErrJobAlreadyExists for a rule that parses and with the cron parse error for a rule that
does not (the rule is parsed before the name is looked up); either way the scheduler,
so the registry, the existing job and the counter, is unchanged. -/
theorem Make_existing_name (cx : Cronexpr) (s : Scheduler) (name cron : String)
    (function : Func) (data : Data) (now : Time) (p : Nat)
    (hl : mapLookup s.jobs name = some p) :
    (∀ expr, cx.Parse cron = .ok expr →
      Make cx s name cron function data now = (Error.ErrJobAlreadyExists, s)) ∧
    (∀ err, cx.Parse cron = .error err →
      Make cx s name cron function data now =
        (Error.Errorf ("cron parse error: " ++ err), s)) := by
  refine ⟨?_, ?_⟩
  · intro expr h
    simp [Make, h, hl]
  · intro err h
    simp [Make, h]

/-- C8 amended, at a sample: Make of the registered name `a` with a rule that parses. -/
theorem Make_existing_name_witness :
    Make sampleCron (sampleSched StateStopped none .stopped 0) "a" "* * * * * * *" 3 none 100 =
      (Error.ErrJobAlreadyExists, sampleSched StateStopped none .stopped 0) :=
  (Make_existing_name sampleCron (sampleSched StateStopped none .stopped 0) "a"
    "* * * * * * *" 3 none 100 0 (by decide)).1 ⟨13⟩ rfl

/-- C9: for a name not registered, Make with a rule that parses returns nil and adds
exactly one job, registered under the name, in state Stopped with no timer, so that
GetState returns (Stopped, nil) and GetData the payload, while the counter and every
other job are unchanged; with a rule that does not parse it returns the parse error
and changes nothing. -/
theorem Make_fresh_name (cx : Cronexpr) (s : Scheduler) (name cron : String)
    (function : Func) (data : Data) (now : Time)
    (hl : mapLookup s.jobs name = none) :
    (∀ expr, cx.Parse cron = .ok expr →
      ∃ s1, Make cx s name cron function data now = (Error.nil, s1) ∧
        s1.jobs = (name, s.heap.length) :: s.jobs ∧
        s1.heap = s.heap ++
          [{ name := name, cronExpression := expr, function := function, data := data,
             state := StateStopped, nextRun := cx.Next expr now, timer := none }] ∧
        mapLookup s1.jobs name = some s.heap.length ∧
        s1.heap[s.heap.length]? =
          some { name := name, cronExpression := expr, function := function, data := data,
                 state := StateStopped, nextRun := cx.Next expr now, timer := none } ∧
        GetState s1 name = some (StateStopped, Error.nil) ∧
        GetData s1 name = some (data, Error.nil) ∧
        s1.jobsNotStopped = s.jobsNotStopped ∧
        (∀ other, other ≠ name → mapLookup s1.jobs other = mapLookup s.jobs other) ∧
        (∀ (q : Nat) (job : jobStruct), s.heap[q]? = some job → s1.heap[q]? = some job) ∧
        s1.timers = s.timers ∧ s1.chanJobsNotStopped = s.chanJobsNotStopped ∧
        s1.calls = s.calls) ∧
    (∀ err, cx.Parse cron = .error err →
      Make cx s name cron function data now =
        (Error.Errorf ("cron parse error: " ++ err), s)) := by
  refine ⟨?_, ?_⟩
  · intro expr h
    have hm : Make cx s name cron function data now = (Error.nil,
        { s with
          heap := s.heap ++
            [{ name := name, cronExpression := expr, function := function, data := data,
               state := StateStopped, nextRun := cx.Next expr now, timer := none }],
          jobs := (name, s.heap.length) :: s.jobs }) := by
      simp [Make, h, hl, mapInsert, mapDelete_absent _ _ hl]
    refine ⟨_, hm, rfl, rfl, ?_, ?_, ?_, ?_, rfl, ?_, ?_, rfl, rfl, rfl⟩
    · simp [mapLookup]
    · simp
    · simp [GetState, mapLookup]
    · simp [GetData, mapLookup]
    · intro other ho
      simp [mapLookup, Ne.symm ho]
    · intro q job hq
      simp only []
      rw [List.getElem?_append_left (heap_lt hq)]
      exact hq
  · intro err h
    simp [Make, h]

/-- C9 at a sample: Make of the new name `b` with a rule that parses. -/
theorem Make_fresh_name_witness :
    ∃ s1, Make sampleCron (sampleSched StateStopped none .stopped 0) "b" "* * * * * * *" 4
          (some 9) 100 = (Error.nil, s1) ∧
      s1.jobs = ("b", (sampleSched StateStopped none .stopped 0).heap.length) ::
        (sampleSched StateStopped none .stopped 0).jobs ∧
      s1.heap = (sampleSched StateStopped none .stopped 0).heap ++
        [{ name := "b", cronExpression := ⟨13⟩, function := 4, data := some 9,
           state := StateStopped, nextRun := sampleCron.Next ⟨13⟩ 100, timer := none }] ∧
      mapLookup s1.jobs "b" = some (sampleSched StateStopped none .stopped 0).heap.length ∧
      s1.heap[(sampleSched StateStopped none .stopped 0).heap.length]? =
        some { name := "b", cronExpression := ⟨13⟩, function := 4, data := some 9,
               state := StateStopped, nextRun := sampleCron.Next ⟨13⟩ 100, timer := none } ∧
      GetState s1 "b" = some (StateStopped, Error.nil) ∧
      GetData s1 "b" = some (some 9, Error.nil) ∧
      s1.jobsNotStopped = (sampleSched StateStopped none .stopped 0).jobsNotStopped ∧
      (∀ other, other ≠ "b" →
        mapLookup s1.jobs other =
          mapLookup (sampleSched StateStopped none .stopped 0).jobs other) ∧
      (∀ (q : Nat) (job : jobStruct),
        (sampleSched StateStopped none .stopped 0).heap[q]? = some job →
        s1.heap[q]? = some job) ∧
      s1.timers = (sampleSched StateStopped none .stopped 0).timers ∧
      s1.chanJobsNotStopped = (sampleSched StateStopped none .stopped 0).chanJobsNotStopped ∧
      s1.calls = (sampleSched StateStopped none .stopped 0).calls :=
  (Make_fresh_name sampleCron (sampleSched StateStopped none .stopped 0) "b" "* * * * * * *" 4
    (some 9) 100 (by decide)).1 ⟨13⟩ rfl

/-! ## Names that are not registered -/

/-- C10: for a name not registered, Start, Stop, Delete, UpdateCron (whatever
the rule), UpdateNextRun, UpdateFunction, GetState and GetData return ErrJobNotFound,
GetState with the zero state and GetData with nil, and the scheduler is unchanged. -/
theorem absent_name_not_found (cx : Cronexpr) (s : Scheduler) (name cron : String)
    (nextRun now : Time) (function : Func) (data : Data)
    (hl : mapLookup s.jobs name = none) :
    Start s name now = some (Error.ErrJobNotFound, s) ∧
    Stop s name = some (Error.ErrJobNotFound, s) ∧
    Delete s name = some (Error.ErrJobNotFound, s) ∧
    UpdateCron cx s name cron = some (Error.ErrJobNotFound, s) ∧
    UpdateNextRun s name nextRun now = some (Error.ErrJobNotFound, s) ∧
    UpdateFunction s name function data = some (Error.ErrJobNotFound, s) ∧
    GetState s name = some (0, Error.ErrJobNotFound) ∧
    GetData s name = some (none, Error.ErrJobNotFound) := by
  simp [Start, Stop, Delete, UpdateCron, UpdateNextRun, UpdateFunction, GetState, GetData, hl]

/-- C10 at a sample: the operations on the name `zz`, which the sample scheduler does
not hold, the rule given to UpdateCron being one that does not parse. -/
theorem absent_name_not_found_witness :
    Start (sampleSched StateScheduled (some 0) .armed 1) "zz" 100 =
      some (Error.ErrJobNotFound, sampleSched StateScheduled (some 0) .armed 1) ∧
    Stop (sampleSched StateScheduled (some 0) .armed 1) "zz" =
      some (Error.ErrJobNotFound, sampleSched StateScheduled (some 0) .armed 1) ∧
    Delete (sampleSched StateScheduled (some 0) .armed 1) "zz" =
      some (Error.ErrJobNotFound, sampleSched StateScheduled (some 0) .armed 1) ∧
    UpdateCron sampleCron (sampleSched StateScheduled (some 0) .armed 1) "zz" "1 0 0 1 1 * 1" =
      some (Error.ErrJobNotFound, sampleSched StateScheduled (some 0) .armed 1) ∧
    UpdateNextRun (sampleSched StateScheduled (some 0) .armed 1) "zz" 5000 100 =
      some (Error.ErrJobNotFound, sampleSched StateScheduled (some 0) .armed 1) ∧
    UpdateFunction (sampleSched StateScheduled (some 0) .armed 1) "zz" 4 (some 9) =
      some (Error.ErrJobNotFound, sampleSched StateScheduled (some 0) .armed 1) ∧
    GetState (sampleSched StateScheduled (some 0) .armed 1) "zz" =
      some (0, Error.ErrJobNotFound) ∧
    GetData (sampleSched StateScheduled (some 0) .armed 1) "zz" =
      some (none, Error.ErrJobNotFound) :=
  absent_name_not_found sampleCron (sampleSched StateScheduled (some 0) .armed 1) "zz"
    "1 0 0 1 1 * 1" 5000 100 4 (some 9) (by decide)

/-! ## UpdateCron and UpdateFunction -/

/-- C14: on a registered job, in any state, UpdateCron with a rule that parses replaces
only the job's rule and UpdateFunction only its callback and payload: the state, the
timer handle, `nextRun`, the counter, the registry, the timers, the channel, the record
of calls and every other job are unchanged; UpdateCron with a rule that does not parse
returns the parse error and changes nothing. -/
theorem Update_frame (cx : Cronexpr) (s : Scheduler) (name cron : String) (function : Func)
    (data : Data) (p : Nat) (job : jobStruct)
    (hl : mapLookup s.jobs name = some p) (hj : s.heap[p]? = some job) :
    (∀ expr, cx.Parse cron = .ok expr →
      ∃ s1, UpdateCron cx s name cron = some (Error.nil, s1) ∧
        s1.heap[p]? = some { job with cronExpression := expr } ∧
        (∀ q, q ≠ p → s1.heap[q]? = s.heap[q]?) ∧ s1.heap.length = s.heap.length ∧
        s1.jobs = s.jobs ∧ s1.jobsNotStopped = s.jobsNotStopped ∧ s1.timers = s.timers ∧
        s1.chanJobsNotStopped = s.chanJobsNotStopped ∧ s1.calls = s.calls) ∧
    (∀ err, cx.Parse cron = .error err →
      UpdateCron cx s name cron = some (Error.Errorf ("cron parse error: " ++ err), s)) ∧
    (∃ s1, UpdateFunction s name function data = some (Error.nil, s1) ∧
      s1.heap[p]? = some { job with function := function, data := data } ∧
      (∀ q, q ≠ p → s1.heap[q]? = s.heap[q]?) ∧ s1.heap.length = s.heap.length ∧
      s1.jobs = s.jobs ∧ s1.jobsNotStopped = s.jobsNotStopped ∧ s1.timers = s.timers ∧
      s1.chanJobsNotStopped = s.chanJobsNotStopped ∧ s1.calls = s.calls) := by
  refine ⟨?_, ?_, ?_⟩
  · intro expr h
    refine ⟨setJob s p { job with cronExpression := expr }, ?_, setJob_heap_self hj _,
      fun q hq => setJob_heap_ne s hq _, ?_, rfl, rfl, rfl, rfl, rfl⟩
    · simp [UpdateCron, hl, h, lockedUpdateCron, hj]
    · simp [setJob]
  · intro err h
    simp [UpdateCron, hl, h]
  · refine ⟨setJob s p { job with function := function, data := data }, ?_,
      setJob_heap_self hj _, fun q hq => setJob_heap_ne s hq _, ?_, rfl, rfl, rfl, rfl, rfl⟩
    · simp [UpdateFunction, hl, lockedUpdateFunction, hj]
    · simp [setJob]

/-- C14 at a sample: UpdateFunction on the sample job while its callback is executing. -/
theorem Update_frame_witness :
    ∃ s1, UpdateFunction (sampleSched StateRunning none .ran 1) "a" 4 (some 9) =
        some (Error.nil, s1) ∧
      s1.heap[0]? = some { sampleJob StateRunning none with function := 4, data := some 9 } ∧
      (∀ q, q ≠ 0 → s1.heap[q]? = (sampleSched StateRunning none .ran 1).heap[q]?) ∧
      s1.heap.length = (sampleSched StateRunning none .ran 1).heap.length ∧
      s1.jobs = (sampleSched StateRunning none .ran 1).jobs ∧
      s1.jobsNotStopped = (sampleSched StateRunning none .ran 1).jobsNotStopped ∧
      s1.timers = (sampleSched StateRunning none .ran 1).timers ∧
      s1.chanJobsNotStopped = (sampleSched StateRunning none .ran 1).chanJobsNotStopped ∧
      s1.calls = (sampleSched StateRunning none .ran 1).calls :=
  (Update_frame sampleCron (sampleSched StateRunning none .ran 1) "a" "* * * * * * *" 4
    (some 9) 0 (sampleJob StateRunning none) (by decide) (by decide)).2.2

/-! ## The duration a timer is armed with -/

/-- The duration `t.Sub(u)` is positive exactly when `u` is before `t`. -/
theorem Sub_pos_iff (t u : Int) : 0 < Sub t u ↔ u < t := by
  unfold Sub maxDuration minDuration
  split_ifs with h1 h2
  · constructor
    · intro _
      change t - u > (9223372036854775807 : Int) at h1
      omega
    · intro _
      decide
  · constructor
    · intro h
      exact absurd h (by decide)
    · intro h
      change t - u < (-9223372036854775808 : Int) at h2
      omega
  · change ¬ (t - u > (9223372036854775807 : Int)) at h1
    change (0 : Int) < t - u ↔ u < t
    omega

/-- The undisturbed `run` of a job with neither flag set. -/
theorem run_clear (cx : Cronexpr) {s : Scheduler} {p : Nat} {job : jobStruct}
    (now1 now2 : Time) (hj : s.heap[p]? = some job)
    (hd : ¬ job.state &&& StateDeleting > 0) (hs : ¬ job.state &&& StateStopping > 0) :
    ∃ s3, run cx s p now1 now2 = some s3 ∧
      s3.timers = s.timers ++
        [{ d := Sub (cx.Next job.cronExpression now1) now2, job := p, status := .armed }] ∧
      s3.heap[p]? = some { job with state := StateScheduled,
                                    nextRun := cx.Next job.cronExpression now1,
                                    timer := some s.timers.length } := by
  have hb := runBegin_clear cx now1 hj hd hs
  obtain ⟨job1, hjob1⟩ : ∃ job1 : jobStruct,
      job1 = { job with timer := none, state := StateRunning,
                        nextRun := cx.Next job.cronExpression now1 } := ⟨_, rfl⟩
  obtain ⟨s1, hs1⟩ : ∃ s1 : Scheduler, s1 = setJob s p job1 := ⟨_, rfl⟩
  obtain ⟨s2, hs2⟩ : ∃ s2 : Scheduler,
      s2 = { s1 with calls := s1.calls ++ [(job1.function, job1.data)] } := ⟨_, rfl⟩
  have hj1 : s1.heap[p]? = some job1 := by rw [hs1]; exact setJob_heap_self hj _
  rw [← hjob1, ← hs1] at hb
  have hcall : runCall s1 p = some s2 := by
    rw [hs2]
    simp [runCall, hj1]
  have hj2 : s2.heap[p]? = some job1 := by rw [hs2]; exact hj1
  have hst1 : job1.state = StateRunning := by rw [hjob1]
  have hr1 : ¬ job1.state &&& StateDeleting > 0 := by rw [hst1]; decide
  have hr2 : ¬ job1.state &&& StateStopping > 0 := by rw [hst1]; decide
  have he := runEnd_clear now2 hj2 hr1 hr2
  have hrun : run cx s p now1 now2 = some (setJob
      { s2 with timers :=
          s2.timers ++ [{ d := Sub job1.nextRun now2, job := p, status := .armed }] }
      p { job1 with state := StateScheduled, timer := some s2.timers.length }) := by
    simp only [run, hb, hcall, Option.bind]
    exact he
  refine ⟨_, hrun, ?_, ?_⟩
  · rw [hs2, hs1, hjob1]; rfl
  · rw [hs2, hs1, hjob1]
    simp [setJob, List.getElem?_set, heap_lt hj]

/-- C19, as the claim states it, fails: a job made at time 0 has its next occurrence at
14; started at time 100 its timer is armed with the duration -86, for an occurrence
that is already past; and a run that began at 2000 and whose callback returned at 2500
re-arms with the duration -492 for the occurrence at 2008. -/
theorem missed_occurrence_is_armed :
    (Start (Make sampleCron NewScheduler "a" "* * * * * * *" 3 none 0).2 "a" 100).map
        (fun r => (r.1, r.2.timers, (r.2.heap[0]?).map (fun j => j.nextRun))) =
      some (Error.nil, [{ d := -86, job := 0, status := .armed }], some 14) ∧
    (run sampleCron (sampleSched StateScheduled (some 0) .ran 1) 0 2000 2500).map
        (fun r => (r.timers, (r.heap[0]?).map (fun j => j.nextRun))) =
      some ([{ d := 900, job := 0, status := .ran }, { d := -492, job := 0, status := .armed }],
        some 2008) := by
  decide

/-- C19, amended: a timer armed from a rule-computed `nextRun` (by Start after Make, by
Start on any Stopped job, by `run` when it re-arms) is armed with the duration
`nextRun - now`, where `nextRun` is the rule's next occurrence after the clock read by
Make or in the first section of `run`; that duration is positive exactly when the
moment of arming is before `nextRun`, so it is positive when the rule's next occurrence
is after the clock and no time has passed, and not positive once the delay or the
callback has lasted past `nextRun`. -/
theorem armed_duration (cx : Cronexpr) (s : Scheduler) (name cron : String) (function : Func)
    (data : Data) (p : Nat) (job : jobStruct) (now0 now1 now2 : Time)
    (hj : s.heap[p]? = some job) :
    (mapLookup s.jobs name = some p → job.state = StateStopped →
      ∃ s1, Start s name now2 = some (Error.nil, s1) ∧
        s1.timers = s.timers ++ [{ d := Sub job.nextRun now2, job := p, status := .armed }] ∧
        (0 < Sub job.nextRun now2 ↔ now2 < job.nextRun)) ∧
    (∀ expr, mapLookup s.jobs name = none → cx.Parse cron = .ok expr →
      ∃ s1, (Start (Make cx s name cron function data now0).2 name now2).map Prod.snd =
          some s1 ∧
        s1.timers = s.timers ++
          [{ d := Sub (cx.Next expr now0) now2, job := s.heap.length, status := .armed }] ∧
        (0 < Sub (cx.Next expr now0) now2 ↔ now2 < cx.Next expr now0)) ∧
    (¬ job.state &&& StateDeleting > 0 → ¬ job.state &&& StateStopping > 0 →
      ∃ s3, run cx s p now1 now2 = some s3 ∧
        s3.timers = s.timers ++
          [{ d := Sub (cx.Next job.cronExpression now1) now2, job := p, status := .armed }] ∧
        (0 < Sub (cx.Next job.cronExpression now1) now2 ↔
          now2 < cx.Next job.cronExpression now1) ∧
        (now1 < cx.Next job.cronExpression now1 → now2 = now1 →
          0 < Sub (cx.Next job.cronExpression now1) now2) ∧
        (cx.Next job.cronExpression now1 ≤ now2 →
          Sub (cx.Next job.cronExpression now1) now2 ≤ 0)) := by
  refine ⟨?_, ?_, ?_⟩
  · intro hl hst
    have hstart := lockedStart_stopped now2 hj hst
    exact ⟨_, by simp only [Start, hl]; exact hstart, rfl, Sub_pos_iff _ _⟩
  · intro expr hl hp
    have hm : Make cx s name cron function data now0 = (Error.nil,
        { s with
          heap := s.heap ++
            [{ name := name, cronExpression := expr, function := function, data := data,
               state := StateStopped, nextRun := cx.Next expr now0, timer := none }],
          jobs := (name, s.heap.length) :: s.jobs }) := by
      simp [Make, hp, hl, mapInsert, mapDelete_absent _ _ hl]
    have hj1 : ({ s with
          heap := s.heap ++
            [{ name := name, cronExpression := expr, function := function, data := data,
               state := StateStopped, nextRun := cx.Next expr now0, timer := none }],
          jobs := (name, s.heap.length) :: s.jobs } : Scheduler).heap[s.heap.length]? =
        some { name := name, cronExpression := expr, function := function, data := data,
               state := StateStopped, nextRun := cx.Next expr now0, timer := none } := by
      simp
    have hstart := lockedStart_stopped now2 hj1 rfl
    have hboth : (Start (Make cx s name cron function data now0).2 name now2).map Prod.snd =
        some (setJob
          { ({ s with
              heap := s.heap ++
                [{ name := name, cronExpression := expr, function := function, data := data,
                   state := StateStopped, nextRun := cx.Next expr now0, timer := none }],
              jobs := (name, s.heap.length) :: s.jobs } : Scheduler) with
            jobsNotStopped := s.jobsNotStopped + 1,
            timers := s.timers ++
              [{ d := Sub (cx.Next expr now0) now2, job := s.heap.length, status := .armed }] }
          s.heap.length
          { name := name, cronExpression := expr, function := function, data := data,
            state := StateScheduled, nextRun := cx.Next expr now0,
            timer := some s.timers.length }) := by
      rw [hm]
      simp only [Start, mapLookup, if_true, hstart, Option.map]
    exact ⟨_, hboth, rfl, Sub_pos_iff _ _⟩
  · intro hd hs
    obtain ⟨s3, hrun, htimers, _⟩ := run_clear cx now1 now2 hj hd hs
    refine ⟨s3, hrun, htimers, Sub_pos_iff _ _, ?_, ?_⟩
    · intro hn he
      rw [Sub_pos_iff, he]
      exact hn
    · intro hle
      have h := (Sub_pos_iff (cx.Next job.cronExpression now1) now2).not
      have h2 : ¬ now2 < cx.Next job.cronExpression now1 := not_lt.mpr hle
      exact not_lt.mp (h.mpr h2)

/-- C19 amended, at a sample: the sample job, Scheduled with no flag, runs from 2000 to
2500. -/
theorem armed_duration_witness :
    ∃ s3, run sampleCron (sampleSched StateScheduled (some 0) .ran 1) 0 2000 2500 = some s3 ∧
      s3.timers = (sampleSched StateScheduled (some 0) .ran 1).timers ++
        [{ d := Sub (sampleCron.Next (sampleJob StateScheduled (some 0)).cronExpression 2000)
                2500,
           job := 0, status := .armed }] ∧
      (0 < Sub (sampleCron.Next (sampleJob StateScheduled (some 0)).cronExpression 2000) 2500 ↔
        2500 < sampleCron.Next (sampleJob StateScheduled (some 0)).cronExpression 2000) ∧
      (2000 < sampleCron.Next (sampleJob StateScheduled (some 0)).cronExpression 2000 →
        (2500 : Time) = 2000 →
        0 < Sub (sampleCron.Next (sampleJob StateScheduled (some 0)).cronExpression 2000)
          2500) ∧
      (sampleCron.Next (sampleJob StateScheduled (some 0)).cronExpression 2000 ≤ 2500 →
        Sub (sampleCron.Next (sampleJob StateScheduled (some 0)).cronExpression 2000) 2500 ≤
          0) :=
  (armed_duration sampleCron (sampleSched StateScheduled (some 0) .ran 1) "a" "* * * * * * *"
    3 none 0 (sampleJob StateScheduled (some 0)) 0 2000 2500 (by decide)).2.2 (by decide)
    (by decide)

/-! ## Jobs -/

theorem appendNames_eq (entries : List (String × Nat)) :
    ∀ names, appendNames names entries = names ++ entries.map Prod.fst := by
  induction entries with
  | nil => intro names; simp [appendNames]
  | cons kv rest ih =>
    intro names
    obtain ⟨k, v⟩ := kv
    simp [appendNames, ih]

theorem mapLookup_mem {m : List (String × Nat)} {name : String} {p : Nat}
    (h : mapLookup m name = some p) : (name, p) ∈ m := by
  induction m with
  | nil => simp [mapLookup] at h
  | cons kv rest ih =>
    obtain ⟨k, v⟩ := kv
    by_cases hk : k = name
    · simp only [mapLookup, hk, if_true, Option.some.injEq] at h
      rw [hk, h]
      exact List.mem_cons_self _ _
    · simp only [mapLookup, hk, if_false] at h
      exact List.mem_cons_of_mem _ (ih h)

theorem mapLookup_isSome_iff (m : List (String × Nat)) (name : String) :
    (mapLookup m name).isSome ↔ name ∈ m.map Prod.fst := by
  induction m with
  | nil => simp [mapLookup]
  | cons kv rest ih =>
    obtain ⟨k, v⟩ := kv
    by_cases h : k = name
    · simp [mapLookup, h]
    · have h2 : ¬ name = k := fun e => h e.symm
      simp only [mapLookup, h, if_false, ih, List.map_cons, List.mem_cons, h2, false_or]

/-- C11: the list Jobs returns, in whatever order the map yields its entries, is a
permutation of the registry's keys: a name is in the list exactly when it is registered,
each registered name occurs once, and the length is the number of registered jobs; the
list is computed from the scheduler without writing to it.  After Make of two names on a
new scheduler and Delete of one of them, Jobs returns exactly the other. -/
theorem Jobs_keys (cx : Cronexpr) (s : Scheduler) (hk : (s.jobs.map Prod.fst).Nodup) :
    (∀ order : List (String × Nat), order.Perm s.jobs →
      (appendNames [] order).Perm (s.jobs.map Prod.fst) ∧
      (∀ name, name ∈ appendNames [] order ↔ (mapLookup s.jobs name).isSome) ∧
      (∀ name, (mapLookup s.jobs name).isSome → (appendNames [] order).count name = 1) ∧
      (appendNames [] order).length = s.jobs.length) ∧
    Jobs s = s.jobs.map Prod.fst ∧
    (∀ (n1 n2 c1 c2 : String) (f1 f2 : Func) (d1 d2 : Data) (t1 t2 : Time) (e1 e2 : Expression),
      n1 ≠ n2 → cx.Parse c1 = .ok e1 → cx.Parse c2 = .ok e2 →
      Jobs (Make cx (Make cx NewScheduler n1 c1 f1 d1 t1).2 n2 c2 f2 d2 t2).2 = [n2, n1] ∧
      (Delete (Make cx (Make cx NewScheduler n1 c1 f1 d1 t1).2 n2 c2 f2 d2 t2).2 n1).map
        (fun r => (r.1, Jobs r.2)) = some (Error.nil, [n2]) ∧
      (Delete (Make cx (Make cx NewScheduler n1 c1 f1 d1 t1).2 n2 c2 f2 d2 t2).2 n2).map
        (fun r => (r.1, Jobs r.2)) = some (Error.nil, [n1])) := by
  refine ⟨?_, ?_, ?_⟩
  · intro order hperm
    have hmap : (order.map Prod.fst).Perm (s.jobs.map Prod.fst) := hperm.map Prod.fst
    have heq : appendNames [] order = order.map Prod.fst := by
      rw [appendNames_eq]; rfl
    rw [heq]
    refine ⟨hmap, ?_, ?_, ?_⟩
    · intro name
      rw [hmap.mem_iff, mapLookup_isSome_iff]
    · intro name hn
      have hmem : name ∈ order.map Prod.fst := by
        rw [hmap.mem_iff, ← mapLookup_isSome_iff]
        exact hn
      exact List.count_eq_one_of_mem (hmap.nodup_iff.mpr hk) hmem
    · rw [List.length_map]
      exact hperm.length_eq
  · simp only [Jobs, appendNames_eq]
    rfl
  · intro n1 n2 c1 c2 f1 f2 d1 d2 t1 t2 e1 e2 hne h1 h2
    have hne2 : ¬ n2 = n1 := fun e => hne e.symm
    refine ⟨?_, ?_, ?_⟩
    · simp [Jobs, appendNames, Make, NewScheduler, h1, h2, mapLookup, mapInsert, mapDelete, hne]
    · simp [Jobs, appendNames, Make, NewScheduler, h1, h2, mapLookup, mapInsert, mapDelete, hne,
        hne2, Delete, lockedDelete, stop, jobDelete]
    · simp [Jobs, appendNames, Make, NewScheduler, h1, h2, mapLookup, mapInsert, mapDelete, hne,
        hne2, Delete, lockedDelete, stop, jobDelete, List.getElem?_append_right]

/-- C11 at a sample: Jobs on the sample scheduler, whose only registered name is `a`. -/
theorem Jobs_keys_witness :
    Jobs (sampleSched StateStopped none .stopped 0) =
      (sampleSched StateStopped none .stopped 0).jobs.map Prod.fst :=
  (Jobs_keys sampleCron (sampleSched StateStopped none .stopped 0) (by decide)).2.1

/-! ## StopAll -/

/-- The stop step on a usable job: what it leaves. -/
theorem stop_usable {s : Scheduler} {p : Nat} (hu : Usable s p) :
    ∃ s1 job job1, s.heap[p]? = some job ∧ stop s p = some s1 ∧ s1.heap[p]? = some job1 ∧
      (job1.state = StateStopped ∨ job1.state &&& StateStopping > 0) ∧
      (job.state = StateStopped → job1.state = StateStopped) ∧
      s1.jobs = s.jobs ∧ s1.timers.length = s.timers.length ∧ s1.calls = s.calls ∧
      (∀ q, q ≠ p → s1.heap[q]? = s.heap[q]?) ∧
      s1.jobsNotStopped =
        s.jobsNotStopped - (if job.state ≠ StateStopped ∧ job1.state = StateStopped then 1 else 0) ∧
      s1.jobsNotStopped = s.jobsNotStopped - (if wentStopped s s1 p then 1 else 0) ∧
      (job.state &&& StateRunning > 0 →
        job1 = { job with state := job.state ||| StateStopping }) ∧
      (∀ (t : Nat) (tm1 : Timer), s1.timers[t]? = some tm1 → tm1.status = .armed →
        s.timers[t]? = some tm1) := by
  obtain ⟨job, hj, hT0⟩ := hu
  have hT : job.state ≠ StateStopped → ¬ job.state &&& StateRunning > 0 →
      ∃ t tm, job.timer = some t ∧ s.timers[t]? = some tm := by
    intro h1 h2
    obtain ⟨t, ht, hlt⟩ := hT0 h1 h2
    exact ⟨t, s.timers[t], ht, List.getElem?_eq_getElem hlt⟩
  have hw : ∀ (s1 : Scheduler) (job1 : jobStruct), s1.heap[p]? = some job1 →
      wentStopped s s1 p = decide (job.state ≠ StateStopped ∧ job1.state = StateStopped) := by
    intro s1 job1 hj1
    by_cases ha : job.state = StateStopped <;> by_cases hb : job1.state = StateStopped <;>
      simp [wentStopped, notStoppedAt, hj, hj1, ha, hb]
  rcases stop_cases hj hT with ⟨h1, hs⟩ | ⟨h2, hs⟩ | ⟨t, tm, h1, h2, ht, htm, ha, hs⟩ |
      ⟨t, tm, h1, h2, ht, htm, ha, hs⟩
  · refine ⟨s, job, job, hj, hs, hj, Or.inl h1, fun _ => h1, rfl, rfl, rfl, fun _ _ => rfl, ?_,
      ?_, ?_, fun _ _ h _ => h⟩
    · simp [h1]
    · rw [hw s job hj]
      simp [h1]
    · intro hr
      exact absurd h1 (running_ne_stopped _ hr)
  · have hj1 := setJob_heap_self hj { job with state := job.state ||| StateStopping }
    have hne : job.state ≠ StateStopped := running_ne_stopped _ h2
    refine ⟨_, job, _, hj, hs, hj1, Or.inr (stopping_set _), fun h => absurd h hne, rfl, rfl, rfl,
      fun q hq => setJob_heap_ne s hq _, ?_, ?_, fun _ => rfl, fun _ _ h _ => h⟩
    · simp [stopping_ne_stopped]
    · rw [hw _ _ hj1]
      simp [stopping_ne_stopped]
  · obtain ⟨s1, hs1⟩ : ∃ s1 : Scheduler, s1 = setJob
        { s with timers := s.timers.set t { tm with status := .stopped },
                 jobsNotStopped := s.jobsNotStopped - 1,
                 chanJobsNotStopped := trySend s.chanJobsNotStopped }
        p { job with timer := none, state := StateStopped } := ⟨_, rfl⟩
    rw [← hs1] at hs
    have hj1 : s1.heap[p]? = some { job with timer := none, state := StateStopped } := by
      rw [hs1]
      simp [setJob, List.getElem?_set, heap_lt hj]
    refine ⟨s1, job, _, hj, hs, hj1, Or.inl rfl, fun _ => rfl, by rw [hs1]; rfl, ?_,
      by rw [hs1]; rfl, ?_, ?_, ?_, fun hr => absurd hr h2, ?_⟩
    · rw [hs1]
      simp [setJob]
    · intro q hq
      rw [hs1]
      simp [setJob, List.getElem?_set, Ne.symm hq]
    · rw [hs1]
      simp [setJob, h1]
    · rw [hw _ _ hj1, hs1]
      simp [setJob, h1]
    · intro t2 tm1 htm1 harm
      rw [hs1] at htm1
      simp only [setJob_timers, List.getElem?_set] at htm1
      by_cases ht2 : t = t2
      · rw [if_pos ht2] at htm1
        split at htm1
        · simp only [Option.some.injEq] at htm1
          rw [← htm1] at harm
          cases harm
        · cases htm1
      · rw [if_neg ht2] at htm1
        exact htm1
  · have hj1 := setJob_heap_self hj { job with state := job.state ||| StateStopping }
    refine ⟨_, job, _, hj, hs, hj1, Or.inr (stopping_set _), fun h => absurd h h1, rfl, rfl, rfl,
      fun q hq => setJob_heap_ne s hq _, ?_, ?_, fun hr => absurd hr h2, fun _ _ h _ => h⟩
    · simp [stopping_ne_stopped]
    · rw [hw _ _ hj1]
      simp [stopping_ne_stopped]

/-- A usable job stays usable when the stop step is taken on another job. -/
theorem Usable_of_frame {s s1 : Scheduler} {q : Nat} (hu : Usable s q)
    (hh : s1.heap[q]? = s.heap[q]?) (ht : s1.timers.length = s.timers.length) :
    Usable s1 q := by
  obtain ⟨job, hj, hT⟩ := hu
  refine ⟨job, by rw [hh]; exact hj, ?_⟩
  intro h1 h2
  obtain ⟨t, htm, hlt⟩ := hT h1 h2
  exact ⟨t, htm, by rw [ht]; exact hlt⟩

/-- The loop of StopAll over entries with distinct, usable job pointers. -/
theorem stopEach_usable (entries : List (String × Nat)) :
    ∀ s : Scheduler, (entries.map Prod.snd).Nodup → (∀ kv ∈ entries, Usable s kv.2) →
      ∃ s1, stopEach s entries = some s1 ∧ s1.jobs = s.jobs ∧
        s1.timers.length = s.timers.length ∧ s1.calls = s.calls ∧
        (∀ q, q ∉ entries.map Prod.snd → s1.heap[q]? = s.heap[q]?) ∧
        (∀ kv ∈ entries, ∃ job1, s1.heap[kv.2]? = some job1 ∧
          (job1.state = StateStopped ∨ job1.state &&& StateStopping > 0)) ∧
        s1.jobsNotStopped =
          s.jobsNotStopped - ((entries.filter fun kv => wentStopped s s1 kv.2).length : Int) ∧
        (∀ kv ∈ entries, ∀ job, s.heap[kv.2]? = some job → job.state &&& StateRunning > 0 →
          s1.heap[kv.2]? = some { job with state := job.state ||| StateStopping }) ∧
        (∀ (t : Nat) (tm1 : Timer), s1.timers[t]? = some tm1 → tm1.status = .armed →
          s.timers[t]? = some tm1) := by
  induction entries with
  | nil =>
    intro s _ _
    exact ⟨s, rfl, rfl, rfl, rfl, fun _ _ => rfl, by simp, by simp, by simp,
      fun _ _ h _ => h⟩
  | cons kv rest ih =>
    intro s hnd hu
    obtain ⟨n, p⟩ := kv
    simp only [List.map_cons, List.nodup_cons] at hnd
    obtain ⟨hp, hnd2⟩ := hnd
    obtain ⟨s1, job, job1, hj, hs, hj1, hflag, _, hjobs, htl, hcalls, hfr, _, hcnt, hrun,
        harm⟩ := stop_usable (hu (n, p) (List.mem_cons_self _ _))
    have hne : ∀ kv ∈ rest, kv.2 ≠ p := by
      intro kv hkv he
      exact hp (he ▸ List.mem_map_of_mem Prod.snd hkv)
    have hu1 : ∀ kv ∈ rest, Usable s1 kv.2 := by
      intro kv hkv
      exact Usable_of_frame (hu kv (List.mem_cons_of_mem _ hkv)) (hfr _ (hne kv hkv)) htl
    obtain ⟨s2, hs2, hjobs2, htl2, hcalls2, hfr2, hall2, hcnt2, hrun2, harm2⟩ :=
      ih s1 hnd2 hu1
    have hp2 : s2.heap[p]? = s1.heap[p]? := hfr2 p hp
    refine ⟨s2, ?_, hjobs2.trans hjobs, htl2.trans htl, hcalls2.trans hcalls, ?_, ?_, ?_, ?_,
      fun t tm1 h ha => harm t tm1 (harm2 t tm1 h ha) ha⟩
    · simp only [stopEach, hs, Option.bind]
      exact hs2
    · intro q hq
      simp only [List.map_cons, List.mem_cons, not_or] at hq
      rw [hfr2 q hq.2, hfr q hq.1]
    · intro kv hkv
      rcases List.mem_cons.mp hkv with he | hmem
      · subst he
        exact ⟨job1, by rw [hp2]; exact hj1, hflag⟩
      · exact hall2 kv hmem
    · have hwp : wentStopped s s2 p = wentStopped s s1 p := by
        simp only [wentStopped, notStoppedAt, hp2]
      have hwr : (rest.filter fun kv => wentStopped s s2 kv.2) =
          (rest.filter fun kv => wentStopped s1 s2 kv.2) := by
        apply List.filter_congr
        intro kv hkv
        simp only [wentStopped, notStoppedAt, hfr _ (hne kv hkv)]
      rw [hcnt2, hcnt, List.filter_cons, hwp, hwr]
      by_cases hw : wentStopped s s1 p = true
      · simp only [hw, if_true, List.length_cons]
        push_cast
        ring
      · simp only [hw, if_false]
        simp
    · intro kv hkv job0 hj0 hr0
      rcases List.mem_cons.mp hkv with he | hmem
      · subst he
        rw [hj] at hj0
        simp only [Option.some.injEq] at hj0
        subst hj0
        rw [hp2, hj1, hrun hr0]
      · have hq := hfr _ (hne kv hmem)
        exact hrun2 kv hmem job0 (by rw [hq]; exact hj0) hr0

/-- C12: StopAll takes the stop step on every registered job: it returns, the registry
is unchanged, every registered job is then in state Stopped or carries the Stopping
flag (so none is exactly Scheduled or exactly Running), and the counter has dropped by
the number of registered jobs that were not Stopped before and are Stopped after. -/
theorem StopAll_contract (s : Scheduler) (hp : (s.jobs.map Prod.snd).Nodup)
    (hu : ∀ kv ∈ s.jobs, Usable s kv.2) :
    ∃ s1, StopAll s = some s1 ∧ s1.jobs = s.jobs ∧
      (∀ name p, mapLookup s1.jobs name = some p →
        ∃ job1, s1.heap[p]? = some job1 ∧
          (job1.state = StateStopped ∨ job1.state &&& StateStopping > 0) ∧
          job1.state ≠ StateScheduled ∧ job1.state ≠ StateRunning) ∧
      s1.jobsNotStopped =
        s.jobsNotStopped - ((s.jobs.filter fun kv => wentStopped s s1 kv.2).length : Int) ∧
      (∀ q, q ∉ s.jobs.map Prod.snd → s1.heap[q]? = s.heap[q]?) ∧
      s1.timers.length = s.timers.length ∧ s1.calls = s.calls := by
  obtain ⟨s1, hs, hjobs, htl, hcalls, hfr, hall, hcnt, _, _⟩ := stopEach_usable s.jobs s hp hu
  refine ⟨s1, hs, hjobs, ?_, hcnt, hfr, htl, hcalls⟩
  intro name p hl
  rw [hjobs] at hl
  obtain ⟨job1, hj1, hflag⟩ := hall (name, p) (mapLookup_mem hl)
  refine ⟨job1, hj1, hflag, ?_, ?_⟩
  · intro h
    rw [h] at hflag
    revert hflag
    decide
  · intro h
    rw [h] at hflag
    revert hflag
    decide

/-- C12 at a sample: StopAll on the scheduler with a Running job and a Scheduled job. -/
theorem StopAll_contract_witness :
    ∃ s1, StopAll sampleTwo = some s1 ∧ s1.jobs = sampleTwo.jobs ∧
      (∀ name p, mapLookup s1.jobs name = some p →
        ∃ job1, s1.heap[p]? = some job1 ∧
          (job1.state = StateStopped ∨ job1.state &&& StateStopping > 0) ∧
          job1.state ≠ StateScheduled ∧ job1.state ≠ StateRunning) ∧
      s1.jobsNotStopped =
        sampleTwo.jobsNotStopped -
          ((sampleTwo.jobs.filter fun kv => wentStopped sampleTwo s1 kv.2).length : Int) ∧
      (∀ q, q ∉ sampleTwo.jobs.map Prod.snd → s1.heap[q]? = sampleTwo.heap[q]?) ∧
      s1.timers.length = sampleTwo.timers.length ∧ s1.calls = sampleTwo.calls :=
  StopAll_contract sampleTwo (by decide) (by
    intro kv hkv
    simp only [sampleTwo, List.mem_cons, List.mem_singleton, List.not_mem_nil, or_false] at hkv
    rcases hkv with rfl | rfl
    · exact ⟨sampleJob StateRunning none, rfl, fun _ h => absurd (by decide) h⟩
    · exact ⟨{ sampleJob StateScheduled (some 0) with name := "b" }, rfl,
        fun _ _ => ⟨0, rfl, by decide⟩⟩)

/-! ## A job whose callback is executing -/

/-- C20 fails on the code: when `Delete("a")` has looked up job 0 and, before it takes
the job mutex, another goroutine deletes `a`, makes `a` again (job 1) and starts it, the
locked section of the first Delete finds job 0 Stopped and deletes the registry entry
of the name, which now belongs to job 1 in state Scheduled: the name is gone from the
registry while job 1 stays Scheduled, counted and with its timer armed. -/
theorem staleDelete_removes_scheduled :
    ∃ s4 s5, staleDelete = some (s4, s5) ∧
      mapLookup s4.jobs "a" = some 1 ∧
      (s4.heap[1]?).map (fun j => j.state) = some StateScheduled ∧
      (s4.heap[0]?).map (fun j => j.state) = some StateStopped ∧
      lockedDelete s4 0 = some s5 ∧
      mapLookup s5.jobs "a" = none ∧
      (s5.heap[1]?).map (fun j => (j.state, j.timer)) = some (StateScheduled, some 0) ∧
      s5.jobsNotStopped = 1 ∧
      (s5.timers[0]?).map (fun tm => (tm.job, tm.status)) = some (1, TimerStatus.armed) :=
  ⟨_, _, rfl, by decide, by decide, by decide, by decide, by decide, by decide, by decide,
    by decide⟩

/-! ## The invariant: jobs and timers -/

theorem validState_stopped : validState StateStopped := Or.inl rfl

theorem validState_scheduled : validState StateScheduled := Or.inr (Or.inl rfl)

theorem validState_running : validState StateRunning :=
  Or.inr (Or.inr (Or.inr (Or.inr (Or.inl rfl))))

/-- Adding the Stopping flag, and then the Deleting flag, to a valid state that is not
Stopped gives valid states. -/
theorem validState_flags {st : State} (h : validState st) (hne : st ≠ StateStopped) :
    validState (st ||| StateStopping) ∧
    validState ((st ||| StateStopping) ||| StateDeleting) := by
  unfold validState at h
  rcases h with h | h | h | h | h | h | h
  · exact absurd h hne
  all_goals (subst h; unfold validState; decide)

/-- A valid state with the Deleting flag has the Stopping flag too. -/
theorem validState_deleting {st : State} (h : validState st)
    (hd : st &&& StateDeleting > 0) : st &&& StateStopping > 0 := by
  unfold validState at h
  rcases h with h | h | h | h | h | h | h <;> subst h <;> revert hd <;> decide

/-- A valid state has exactly one of Stopped, the Scheduled flag and the Running flag. -/
theorem validState_base {st : State} (h : validState st) :
    (st = StateStopped ∧ ¬ st &&& StateScheduled > 0 ∧ ¬ st &&& StateRunning > 0) ∨
    (st ≠ StateStopped ∧ st &&& StateScheduled > 0 ∧ ¬ st &&& StateRunning > 0) ∨
    (st ≠ StateStopped ∧ ¬ st &&& StateScheduled > 0 ∧ st &&& StateRunning > 0) := by
  unfold validState at h
  rcases h with h | h | h | h | h | h | h <;> subst h <;> decide

/-- The invariant on jobs and timers reads only the heap and the timers. -/
theorem TimersOk.of_eq {s s1 : Scheduler} (h : TimersOk s) (hh : s1.heap = s.heap)
    (ht : s1.timers = s.timers) : TimersOk s1 := by
  constructor
  · intro t tm h1 h2
    rw [ht] at h1
    rw [hh]
    exact h.owner t tm h1 h2
  · intro p job h1
    rw [hh] at h1
    exact h.shape p job h1
  · intro p job h1
    rw [hh] at h1
    exact h.idle p job h1
  · intro p job h1 h2 h3
    rw [hh] at h1
    rw [ht]
    exact h.pending p job h1 h2 h3

/-- A job is rewritten without touching its timer handle, whether it is Stopped and
whether it is Running. -/
theorem TimersOk.same {s s1 : Scheduler} {p : Nat} {job job1 : jobStruct} (h : TimersOk s)
    (hj : s.heap[p]? = some job) (hh : s1.heap = s.heap.set p job1)
    (ht : s1.timers = s.timers) (htm : job1.timer = job.timer)
    (hst : job1.state = StateStopped ↔ job.state = StateStopped)
    (hrn : job1.state &&& StateRunning > 0 ↔ job.state &&& StateRunning > 0)
    (hv : validState job1.state) : TimersOk s1 := by
  have hlt := heap_lt hj
  constructor
  · intro t tm h1 h2
    rw [ht] at h1
    obtain ⟨job0, hj0, ht0⟩ := h.owner t tm h1 h2
    by_cases hq : tm.job = p
    · rw [hq] at hj0
      rw [hj] at hj0
      cases hj0
      exact ⟨job1, by rw [hh, hq]; simp [List.getElem?_set, hlt], by rw [htm]; exact ht0⟩
    · exact ⟨job0, by rw [hh]; simp [List.getElem?_set, Ne.symm hq, hj0], ht0⟩
  · intro q jq h1
    rw [hh, List.getElem?_set] at h1
    by_cases hq : p = q
    · simp only [hq, if_true] at h1
      split at h1
      · cases h1; exact hv
      · cases h1
    · simp only [hq, if_false] at h1
      exact h.shape q jq h1
  · intro q jq h1 h2
    rw [hh, List.getElem?_set] at h1
    by_cases hq : p = q
    · simp only [hq, if_true] at h1
      split at h1
      · cases h1
        rw [htm]
        exact h.idle p job hj (h2.imp hst.mp hrn.mp)
      · cases h1
    · simp only [hq, if_false] at h1
      exact h.idle q jq h1 h2
  · intro q jq h1 h2 h3
    rw [hh, List.getElem?_set] at h1
    rw [ht]
    by_cases hq : p = q
    · simp only [hq, if_true] at h1
      split at h1
      · cases h1
        subst hq
        rw [htm]
        exact h.pending p job hj (fun e => h2 (hst.mpr e)) (fun e => h3 (hrn.mpr e))
      · cases h1
    · simp only [hq, if_false] at h1
      exact h.pending q jq h1 h2 h3

/-- A timer changes status between armed and fired, or between stopped and ran. -/
theorem TimersOk.status {s s1 : Scheduler} {t : Nat} {tm tm1 : Timer} (h : TimersOk s)
    (htm : s.timers[t]? = some tm) (hh : s1.heap = s.heap)
    (ht : s1.timers = s.timers.set t tm1) (hjob : tm1.job = tm.job)
    (hout : (tm1.status = .armed ∨ tm1.status = .fired) ↔
      (tm.status = .armed ∨ tm.status = .fired)) : TimersOk s1 := by
  have hlt : t < s.timers.length := (List.getElem?_eq_some.mp htm).1
  constructor
  · intro t2 tm2 h1 h2
    rw [ht, List.getElem?_set] at h1
    rw [hh]
    by_cases hq : t = t2
    · simp only [hq, if_true] at h1
      split at h1
      · cases h1
        subst hq
        rw [hjob]
        exact h.owner t tm htm (hout.mp h2)
      · cases h1
    · simp only [hq, if_false] at h1
      exact h.owner t2 tm2 h1 h2
  · intro p job h1
    rw [hh] at h1
    exact h.shape p job h1
  · intro p job h1
    rw [hh] at h1
    exact h.idle p job h1
  · intro p job h1 h2 h3
    rw [hh] at h1
    obtain ⟨t0, tm0, ht0, htm0, hj0, ho0⟩ := h.pending p job h1 h2 h3
    by_cases hq : t = t0
    · subst hq
      rw [htm] at htm0
      cases htm0
      exact ⟨t, tm1, ht0, by rw [ht]; simp [List.getElem?_set, hlt], by rw [hjob]; exact hj0,
        hout.mpr ho0⟩
    · exact ⟨t0, tm0, ht0, by rw [ht]; simp [List.getElem?_set, hq, htm0], hj0, ho0⟩

/-- Reading a list extended by one element. -/
theorem getElem?_snoc {α : Type} (l : List α) (a b : α) (i : Nat)
    (h : (l ++ [a])[i]? = some b) : l[i]? = some b ∨ (i = l.length ∧ b = a) := by
  by_cases hi : i < l.length
  · rw [List.getElem?_append_left hi] at h
    exact Or.inl h
  · by_cases he : i = l.length
    · subst he
      rw [List.getElem?_concat_length] at h
      cases h
      exact Or.inr ⟨rfl, rfl⟩
    · have hlen : (l ++ [a]).length ≤ i := by
        simp only [List.length_append, List.length_singleton]
        omega
      rw [List.getElem?_eq_none hlen] at h
      cases h

/-- Reading a list after one element was replaced. -/
theorem getElem?_set_cases {α : Type} (l : List α) (a b : α) (i j : Nat)
    (h : (l.set i a)[j]? = some b) : (j = i ∧ b = a) ∨ (j ≠ i ∧ l[j]? = some b) := by
  rw [List.getElem?_set] at h
  by_cases hq : i = j
  · simp only [hq, if_true] at h
    split at h
    · cases h
      exact Or.inl ⟨hq.symm, rfl⟩
    · cases h
  · simp only [hq, if_false] at h
    exact Or.inr ⟨fun e => hq e.symm, h⟩

/-- A job that holds no handle gets a new armed timer and a state that is neither
Stopped nor Running. -/
theorem TimersOk.arm {s s1 : Scheduler} {p : Nat} {job job1 : jobStruct} {tmNew : Timer}
    (h : TimersOk s) (hj : s.heap[p]? = some job) (hnone : job.timer = none)
    (hh : s1.heap = s.heap.set p job1) (ht : s1.timers = s.timers ++ [tmNew])
    (hnj : tmNew.job = p) (hna : tmNew.status = .armed)
    (htm : job1.timer = some s.timers.length) (hv : validState job1.state)
    (hns : job1.state ≠ StateStopped) (hnr : ¬ job1.state &&& StateRunning > 0) :
    TimersOk s1 := by
  have hlt := heap_lt hj
  have hp1 : s1.heap[p]? = some job1 := by rw [hh]; simp [List.getElem?_set, hlt]
  have hne : ∀ q, q ≠ p → s1.heap[q]? = s.heap[q]? := by
    intro q hq
    rw [hh]
    simp [List.getElem?_set, Ne.symm hq]
  constructor
  · intro t2 tm2 h1 h2
    rw [ht] at h1
    rcases getElem?_snoc _ _ _ _ h1 with hold | ⟨hi, hb⟩
    · obtain ⟨job0, hj0, ht0⟩ := h.owner t2 tm2 hold h2
      have hq : tm2.job ≠ p := by
        intro e
        rw [e, hj] at hj0
        cases hj0
        rw [hnone] at ht0
        cases ht0
      exact ⟨job0, by rw [hne _ hq]; exact hj0, ht0⟩
    · subst hb
      rw [hnj, hi]
      exact ⟨job1, hp1, htm⟩
  · intro q jq h1
    by_cases hq : q = p
    · subst hq
      rw [hp1] at h1
      cases h1
      exact hv
    · rw [hne q hq] at h1
      exact h.shape q jq h1
  · intro q jq h1 h2
    by_cases hq : q = p
    · subst hq
      rw [hp1] at h1
      cases h1
      rcases h2 with h2 | h2
      · exact absurd h2 hns
      · exact absurd h2 hnr
    · rw [hne q hq] at h1
      exact h.idle q jq h1 h2
  · intro q jq h1 h2 h3
    rw [ht]
    by_cases hq : q = p
    · subst hq
      rw [hp1] at h1
      cases h1
      exact ⟨s.timers.length, tmNew, htm, List.getElem?_concat_length _ _, hnj, Or.inl hna⟩
    · rw [hne q hq] at h1
      obtain ⟨t0, tm0, ht0, htm0, hj0, ho0⟩ := h.pending q jq h1 h2 h3
      have hlt0 : t0 < s.timers.length := (List.getElem?_eq_some.mp htm0).1
      exact ⟨t0, tm0, ht0, by rw [List.getElem?_append_left hlt0]; exact htm0, hj0, ho0⟩

/-- A job gives up its handle: its timer is stopped or has run, and the job becomes
Stopped or Running. -/
theorem TimersOk.drop {s s1 : Scheduler} {p t : Nat} {job job1 : jobStruct} {tm tm1 : Timer}
    (h : TimersOk s) (hj : s.heap[p]? = some job) (hhandle : job.timer = some t)
    (htm : s.timers[t]? = some tm) (hh : s1.heap = s.heap.set p job1)
    (ht : s1.timers = s.timers.set t tm1)
    (hno : ¬ (tm1.status = .armed ∨ tm1.status = .fired)) (hnone : job1.timer = none)
    (hv : validState job1.state)
    (hsr : job1.state = StateStopped ∨ job1.state &&& StateRunning > 0) : TimersOk s1 := by
  have hlt := heap_lt hj
  have hp1 : s1.heap[p]? = some job1 := by rw [hh]; simp [List.getElem?_set, hlt]
  have hne : ∀ q, q ≠ p → s1.heap[q]? = s.heap[q]? := by
    intro q hq
    rw [hh]
    simp [List.getElem?_set, Ne.symm hq]
  have hns : job.state ≠ StateStopped := by
    intro e
    have := h.idle p job hj (Or.inl e)
    rw [hhandle] at this
    cases this
  have hnr : ¬ job.state &&& StateRunning > 0 := by
    intro e
    have := h.idle p job hj (Or.inr e)
    rw [hhandle] at this
    cases this
  have hown : tm.job = p := by
    obtain ⟨t0, tm0, ht0, htm0, hj0, _⟩ := h.pending p job hj hns hnr
    rw [hhandle] at ht0
    cases ht0
    rw [htm] at htm0
    cases htm0
    exact hj0
  constructor
  · intro t2 tm2 h1 h2
    rw [ht] at h1
    rcases getElem?_set_cases _ _ _ _ _ h1 with ⟨_, hb⟩ | ⟨hi, hold⟩
    · subst hb
      exact absurd h2 hno
    · obtain ⟨job0, hj0, ht0⟩ := h.owner t2 tm2 hold h2
      have hq : tm2.job ≠ p := by
        intro e
        rw [e, hj] at hj0
        cases hj0
        rw [hhandle] at ht0
        cases ht0
        exact hi rfl
      exact ⟨job0, by rw [hne _ hq]; exact hj0, ht0⟩
  · intro q jq h1
    by_cases hq : q = p
    · subst hq
      rw [hp1] at h1
      cases h1
      exact hv
    · rw [hne q hq] at h1
      exact h.shape q jq h1
  · intro q jq h1 h2
    by_cases hq : q = p
    · subst hq
      rw [hp1] at h1
      cases h1
      exact hnone
    · rw [hne q hq] at h1
      exact h.idle q jq h1 h2
  · intro q jq h1 h2 h3
    by_cases hq : q = p
    · subst hq
      rw [hp1] at h1
      cases h1
      rcases hsr with e | e
      · exact absurd e h2
      · exact absurd e h3
    · rw [hne q hq] at h1
      obtain ⟨t0, tm0, ht0, htm0, hj0, ho0⟩ := h.pending q jq h1 h2 h3
      have ht0t : t ≠ t0 := by
        intro e
        subst e
        rw [htm] at htm0
        cases htm0
        exact hq (hj0.symm.trans hown)
      exact ⟨t0, tm0, ht0, by rw [ht]; simp [List.getElem?_set, ht0t, htm0], hj0, ho0⟩

/-- A new job, Stopped and with no handle, is added to the heap. -/
theorem TimersOk.make {s s1 : Scheduler} {jobNew : jobStruct} (h : TimersOk s)
    (hh : s1.heap = s.heap ++ [jobNew]) (ht : s1.timers = s.timers)
    (hst : jobNew.state = StateStopped) (hnone : jobNew.timer = none) : TimersOk s1 := by
  constructor
  · intro t tm h1 h2
    rw [ht] at h1
    obtain ⟨job0, hj0, ht0⟩ := h.owner t tm h1 h2
    exact ⟨job0, by rw [hh, List.getElem?_append_left (heap_lt hj0)]; exact hj0, ht0⟩
  · intro q jq h1
    rw [hh] at h1
    rcases getElem?_snoc _ _ _ _ h1 with hold | ⟨_, hb⟩
    · exact h.shape q jq hold
    · subst hb
      rw [hst]
      exact validState_stopped
  · intro q jq h1 h2
    rw [hh] at h1
    rcases getElem?_snoc _ _ _ _ h1 with hold | ⟨_, hb⟩
    · exact h.idle q jq hold h2
    · subst hb
      exact hnone
  · intro q jq h1 h2 h3
    rw [hh] at h1
    rw [ht]
    rcases getElem?_snoc _ _ _ _ h1 with hold | ⟨_, hb⟩
    · exact h.pending q jq hold h2 h3
    · subst hb
      exact absurd hst h2

/-! ## The invariant: the registry and the counter -/

theorem notStoppedAt_some {s : Scheduler} {p : Nat} {job : jobStruct}
    (h : s.heap[p]? = some job) : notStoppedAt s p = !decide (job.state = StateStopped) := by
  by_cases e : job.state = StateStopped
  · simp [notStoppedAt, h, e]
  · simp [notStoppedAt, h, e]

/-- Counting the entries whose pointer satisfies a test, when the test changes at one
pointer only and the pointers occur once. -/
theorem filter_length_change (l : List (String × Nat)) (f g : Nat → Bool) (p : Nat)
    (hnd : (l.map Prod.snd).Nodup) (hfg : ∀ q, q ≠ p → f q = g q) :
    (p ∈ l.map Prod.snd →
      (l.filter fun kv => f kv.2).length + (if g p = true then 1 else 0) =
        (l.filter fun kv => g kv.2).length + (if f p = true then 1 else 0)) ∧
    (p ∉ l.map Prod.snd →
      (l.filter fun kv => f kv.2).length = (l.filter fun kv => g kv.2).length) := by
  induction l with
  | nil => simp
  | cons kv rest ih =>
    obtain ⟨n, q⟩ := kv
    simp only [List.map_cons, List.nodup_cons] at hnd
    obtain ⟨hq, hnd2⟩ := hnd
    obtain ⟨ih1, ih2⟩ := ih hnd2
    by_cases hqp : q = p
    · subst hqp
      have hr := ih2 hq
      refine ⟨fun _ => ?_, fun hn => absurd (List.mem_cons_self _ _) hn⟩
      simp only [List.filter_cons]
      cases hf : f q <;> cases hg : g q <;> simp [hr]
    · have hfq := hfg q hqp
      refine ⟨fun hm => ?_, fun hn => ?_⟩
      · have hm2 : p ∈ rest.map Prod.snd := by
          rcases List.mem_cons.mp hm with e | e
          · exact absurd e.symm hqp
          · exact e
        have hr := ih1 hm2
        simp only [List.filter_cons, hfq]
        cases hg : g q <;> simp <;> omega
      · have hn2 : p ∉ rest.map Prod.snd := fun e => hn (List.mem_cons_of_mem _ e)
        have hr := ih2 hn2
        simp only [List.filter_cons, hfq]
        cases hg : g q <;> simp [hr]

/-- Keys that occur once determine the pointer. -/
theorem key_unique {α β : Type} {l : List (α × β)} (hk : (l.map Prod.fst).Nodup) {n : α}
    {a b : β} (ha : (n, a) ∈ l) (hb : (n, b) ∈ l) : a = b := by
  induction l with
  | nil => cases ha
  | cons kv rest ih =>
    simp only [List.map_cons, List.nodup_cons] at hk
    obtain ⟨hkv, hk2⟩ := hk
    rcases List.mem_cons.mp ha with ea | ea <;> rcases List.mem_cons.mp hb with eb | eb
    · rw [← ea] at eb
      exact (Prod.mk.inj eb).2.symm
    · exact absurd (List.mem_map_of_mem Prod.fst eb) (by rw [← ea] at hkv; exact hkv)
    · exact absurd (List.mem_map_of_mem Prod.fst ea) (by rw [← eb] at hkv; exact hkv)
    · exact ih hk2 ea eb

theorem mapDelete_eq_filter (m : List (String × Nat)) (name : String) :
    mapDelete m name = m.filter fun kv => !decide (kv.1 = name) := by
  induction m with
  | nil => rfl
  | cons kv rest ih =>
    obtain ⟨k, v⟩ := kv
    by_cases h : k = name
    · simp [mapDelete, h, ih]
    · simp [mapDelete, h, ih]

theorem mapLookup_of_mem {l : List (String × Nat)} (hk : (l.map Prod.fst).Nodup) {n : String}
    {p : Nat} (h : (n, p) ∈ l) : mapLookup l n = some p := by
  cases hl : mapLookup l n with
  | none =>
    have := (mapLookup_isSome_iff l n).mpr (List.mem_map_of_mem Prod.fst h)
    rw [hl] at this
    cases this
  | some q => rw [key_unique hk (mapLookup_mem hl) h]

/-- The invariant on the registry reads the registry, the counter and the heap. -/
theorem RegistryOk.of_fields {s s1 : Scheduler} (h : RegistryOk s) (hh : s1.heap = s.heap)
    (hjobs : s1.jobs = s.jobs) (hcnt : s1.jobsNotStopped = s.jobsNotStopped) :
    RegistryOk s1 := by
  have hns : ∀ q, notStoppedAt s1 q = notStoppedAt s q := by
    intro q
    simp only [notStoppedAt, hh]
  constructor
  · rw [hjobs]; exact h.keys
  · rw [hjobs]; exact h.ptrs
  · intro kv hkv
    rw [hjobs] at hkv
    rw [hh]
    exact h.named kv hkv
  · intro p job hj hne
    rw [hh] at hj
    rw [hjobs]
    exact h.registered p job hj hne
  · rw [hcnt, hjobs, h.count]
    simp only [hns]

/-- A job is rewritten, keeping its name; the counter moves with the job's being
Stopped or not. -/
theorem RegistryOk.set {s s1 : Scheduler} {p : Nat} {job job1 : jobStruct}
    (h : RegistryOk s) (hj : s.heap[p]? = some job) (hh : s1.heap = s.heap.set p job1)
    (hjobs : s1.jobs = s.jobs) (hname : job1.name = job.name)
    (hreg : job1.state ≠ StateStopped → (job.name, p) ∈ s.jobs)
    (hcnt : s1.jobsNotStopped + (if job.state = StateStopped then 0 else 1) =
      s.jobsNotStopped + (if job1.state = StateStopped then 0 else 1)) :
    RegistryOk s1 := by
  have hlt := heap_lt hj
  have hp1 : s1.heap[p]? = some job1 := by rw [hh]; simp [List.getElem?_set, hlt]
  have hne : ∀ q, q ≠ p → s1.heap[q]? = s.heap[q]? := by
    intro q hq
    rw [hh]
    simp [List.getElem?_set, Ne.symm hq]
  have hfg : ∀ q, q ≠ p → notStoppedAt s q = notStoppedAt s1 q := by
    intro q hq
    simp only [notStoppedAt, hne q hq]
  constructor
  · rw [hjobs]; exact h.keys
  · rw [hjobs]; exact h.ptrs
  · intro kv hkv
    rw [hjobs] at hkv
    obtain ⟨job0, hj0, hn0⟩ := h.named kv hkv
    by_cases hq : kv.2 = p
    · rw [hq] at hj0 ⊢
      rw [hj] at hj0
      cases hj0
      exact ⟨job1, hp1, hname.trans hn0⟩
    · exact ⟨job0, by rw [hne _ hq]; exact hj0, hn0⟩
  · intro q jq h1 h2
    rw [hjobs]
    by_cases hq : q = p
    · subst hq
      rw [hp1] at h1
      cases h1
      rw [hname]
      exact hreg h2
    · rw [hne q hq] at h1
      exact h.registered q jq h1 h2
  · rw [hjobs]
    obtain ⟨c1, c2⟩ := filter_length_change s.jobs (notStoppedAt s) (notStoppedAt s1) p h.ptrs hfg
    have hfp := notStoppedAt_some hj
    have hgp := notStoppedAt_some hp1
    have hc := h.count
    by_cases hmem : p ∈ s.jobs.map Prod.snd
    · have e := c1 hmem
      rw [hfp, hgp] at e
      by_cases ha : job.state = StateStopped <;> by_cases hb : job1.state = StateStopped <;>
        simp only [ha, hb, if_true, if_false, decide_True, decide_False, Bool.not_true,
          Bool.not_false, Bool.false_eq_true] at e hcnt <;> omega
    · have e := c2 hmem
      have hs1 : job1.state = StateStopped := by
        by_contra hb
        exact hmem (List.mem_map_of_mem Prod.snd (hreg hb))
      have hs0 : job.state = StateStopped := by
        by_contra ha
        exact hmem (List.mem_map_of_mem Prod.snd (h.registered p job hj ha))
      simp only [hs0, hs1, if_true] at hcnt
      omega

/-- The registry entry of a name is deleted, the job registered under it being
Stopped. -/
theorem RegistryOk.delete {s s1 : Scheduler} {p : Nat} {job : jobStruct} {name : String}
    (h : RegistryOk s) (hj : s.heap[p]? = some job) (hst : job.state = StateStopped)
    (hmem : (name, p) ∈ s.jobs) (hh : s1.heap = s.heap)
    (hjobs : s1.jobs = mapDelete s.jobs name)
    (hcnt : s1.jobsNotStopped = s.jobsNotStopped) : RegistryOk s1 := by
  have hns : ∀ q, notStoppedAt s1 q = notStoppedAt s q := by
    intro q
    simp only [notStoppedAt, hh]
  have hsub : (s.jobs.filter fun kv => !decide (kv.1 = name)).Sublist s.jobs :=
    List.filter_sublist _
  rw [mapDelete_eq_filter] at hjobs
  constructor
  · rw [hjobs]
    exact h.keys.sublist (hsub.map Prod.fst)
  · rw [hjobs]
    exact h.ptrs.sublist (hsub.map Prod.snd)
  · intro kv hkv
    rw [hjobs] at hkv
    rw [hh]
    exact h.named kv (List.mem_of_mem_filter hkv)
  · intro q jq h1 h2
    rw [hh] at h1
    rw [hjobs]
    have hreg := h.registered q jq h1 h2
    refine List.mem_filter.mpr ⟨hreg, ?_⟩
    have hnn : jq.name ≠ name := by
      intro e
      rw [e] at hreg
      have hqp := key_unique h.keys hreg hmem
      subst hqp
      rw [hj] at h1
      cases h1
      exact h2 hst
    simp [hnn]
  · rw [hcnt, hjobs, h.count, List.filter_filter]
    congr 2
    apply List.filter_congr
    intro kv hkv
    rw [hns]
    by_cases e : kv.1 = name
    · have hkv2 : (name, kv.2) ∈ s.jobs := by rw [← e]; exact hkv
      have hqp := key_unique h.keys hkv2 hmem
      rw [hqp, notStoppedAt_some hj]
      simp [hst]
    · simp [e]

/-- A new job, Stopped, is added to the heap and registered under a name that was not
registered. -/
theorem RegistryOk.insert {s s1 : Scheduler} {jobNew : jobStruct} {name : String}
    (h : RegistryOk s) (hfresh : mapLookup s.jobs name = none)
    (hh : s1.heap = s.heap ++ [jobNew]) (hjobs : s1.jobs = (name, s.heap.length) :: s.jobs)
    (hcnt : s1.jobsNotStopped = s.jobsNotStopped) (hname : jobNew.name = name)
    (hst : jobNew.state = StateStopped) : RegistryOk s1 := by
  have hold : ∀ (q : Nat) (job : jobStruct), s.heap[q]? = some job →
      s1.heap[q]? = some job := by
    intro q job hq
    rw [hh, List.getElem?_append_left (heap_lt hq)]
    exact hq
  have hnew : s1.heap[s.heap.length]? = some jobNew := by
    rw [hh]
    exact List.getElem?_concat_length _ _
  have hvalid : ∀ kv ∈ s.jobs, kv.2 < s.heap.length := by
    intro kv hkv
    obtain ⟨job0, hj0, _⟩ := h.named kv hkv
    exact heap_lt hj0
  constructor
  · rw [hjobs]
    simp only [List.map_cons, List.nodup_cons]
    refine ⟨?_, h.keys⟩
    intro hm
    have := (mapLookup_isSome_iff s.jobs name).mpr hm
    rw [hfresh] at this
    cases this
  · rw [hjobs]
    simp only [List.map_cons, List.nodup_cons]
    refine ⟨?_, h.ptrs⟩
    intro hm
    obtain ⟨kv, hkv, e⟩ := List.mem_map.mp hm
    have := hvalid kv hkv
    omega
  · intro kv hkv
    rw [hjobs] at hkv
    rcases List.mem_cons.mp hkv with e | e
    · subst e
      exact ⟨jobNew, hnew, hname⟩
    · obtain ⟨job0, hj0, hn0⟩ := h.named kv e
      exact ⟨job0, hold _ _ hj0, hn0⟩
  · intro q jq h1 h2
    rw [hh] at h1
    rw [hjobs]
    rcases getElem?_snoc _ _ _ _ h1 with ho | ⟨_, hb⟩
    · exact List.mem_cons_of_mem _ (h.registered q jq ho h2)
    · subst hb
      exact absurd hst h2
  · rw [hcnt, hjobs, h.count, List.filter_cons]
    have hn : notStoppedAt s1 s.heap.length = false := by
      rw [notStoppedAt_some hnew]
      simp [hst]
    simp only [hn, Bool.false_eq_true, if_false]
    congr 2
    apply List.filter_congr
    intro kv hkv
    obtain ⟨job0, hj0, _⟩ := h.named kv hkv
    rw [notStoppedAt_some hj0, notStoppedAt_some (hold _ _ hj0)]

/-! ## The invariant: the goroutines of `run` -/

/-- The goroutines are unchanged and every job that was Running still is. -/
theorem RunsOk.frame {w w1 : World} (h : RunsOk w) (hr : w1.runs = w.runs)
    (hk : ∀ (q : Nat) (job : jobStruct), w.sched.heap[q]? = some job →
      job.state &&& StateRunning > 0 →
      ∃ job1, w1.sched.heap[q]? = some job1 ∧ job1.state &&& StateRunning > 0) :
    RunsOk w1 := by
  constructor
  · intro r hmem
    rw [hr] at hmem
    obtain ⟨job, hj, hrun⟩ := h.running r hmem
    exact hk r.1 job hj hrun
  · rw [hr]
    exact h.once

/-- Rewriting one job in the heap keeps every other job, and this one Running if the new
record is. -/
theorem running_kept_set {s s1 : Scheduler} {p : Nat} {job job1 : jobStruct}
    (hj : s.heap[p]? = some job) (hh : s1.heap = s.heap.set p job1)
    (hrn : job.state &&& StateRunning > 0 → job1.state &&& StateRunning > 0) :
    ∀ (q : Nat) (jq : jobStruct), s.heap[q]? = some jq → jq.state &&& StateRunning > 0 →
      ∃ jq1, s1.heap[q]? = some jq1 ∧ jq1.state &&& StateRunning > 0 := by
  intro q jq hq hr
  by_cases e : q = p
  · subst e
    rw [hj] at hq
    cases hq
    exact ⟨job1, by rw [hh]; simp [List.getElem?_set, heap_lt hj], hrn hr⟩
  · exact ⟨jq, by rw [hh]; simp [List.getElem?_set, Ne.symm e, hq], hr⟩

theorem running_kept_eq {s s1 : Scheduler} (hh : s1.heap = s.heap) :
    ∀ (q : Nat) (jq : jobStruct), s.heap[q]? = some jq → jq.state &&& StateRunning > 0 →
      ∃ jq1, s1.heap[q]? = some jq1 ∧ jq1.state &&& StateRunning > 0 := by
  intro q jq hq hr
  exact ⟨jq, by rw [hh]; exact hq, hr⟩

/-! ## The invariant is kept by the locked sections -/

theorem RunningKept.refl (s : Scheduler) : RunningKept s s :=
  fun _ jq hq hr => ⟨jq, hq, hr⟩

theorem RunningKept.trans {s s1 s2 : Scheduler} (h1 : RunningKept s s1)
    (h2 : RunningKept s1 s2) : RunningKept s s2 := by
  intro q jq hq hr
  obtain ⟨j1, hj1, hr1⟩ := h1 q jq hq hr
  exact h2 q j1 hj1 hr1

/-- A job that holds no handle is rewritten to a job that holds none and is Stopped or
Running. -/
theorem TimersOk.quiet {s s1 : Scheduler} {p : Nat} {job job1 : jobStruct} (h : TimersOk s)
    (hj : s.heap[p]? = some job) (hnone : job.timer = none)
    (hh : s1.heap = s.heap.set p job1) (ht : s1.timers = s.timers)
    (hnone1 : job1.timer = none) (hv : validState job1.state)
    (hsr : job1.state = StateStopped ∨ job1.state &&& StateRunning > 0) : TimersOk s1 := by
  have hlt := heap_lt hj
  have hp1 : s1.heap[p]? = some job1 := by rw [hh]; simp [List.getElem?_set, hlt]
  have hne : ∀ q, q ≠ p → s1.heap[q]? = s.heap[q]? := by
    intro q hq
    rw [hh]
    simp [List.getElem?_set, Ne.symm hq]
  constructor
  · intro t2 tm2 h1 h2
    rw [ht] at h1
    obtain ⟨job0, hj0, ht0⟩ := h.owner t2 tm2 h1 h2
    have hq : tm2.job ≠ p := by
      intro e
      rw [e, hj] at hj0
      cases hj0
      rw [hnone] at ht0
      cases ht0
    exact ⟨job0, by rw [hne _ hq]; exact hj0, ht0⟩
  · intro q jq h1
    by_cases hq : q = p
    · subst hq
      rw [hp1] at h1
      cases h1
      exact hv
    · rw [hne q hq] at h1
      exact h.shape q jq h1
  · intro q jq h1 h2
    by_cases hq : q = p
    · subst hq
      rw [hp1] at h1
      cases h1
      exact hnone1
    · rw [hne q hq] at h1
      exact h.idle q jq h1 h2
  · intro q jq h1 h2 h3
    rw [ht]
    by_cases hq : q = p
    · subst hq
      rw [hp1] at h1
      cases h1
      rcases hsr with e | e
      · exact absurd e h2
      · exact absurd e h3
    · rw [hne q hq] at h1
      exact h.pending q jq h1 h2 h3

/-- A job that holds a handle is neither Stopped nor Running. -/
theorem TimersOk.holder {s : Scheduler} {p t : Nat} {job : jobStruct} (h : TimersOk s)
    (hj : s.heap[p]? = some job) (ht : job.timer = some t) :
    job.state ≠ StateStopped ∧ ¬ job.state &&& StateRunning > 0 := by
  refine ⟨?_, ?_⟩
  · intro e
    have := h.idle p job hj (Or.inl e)
    rw [ht] at this
    cases this
  · intro e
    have := h.idle p job hj (Or.inr e)
    rw [ht] at this
    cases this

/-- The timer handle of a job points to a timer where the stop step needs it. -/
theorem TimersOk.usable {s : Scheduler} {p : Nat} {job : jobStruct} (h : TimersOk s)
    (hj : s.heap[p]? = some job) :
    job.state ≠ StateStopped → ¬ job.state &&& StateRunning > 0 →
      ∃ t tm, job.timer = some t ∧ s.timers[t]? = some tm := by
  intro h1 h2
  obtain ⟨t, tm, ht, htm, _, _⟩ := h.pending p job hj h1 h2
  exact ⟨t, tm, ht, htm⟩

/-- The stop step keeps the invariant. -/
theorem stop_inv {s s1 : Scheduler} {p : Nat} {job : jobStruct} (hT : TimersOk s)
    (hR : RegistryOk s) (hj : s.heap[p]? = some job) (hs : stop s p = some s1) :
    TimersOk s1 ∧ RegistryOk s1 ∧ RunningKept s s1 ∧ s1.jobs = s.jobs ∧
    ∃ job1, s1.heap[p]? = some job1 ∧ job1.name = job.name ∧
      (job1.state = StateStopped ∨ job1.state &&& StateStopping > 0) := by
  have hv := hT.shape p job hj
  rcases stop_cases hj (hT.usable hj) with ⟨h1, e⟩ | ⟨h2, e⟩ | ⟨t, tm, h1, h2, ht, htm, ha, e⟩ |
      ⟨t, tm, h1, h2, ht, htm, ha, e⟩
  · rw [e] at hs
    cases hs
    exact ⟨hT, hR, RunningKept.refl _, rfl, job, hj, rfl, Or.inl h1⟩
  · rw [e] at hs
    cases hs
    have hne := running_ne_stopped _ h2
    have hrk : (job.state ||| StateStopping) &&& StateRunning > 0 := by
      rw [stopping_keeps_running]; exact h2
    refine ⟨hT.same hj rfl rfl rfl ?_ ?_ (validState_flags hv hne).1,
      hR.set hj rfl rfl rfl (fun _ => hR.registered p job hj hne) ?_,
      running_kept_set hj rfl (fun _ => hrk), rfl,
      _, setJob_heap_self hj _, rfl, Or.inr (stopping_set _)⟩
    · exact ⟨fun e => absurd e (stopping_ne_stopped _), fun e => absurd e hne⟩
    · exact ⟨fun _ => h2, fun _ => hrk⟩
    · simp [hne, stopping_ne_stopped]
  · rw [e] at hs
    cases hs
    obtain ⟨j1, hj1⟩ : ∃ j1 : jobStruct,
        j1 = { job with timer := none, state := StateStopped } := ⟨_, rfl⟩
    obtain ⟨tm1, htm1⟩ : ∃ tm1 : Timer, tm1 = { tm with status := .stopped } := ⟨_, rfl⟩
    rw [← hj1, ← htm1]
    have hst1 : j1.state = StateStopped := by rw [hj1]
    have hname1 : j1.name = job.name := by rw [hj1]
    have hh : (setJob
        { s with timers := s.timers.set t tm1,
                 jobsNotStopped := s.jobsNotStopped - 1,
                 chanJobsNotStopped := trySend s.chanJobsNotStopped } p j1).heap =
        s.heap.set p j1 := rfl
    refine ⟨hT.drop hj ht htm hh rfl ?_ (by rw [hj1]) (by rw [hst1]; exact validState_stopped)
        (Or.inl hst1),
      hR.set hj hh rfl hname1 (fun e => absurd hst1 e) ?_,
      running_kept_set hj hh (fun e => absurd e h2), rfl,
      j1, by rw [hh]; simp [List.getElem?_set, heap_lt hj], hname1, Or.inl hst1⟩
    · rw [htm1]
      simp
    · simp [h1, hst1, setJob]
  · rw [e] at hs
    cases hs
    have hrk : ¬ (job.state ||| StateStopping) &&& StateRunning > 0 := by
      rw [stopping_keeps_running]; exact h2
    refine ⟨hT.same hj rfl rfl rfl ?_ ?_ (validState_flags hv h1).1,
      hR.set hj rfl rfl rfl (fun _ => hR.registered p job hj h1) ?_,
      running_kept_set hj rfl (fun e => absurd e h2), rfl,
      _, setJob_heap_self hj _, rfl, Or.inr (stopping_set _)⟩
    · exact ⟨fun e => absurd e (stopping_ne_stopped _), fun e => absurd e h1⟩
    · exact ⟨fun e => absurd e hrk, fun e => absurd e h2⟩
    · simp [h1, stopping_ne_stopped]

/-- The locked section of Start keeps the invariant when the job is registered. -/
theorem lockedStart_inv {s s1 : Scheduler} {p : Nat} {job : jobStruct} {e : Error}
    {now : Time} (hT : TimersOk s) (hR : RegistryOk s) (hj : s.heap[p]? = some job)
    (hreg : (job.name, p) ∈ s.jobs) (hs : lockedStart s p now = some (e, s1)) :
    TimersOk s1 ∧ RegistryOk s1 ∧ RunningKept s s1 := by
  by_cases h1 : job.state = StateStopped
  · rw [lockedStart_stopped now hj h1] at hs
    simp only [Option.some.injEq, Prod.mk.injEq] at hs
    obtain ⟨_, hs⟩ := hs
    subst hs
    obtain ⟨j1, hj1⟩ : ∃ j1 : jobStruct,
        j1 = { job with state := StateScheduled, timer := some s.timers.length } := ⟨_, rfl⟩
    rw [← hj1]
    have hst1 : j1.state = StateScheduled := by rw [hj1]
    have hname1 : j1.name = job.name := by rw [hj1]
    have hh : (setJob
        { s with jobsNotStopped := s.jobsNotStopped + 1,
                 timers := s.timers ++
                   [{ d := Sub job.nextRun now, job := p, status := .armed }] } p j1).heap =
        s.heap.set p j1 := rfl
    have hnr : ¬ job.state &&& StateRunning > 0 := by rw [h1]; decide
    refine ⟨hT.arm hj (hT.idle p job hj (Or.inl h1)) hh rfl rfl rfl (by rw [hj1])
        (by rw [hst1]; exact validState_scheduled) (by rw [hst1]; decide)
        (by rw [hst1]; decide),
      hR.set hj hh rfl hname1 (fun _ => hreg) ?_,
      running_kept_set hj hh (fun e => absurd e hnr)⟩
    have hne1 : ¬ j1.state = StateStopped := by rw [hst1]; decide
    simp [h1, hne1, setJob]
  · simp only [lockedStart, hj, ne_eq, h1, not_false_eq_true, if_true, Option.some.injEq,
      Prod.mk.injEq] at hs
    obtain ⟨_, hs⟩ := hs
    subst hs
    exact ⟨hT, hR, RunningKept.refl _⟩

/-- The step `jobDelete` keeps the invariant on a job that is Stopped and registered, or
carries the Stopping flag. -/
theorem jobDelete_inv {s s1 : Scheduler} {p : Nat} {job : jobStruct} (hT : TimersOk s)
    (hR : RegistryOk s) (hj : s.heap[p]? = some job)
    (hpre : (job.state = StateStopped ∧ (job.name, p) ∈ s.jobs) ∨
      job.state &&& StateStopping > 0)
    (hs : jobDelete s p = some s1) :
    TimersOk s1 ∧ RegistryOk s1 ∧ RunningKept s s1 := by
  have hv := hT.shape p job hj
  by_cases h1 : job.state = StateStopped
  · rw [jobDelete_stopped hj h1] at hs
    cases hs
    have hmem : (job.name, p) ∈ s.jobs := by
      rcases hpre with ⟨_, h⟩ | h
      · exact h
      · rw [h1] at h
        exact absurd h (by decide)
    exact ⟨hT.of_eq rfl rfl, hR.delete hj h1 hmem rfl rfl rfl, RunningKept.refl _⟩
  · rw [jobDelete_busy hj h1] at hs
    cases hs
    have hflag : job.state &&& StateStopping > 0 := by
      rcases hpre with ⟨h, _⟩ | h
      · exact absurd h h1
      · exact h
    have hv1 : validState (job.state ||| StateDeleting) := by
      unfold validState at hv
      rcases hv with h | h | h | h | h | h | h <;> rw [h] at hflag ⊢ <;>
        first
        | exact absurd hflag (by decide)
        | (unfold validState; decide)
    obtain ⟨j1, hj1⟩ : ∃ j1 : jobStruct,
        j1 = { job with state := job.state ||| StateDeleting } := ⟨_, rfl⟩
    rw [← hj1]
    have hst1 : j1.state = job.state ||| StateDeleting := by rw [hj1]
    have hname1 : j1.name = job.name := by rw [hj1]
    have hh : (setJob s p j1).heap = s.heap.set p j1 := rfl
    have hne1 : j1.state ≠ StateStopped := by rw [hst1]; exact deleting_ne_stopped _
    have hrk : j1.state &&& StateRunning > 0 ↔ job.state &&& StateRunning > 0 := by
      rw [hst1, deleting_keeps_running]
    refine ⟨hT.same hj hh rfl (by rw [hj1]) ⟨fun e => absurd e hne1, fun e => absurd e h1⟩ hrk
        (by rw [hst1]; exact hv1),
      hR.set hj hh rfl hname1 (fun _ => hR.registered p job hj h1) ?_,
      running_kept_set hj hh hrk.mpr⟩
    simp [h1, hne1, setJob]

/-- The locked section of Delete keeps the invariant when the job is registered. -/
theorem lockedDelete_inv {s s1 : Scheduler} {p : Nat} {job : jobStruct} (hT : TimersOk s)
    (hR : RegistryOk s) (hj : s.heap[p]? = some job) (hreg : (job.name, p) ∈ s.jobs)
    (hs : lockedDelete s p = some s1) :
    TimersOk s1 ∧ RegistryOk s1 ∧ RunningKept s s1 := by
  simp only [lockedDelete] at hs
  cases hst : stop s p with
  | none => simp [hst] at hs
  | some s2 =>
    simp only [hst, Option.bind] at hs
    obtain ⟨hT2, hR2, hk2, hjobs2, job2, hj2, hn2, hflag2⟩ := stop_inv hT hR hj hst
    have hpre : (job2.state = StateStopped ∧ (job2.name, p) ∈ s2.jobs) ∨
        job2.state &&& StateStopping > 0 := by
      rcases hflag2 with h | h
      · exact Or.inl ⟨h, by rw [hn2, hjobs2]; exact hreg⟩
      · exact Or.inr h
    obtain ⟨hT3, hR3, hk3⟩ := jobDelete_inv hT2 hR2 hj2 hpre hs
    exact ⟨hT3, hR3, hk2.trans hk3⟩

theorem lockedUpdateNextRun_stopped {s : Scheduler} {p : Nat} {job : jobStruct}
    (nextRun now : Time) (hj : s.heap[p]? = some job) (h1 : job.state = StateStopped) :
    lockedUpdateNextRun s p nextRun now =
      some (Error.nil, setJob s p { job with nextRun := nextRun }) := by
  simp [lockedUpdateNextRun, hj, h1]

theorem lockedUpdateNextRun_running {s : Scheduler} {p : Nat} {job : jobStruct}
    (nextRun now : Time) (hj : s.heap[p]? = some job) (h2 : job.state &&& StateRunning > 0) :
    lockedUpdateNextRun s p nextRun now = some (Error.ErrJobIsRunning, s) := by
  simp [lockedUpdateNextRun, hj, running_ne_stopped _ h2, h2]

theorem lockedUpdateNextRun_armed {s : Scheduler} {p t : Nat} {job : jobStruct} {tm : Timer}
    (nextRun now : Time) (hj : s.heap[p]? = some job) (h1 : job.state ≠ StateStopped)
    (h2 : ¬ job.state &&& StateRunning > 0) (ht : job.timer = some t)
    (htm : s.timers[t]? = some tm) (ha : tm.status = .armed) :
    lockedUpdateNextRun s p nextRun now =
      some (Error.nil, setJob
        { s with timers := s.timers.set t { tm with status := .stopped } ++
            [{ d := Sub nextRun now, job := p, status := .armed }] }
        p { job with nextRun := nextRun, timer := some s.timers.length }) := by
  simp [lockedUpdateNextRun, hj, h1, h2, ht, timerStop_armed htm ha, AfterFunc]

theorem lockedUpdateNextRun_fired {s : Scheduler} {p t : Nat} {job : jobStruct} {tm : Timer}
    (nextRun now : Time) (hj : s.heap[p]? = some job) (h1 : job.state ≠ StateStopped)
    (h2 : ¬ job.state &&& StateRunning > 0) (ht : job.timer = some t)
    (htm : s.timers[t]? = some tm) (ha : tm.status ≠ .armed) :
    lockedUpdateNextRun s p nextRun now = some (Error.ErrJobIsRunning, s) := by
  simp [lockedUpdateNextRun, hj, h1, h2, ht, timerStop_not_armed htm ha]

/-- The locked section of UpdateNextRun keeps the invariant. -/
theorem lockedUpdateNextRun_inv {s s1 : Scheduler} {p : Nat} {job : jobStruct} {e : Error}
    {nextRun now : Time} (hT : TimersOk s) (hR : RegistryOk s) (hj : s.heap[p]? = some job)
    (hs : lockedUpdateNextRun s p nextRun now = some (e, s1)) :
    TimersOk s1 ∧ RegistryOk s1 ∧ RunningKept s s1 := by
  have hv := hT.shape p job hj
  by_cases h1 : job.state = StateStopped
  · rw [lockedUpdateNextRun_stopped nextRun now hj h1] at hs
    simp only [Option.some.injEq, Prod.mk.injEq] at hs
    obtain ⟨_, hs⟩ := hs
    subst hs
    obtain ⟨j1, hj1⟩ : ∃ j1 : jobStruct, j1 = { job with nextRun := nextRun } := ⟨_, rfl⟩
    rw [← hj1]
    have hst1 : j1.state = job.state := by rw [hj1]
    have hh : (setJob s p j1).heap = s.heap.set p j1 := rfl
    refine ⟨hT.same hj hh rfl (by rw [hj1]) (by rw [hst1]) (by rw [hst1])
        (by rw [hst1]; exact hv),
      hR.set hj hh rfl (by rw [hj1]) (fun e => absurd (hst1.trans h1) e) ?_,
      running_kept_set hj hh (fun e => by rw [hst1]; exact e)⟩
    simp [h1, hst1, setJob]
  by_cases h2 : job.state &&& StateRunning > 0
  · rw [lockedUpdateNextRun_running nextRun now hj h2] at hs
    simp only [Option.some.injEq, Prod.mk.injEq] at hs
    obtain ⟨_, hs⟩ := hs
    subst hs
    exact ⟨hT, hR, RunningKept.refl _⟩
  obtain ⟨t, tm, ht, htm, _, _⟩ := hT.pending p job hj h1 h2
  by_cases ha : tm.status = .armed
  · rw [lockedUpdateNextRun_armed nextRun now hj h1 h2 ht htm ha] at hs
    simp only [Option.some.injEq, Prod.mk.injEq] at hs
    obtain ⟨_, hs⟩ := hs
    subst hs
    -- the handle is given up, then a new timer is armed
    obtain ⟨jm, hjm⟩ : ∃ jm : jobStruct,
        jm = { job with timer := none, state := StateStopped } := ⟨_, rfl⟩
    obtain ⟨sm, hsm⟩ : ∃ sm : Scheduler,
        sm = { s with heap := s.heap.set p jm,
                      timers := s.timers.set t { tm with status := .stopped } } := ⟨_, rfl⟩
    have hTm : TimersOk sm := by
      refine hT.drop hj ht htm (by rw [hsm]) (by rw [hsm]) ?_ (by rw [hjm])
        (by rw [hjm]; exact validState_stopped) (Or.inl (by rw [hjm]))
      simp
    have hjmp : sm.heap[p]? = some jm := by
      rw [hsm]
      simp [List.getElem?_set, heap_lt hj]
    obtain ⟨j1, hj1⟩ : ∃ j1 : jobStruct,
        j1 = { job with nextRun := nextRun, timer := some s.timers.length } := ⟨_, rfl⟩
    obtain ⟨tn, htn⟩ : ∃ tn : Timer,
        tn = { d := Sub nextRun now, job := p, status := .armed } := ⟨_, rfl⟩
    rw [← hj1, ← htn]
    have hst1 : j1.state = job.state := by rw [hj1]
    have hlen : sm.timers.length = s.timers.length := by
      rw [hsm]
      simp
    have hh0 : (setJob { s with timers := s.timers.set t { tm with status := .stopped } ++ [tn] }
        p j1).heap = s.heap.set p j1 := rfl
    have hh1 : (setJob { s with timers := s.timers.set t { tm with status := .stopped } ++ [tn] }
        p j1).heap = sm.heap.set p j1 := by
      rw [hh0, hsm]
      simp [List.set_set]
    have ht1 : (setJob { s with timers := s.timers.set t { tm with status := .stopped } ++ [tn] }
        p j1).timers = sm.timers ++ [tn] := by
      rw [hsm]
      rfl
    refine ⟨?_, ?_, ?_⟩
    · exact hTm.arm hjmp (by rw [hjm]) hh1 ht1 (by rw [htn]) (by rw [htn])
        (by rw [hj1, hlen]) (by rw [hst1]; exact hv) (by rw [hst1]; exact h1)
        (by rw [hst1]; exact h2)
    · refine hR.set hj hh0 rfl (by rw [hj1]) (fun _ => hR.registered p job hj h1) ?_
      simp [h1, hst1, setJob]
    · exact running_kept_set hj hh0 (fun e => absurd e h2)
  · rw [lockedUpdateNextRun_fired nextRun now hj h1 h2 ht htm ha] at hs
    simp only [Option.some.injEq, Prod.mk.injEq] at hs
    obtain ⟨_, hs⟩ := hs
    subst hs
    exact ⟨hT, hR, RunningKept.refl _⟩

/-- A job is rewritten in fields other than the state, the timer handle and the name. -/
theorem setJob_inv {s : Scheduler} {p : Nat} {job j1 : jobStruct} (hT : TimersOk s)
    (hR : RegistryOk s) (hj : s.heap[p]? = some job) (hst : j1.state = job.state)
    (htm : j1.timer = job.timer) (hname : j1.name = job.name) :
    TimersOk (setJob s p j1) ∧ RegistryOk (setJob s p j1) ∧ RunningKept s (setJob s p j1) := by
  have hh : (setJob s p j1).heap = s.heap.set p j1 := rfl
  refine ⟨hT.same hj hh rfl htm (by rw [hst]) (by rw [hst])
      (by rw [hst]; exact hT.shape p job hj),
    hR.set hj hh rfl hname ?_ ?_, running_kept_set hj hh (fun e => by rw [hst]; exact e)⟩
  · intro hne
    rw [hst] at hne
    exact hR.registered p job hj hne
  · rw [hst]
    rfl

/-- The locked section of UpdateCron keeps the invariant. -/
theorem lockedUpdateCron_inv {s s1 : Scheduler} {p : Nat} {expr : Expression}
    (hT : TimersOk s) (hR : RegistryOk s) (hs : lockedUpdateCron s p expr = some s1) :
    TimersOk s1 ∧ RegistryOk s1 ∧ RunningKept s s1 := by
  cases hj : s.heap[p]? with
  | none => simp [lockedUpdateCron, hj] at hs
  | some job =>
    simp only [lockedUpdateCron, hj, Option.some.injEq] at hs
    subst hs
    exact setJob_inv hT hR hj rfl rfl rfl

/-- The locked section of UpdateFunction keeps the invariant. -/
theorem lockedUpdateFunction_inv {s s1 : Scheduler} {p : Nat} {function : Func} {data : Data}
    (hT : TimersOk s) (hR : RegistryOk s)
    (hs : lockedUpdateFunction s p function data = some s1) :
    TimersOk s1 ∧ RegistryOk s1 ∧ RunningKept s s1 := by
  cases hj : s.heap[p]? with
  | none => simp [lockedUpdateFunction, hj] at hs
  | some job =>
    simp only [lockedUpdateFunction, hj, Option.some.injEq] at hs
    subst hs
    exact setJob_inv hT hR hj rfl rfl rfl

/-- Make keeps the invariant. -/
theorem Make_inv (cx : Cronexpr) {s : Scheduler} (name cron : String) (function : Func)
    (data : Data) (now : Time) (hT : TimersOk s) (hR : RegistryOk s) :
    TimersOk (Make cx s name cron function data now).2 ∧
    RegistryOk (Make cx s name cron function data now).2 ∧
    RunningKept s (Make cx s name cron function data now).2 := by
  cases hp : cx.Parse cron with
  | error err =>
    have e : (Make cx s name cron function data now).2 = s := by simp [Make, hp]
    rw [e]
    exact ⟨hT, hR, RunningKept.refl _⟩
  | ok expr =>
    cases hl : mapLookup s.jobs name with
    | some q =>
      have e : (Make cx s name cron function data now).2 = s := by simp [Make, hp, hl]
      rw [e]
      exact ⟨hT, hR, RunningKept.refl _⟩
    | none =>
      obtain ⟨jn, hjn⟩ : ∃ jn : jobStruct,
          jn = { name := name, cronExpression := expr, function := function, data := data,
                 state := StateStopped, nextRun := cx.Next expr now, timer := none } :=
        ⟨_, rfl⟩
      have e : (Make cx s name cron function data now).2 =
          { s with heap := s.heap ++ [jn], jobs := (name, s.heap.length) :: s.jobs } := by
        rw [hjn]
        simp [Make, hp, hl, mapInsert, mapDelete_absent _ _ hl]
      rw [e]
      refine ⟨hT.make rfl rfl (by rw [hjn]) (by rw [hjn]),
        hR.insert hl rfl rfl rfl (by rw [hjn]) (by rw [hjn]), ?_⟩
      intro q jq hq hr
      exact ⟨jq, by
        show (s.heap ++ [jn])[q]? = some jq
        rw [List.getElem?_append_left (heap_lt hq)]
        exact hq, hr⟩

/-- The expiry of a timer keeps the invariant. -/
theorem timerFire_inv {s : Scheduler} (t : Nat) (hT : TimersOk s) (hR : RegistryOk s) :
    TimersOk (timerFire s t) ∧ RegistryOk (timerFire s t) ∧ RunningKept s (timerFire s t) := by
  cases htm : s.timers[t]? with
  | none =>
    have e : timerFire s t = s := by simp [timerFire, htm]
    rw [e]
    exact ⟨hT, hR, RunningKept.refl _⟩
  | some tm =>
    by_cases ha : tm.status = .armed
    · have e : timerFire s t =
          { s with timers := s.timers.set t { tm with status := .fired } } := by
        simp [timerFire, htm, ha]
      rw [e]
      refine ⟨hT.status htm rfl rfl rfl ?_, hR.of_fields rfl rfl rfl, running_kept_eq rfl⟩
      simp [ha]
    · have e : timerFire s t = s := by simp [timerFire, htm, ha]
      rw [e]
      exact ⟨hT, hR, RunningKept.refl _⟩

/-- The loop of StopAll keeps the invariant. -/
theorem stopEach_inv (entries : List (String × Nat)) :
    ∀ {s s1 : Scheduler}, TimersOk s → RegistryOk s →
      (∀ kv ∈ entries, ∃ job, s.heap[kv.2]? = some job) → stopEach s entries = some s1 →
      TimersOk s1 ∧ RegistryOk s1 ∧ RunningKept s s1 := by
  induction entries with
  | nil =>
    intro s s1 hT hR _ hs
    simp only [stopEach, Option.some.injEq] at hs
    subst hs
    exact ⟨hT, hR, RunningKept.refl _⟩
  | cons kv rest ih =>
    intro s s1 hT hR hval hs
    obtain ⟨n, p⟩ := kv
    cases hst : stop s p with
    | none => simp [stopEach, hst] at hs
    | some s2 =>
      simp only [stopEach, hst, Option.bind] at hs
      obtain ⟨job, hj⟩ := hval (n, p) (List.mem_cons_self _ _)
      obtain ⟨hT2, hR2, hk2, _, _⟩ := stop_inv hT hR hj hst
      have hval2 : ∀ kv ∈ rest, ∃ job, s2.heap[kv.2]? = some job := by
        intro kv hkv
        obtain ⟨jq, hq⟩ := hval kv (List.mem_cons_of_mem _ hkv)
        have hlt : kv.2 < s2.heap.length := by
          have hlen : s2.heap.length = s.heap.length := by
            rcases stop_cases hj (hT.usable hj) with ⟨_, e⟩ | ⟨_, e⟩ |
                ⟨_, _, _, _, _, _, _, e⟩ | ⟨_, _, _, _, _, _, _, e⟩ <;>
              (rw [e] at hst; cases hst; simp [setJob])
          rw [hlen]
          exact heap_lt hq
        exact ⟨s2.heap[kv.2], List.getElem?_eq_getElem hlt⟩
      obtain ⟨hT3, hR3, hk3⟩ := ih hT2 hR2 hval2 hs
      exact ⟨hT3, hR3, hk2.trans hk3⟩

/-! ## The invariant is kept by `run` -/

/-- The scheduler `doStoppingOrDeleting` leaves keeps the invariant on the registry. -/
theorem stoppedBy_registry {s : Scheduler} {p : Nat} {job : jobStruct} (hR : RegistryOk s)
    (hj : s.heap[p]? = some job) (hne : job.state ≠ StateStopped) :
    RegistryOk (stoppedBy s p job) := by
  obtain ⟨j8, hj8⟩ : ∃ j8 : jobStruct, j8 = { job with state := StateStopped } := ⟨_, rfl⟩
  obtain ⟨sm, hsm⟩ : ∃ sm : Scheduler,
      sm = { s with heap := s.heap.set p j8, jobsNotStopped := s.jobsNotStopped - 1 } :=
    ⟨_, rfl⟩
  have hst8 : j8.state = StateStopped := by rw [hj8]
  have hRm : RegistryOk sm := by
    refine hR.set hj (by rw [hsm]) (by rw [hsm]) (by rw [hj8]) (fun e => absurd hst8 e) ?_
    rw [hsm]
    simp [hne, hst8]
  have hjm : sm.heap[p]? = some j8 := by
    rw [hsm]
    simp [List.getElem?_set, heap_lt hj]
  have hreg : (job.name, p) ∈ sm.jobs := by
    rw [hsm]
    exact hR.registered p job hj hne
  by_cases hd : job.state &&& StateDeleting > 0
  · refine hRm.delete hjm hst8 hreg ?_ ?_ ?_
    · rw [hsm, hj8]; rfl
    · have hd2 : 0 < job.state &&& StateDeleting := hd
      rw [hsm]
      simp [stoppedBy, hd2]
    · rw [hsm]; rfl
  · refine hRm.of_fields ?_ ?_ ?_
    · rw [hsm, hj8]; rfl
    · have hd2 : ¬ 0 < job.state &&& StateDeleting := hd
      rw [hsm]
      simp [stoppedBy, hd2]
    · rw [hsm]; rfl

/-- The goroutine of a fired timer, in its first locked section, keeps the invariant; it
touches only the timer's job, which was not Running, and leaves it Running when it goes
on to the callback. -/
theorem timerRun_inv (cx : Cronexpr) {s s1 : Scheduler} {t : Nat} {tm : Timer} {b : Bool}
    {now : Time} (hT : TimersOk s) (hR : RegistryOk s) (htm : s.timers[t]? = some tm)
    (hf : tm.status = .fired) (hs : timerRun cx s t now = some (b, s1)) :
    TimersOk s1 ∧ RegistryOk s1 ∧
    (∃ job, s.heap[tm.job]? = some job ∧ ¬ job.state &&& StateRunning > 0) ∧
    (∀ q, q ≠ tm.job → s1.heap[q]? = s.heap[q]?) ∧
    (b = true → ∃ job1, s1.heap[tm.job]? = some job1 ∧ job1.state &&& StateRunning > 0) := by
  obtain ⟨job, hj, hhandle⟩ := hT.owner t tm htm (Or.inr hf)
  obtain ⟨hns, hnr⟩ := hT.holder hj hhandle
  obtain ⟨p, hp⟩ : ∃ p : Nat, p = tm.job := ⟨_, rfl⟩
  rw [← hp] at hj ⊢
  obtain ⟨tm1, htm1⟩ : ∃ tm1 : Timer, tm1 = { tm with status := .ran } := ⟨_, rfl⟩
  obtain ⟨s0, hs0⟩ : ∃ s0 : Scheduler, s0 = { s with timers := s.timers.set t tm1 } :=
    ⟨_, rfl⟩
  have hrun : timerRun cx s t now = runBegin cx s0 p now := by
    rw [hs0, htm1, hp]
    simp [timerRun, htm, hf]
  rw [hrun] at hs
  have hj0 : s0.heap[p]? = some job := by rw [hs0]; exact hj
  have hno : ¬ (tm1.status = .armed ∨ tm1.status = .fired) := by
    rw [htm1]
    simp
  obtain ⟨jn, hjn⟩ : ∃ jn : jobStruct, jn = { job with timer := none } := ⟨_, rfl⟩
  have hRn : RegistryOk (setJob s0 p jn) := by
    refine hR.set hj (by rw [hs0]; rfl) (by rw [hs0]; rfl) (by rw [hjn])
      (fun _ => hR.registered p job hj hns) ?_
    rw [hs0, hjn]
    rfl
  have hjnp : (setJob s0 p jn).heap[p]? = some jn := setJob_heap_self hj0 _
  by_cases hfl : job.state &&& StateDeleting > 0 ∨ job.state &&& StateStopping > 0
  · rw [runBegin_flagged cx now hj0 hfl, ← hjn] at hs
    simp only [Option.some.injEq, Prod.mk.injEq] at hs
    obtain ⟨hb, hs⟩ := hs
    subst hs
    obtain ⟨j8, hj8⟩ : ∃ j8 : jobStruct, j8 = { jn with state := StateStopped } := ⟨_, rfl⟩
    have hh : (stoppedBy (setJob s0 p jn) p jn).heap = s.heap.set p j8 := by
      rw [hs0, hj8]
      simp [stoppedBy, setJob, List.set_set]
    have ht : (stoppedBy (setJob s0 p jn) p jn).timers = s.timers.set t tm1 := by
      rw [hs0]
      rfl
    refine ⟨hT.drop hj hhandle htm hh ht hno (by rw [hj8, hjn])
        (by rw [hj8]; exact validState_stopped) (Or.inl (by rw [hj8])),
      stoppedBy_registry hRn hjnp (by rw [hjn]; exact hns), ⟨job, hj, hnr⟩, ?_, ?_⟩
    · intro q hq
      rw [hh]
      simp [List.getElem?_set, Ne.symm hq]
    · intro e
      rw [← hb] at e
      cases e
  · have hd : ¬ job.state &&& StateDeleting > 0 := fun e => hfl (Or.inl e)
    have hst : ¬ job.state &&& StateStopping > 0 := fun e => hfl (Or.inr e)
    rw [runBegin_clear cx now hj0 hd hst] at hs
    simp only [Option.some.injEq, Prod.mk.injEq] at hs
    obtain ⟨_, hs⟩ := hs
    subst hs
    obtain ⟨jr, hjr⟩ : ∃ jr : jobStruct,
        jr = { job with timer := none, state := StateRunning,
                        nextRun := cx.Next job.cronExpression now } := ⟨_, rfl⟩
    rw [← hjr]
    have hstr : jr.state = StateRunning := by rw [hjr]
    have hrr : jr.state &&& StateRunning > 0 := by rw [hstr]; decide
    have hner : jr.state ≠ StateStopped := by rw [hstr]; decide
    have hh : (setJob s0 p jr).heap = s.heap.set p jr := by
      rw [hs0]
      rfl
    have ht : (setJob s0 p jr).timers = s.timers.set t tm1 := by
      rw [hs0]
      rfl
    refine ⟨hT.drop hj hhandle htm hh ht hno (by rw [hjr])
        (by rw [hstr]; exact validState_running) (Or.inr hrr),
      hR.set hj hh (by rw [hs0]; rfl) (by rw [hjr]) (fun _ => hR.registered p job hj hns) ?_,
      ⟨job, hj, hnr⟩, ?_, fun _ => ⟨jr, setJob_heap_self hj0 _, hrr⟩⟩
    · rw [hs0]
      simp [hns, hner, setJob]
    · intro q hq
      rw [hh]
      simp [List.getElem?_set, Ne.symm hq]

/-- The second locked section of `run`, on a job that is Running, keeps the invariant
and touches only that job. -/
theorem runEnd_inv {s s1 : Scheduler} {p : Nat} {job : jobStruct} {now : Time}
    (hT : TimersOk s) (hR : RegistryOk s) (hj : s.heap[p]? = some job)
    (hr : job.state &&& StateRunning > 0) (hs : runEnd s p now = some s1) :
    TimersOk s1 ∧ RegistryOk s1 ∧ (∀ q, q ≠ p → s1.heap[q]? = s.heap[q]?) := by
  have hne := running_ne_stopped _ hr
  have hnone := hT.idle p job hj (Or.inr hr)
  by_cases hfl : job.state &&& StateDeleting > 0 ∨ job.state &&& StateStopping > 0
  · rw [runEnd_flagged now hj hfl] at hs
    cases hs
    obtain ⟨j8, hj8⟩ : ∃ j8 : jobStruct, j8 = { job with state := StateStopped } := ⟨_, rfl⟩
    have hh : (stoppedBy s p job).heap = s.heap.set p j8 := by rw [hj8]; rfl
    refine ⟨hT.quiet hj hnone hh rfl (by rw [hj8]; exact hnone)
        (by rw [hj8]; exact validState_stopped) (Or.inl (by rw [hj8])),
      stoppedBy_registry hR hj hne, ?_⟩
    intro q hq
    rw [hh]
    simp [List.getElem?_set, Ne.symm hq]
  · have hd : ¬ job.state &&& StateDeleting > 0 := fun e => hfl (Or.inl e)
    have hst : ¬ job.state &&& StateStopping > 0 := fun e => hfl (Or.inr e)
    rw [runEnd_clear now hj hd hst] at hs
    cases hs
    obtain ⟨j1, hj1⟩ : ∃ j1 : jobStruct,
        j1 = { job with state := StateScheduled, timer := some s.timers.length } := ⟨_, rfl⟩
    obtain ⟨tn, htn⟩ : ∃ tn : Timer,
        tn = { d := Sub job.nextRun now, job := p, status := .armed } := ⟨_, rfl⟩
    rw [← hj1, ← htn]
    have hst1 : j1.state = StateScheduled := by rw [hj1]
    have hne1 : j1.state ≠ StateStopped := by rw [hst1]; decide
    have hh : (setJob { s with timers := s.timers ++ [tn] } p j1).heap = s.heap.set p j1 := rfl
    refine ⟨hT.arm hj hnone hh rfl (by rw [htn]) (by rw [htn]) (by rw [hj1])
        (by rw [hst1]; exact validState_scheduled) hne1 (by rw [hst1]; decide),
      hR.set hj hh rfl (by rw [hj1]) (fun _ => hR.registered p job hj hne) ?_, ?_⟩
    · simp [hne, hne1, setJob]
    · intro q hq
      rw [hh]
      simp [List.getElem?_set, Ne.symm hq]

/-! ## The invariant holds in every reachable world -/

theorem Inv_NewWorld : Inv NewWorld := by
  refine ⟨⟨?_, ?_, ?_, ?_⟩, ⟨?_, ?_, ?_, ?_, ?_⟩, ⟨?_, ?_⟩⟩ <;>
    simp [NewWorld, NewScheduler]

/-- A step that leaves the goroutines alone and keeps Running jobs Running. -/
theorem Inv_of_sched {w : World} {s1 : Scheduler} (h : Inv w)
    (hs : TimersOk s1 ∧ RegistryOk s1 ∧ RunningKept w.sched s1) :
    Inv { w with sched := s1 } :=
  ⟨hs.1, hs.2.1, h.2.2.frame rfl hs.2.2⟩

/-- Replacing the phase of one goroutine keeps the jobs of the goroutines distinct. -/
theorem runs_swap_nodup {l : List (Nat × Phase)} {p : Nat} {a b : Phase}
    (h : (l.map Prod.fst).Nodup) (hm : (p, a) ∈ l) :
    (((p, b) :: l.erase (p, a)).map Prod.fst).Nodup := by
  have hl : l.Nodup := List.Nodup.of_map _ h
  simp only [List.map_cons, List.nodup_cons]
  refine ⟨?_, h.sublist ((List.erase_sublist _ _).map Prod.fst)⟩
  intro hmem
  obtain ⟨r, hr, e⟩ := List.mem_map.mp hmem
  obtain ⟨r1, r2⟩ := r
  simp only at e
  subst e
  have hr2 := (List.Nodup.mem_erase_iff hl).mp hr
  have := key_unique h hr2.2 hm
  subst this
  exact hr2.1 rfl

/-- Every step keeps the invariant. -/
theorem exec_inv (cx : Cronexpr) {w w1 : World} (a : Step) (h : Inv w)
    (he : Step.exec cx w a = some w1) : Inv w1 := by
  obtain ⟨hT, hR, hG⟩ := h
  have hI : Inv w := ⟨hT, hR, hG⟩
  have hreg : ∀ name p, mapLookup w.sched.jobs name = some p →
      ∃ job, w.sched.heap[p]? = some job ∧ (job.name, p) ∈ w.sched.jobs := by
    intro name p hl
    have hm := mapLookup_mem hl
    obtain ⟨job, hj, hn⟩ := hR.named (name, p) hm
    exact ⟨job, hj, by rw [show job.name = name from hn]; exact hm⟩
  cases a with
  | Make name cron function data now =>
    simp only [Step.exec, Option.some.injEq] at he
    subst he
    exact Inv_of_sched hI (Make_inv cx name cron function data now hT hR)
  | Start name now =>
    simp only [Step.exec, Start] at he
    cases hl : mapLookup w.sched.jobs name with
    | none =>
      simp only [hl, Option.map, Option.some.injEq] at he
      subst he
      exact hI
    | some p =>
      obtain ⟨job, hj, hm⟩ := hreg name p hl
      simp only [hl] at he
      cases hs : lockedStart w.sched p now with
      | none => simp [hs] at he
      | some r =>
        obtain ⟨e, s1⟩ := r
        simp only [hs, Option.map, Option.some.injEq] at he
        subst he
        exact Inv_of_sched hI (lockedStart_inv hT hR hj hm hs)
  | Stop name =>
    simp only [Step.exec, Stop] at he
    cases hl : mapLookup w.sched.jobs name with
    | none =>
      simp only [hl, Option.map, Option.some.injEq] at he
      subst he
      exact hI
    | some p =>
      obtain ⟨job, hj, hm⟩ := hreg name p hl
      simp only [hl] at he
      cases hs : stop w.sched p with
      | none => simp [hs] at he
      | some s1 =>
        simp only [hs, Option.map, Option.some.injEq] at he
        subst he
        obtain ⟨h1, h2, h3, _⟩ := stop_inv hT hR hj hs
        exact Inv_of_sched hI ⟨h1, h2, h3⟩
  | Delete name =>
    simp only [Step.exec, Delete] at he
    cases hl : mapLookup w.sched.jobs name with
    | none =>
      simp only [hl, Option.map, Option.some.injEq] at he
      subst he
      exact hI
    | some p =>
      obtain ⟨job, hj, hm⟩ := hreg name p hl
      simp only [hl] at he
      cases hs : lockedDelete w.sched p with
      | none => simp [hs] at he
      | some s1 =>
        simp only [hs, Option.map, Option.some.injEq] at he
        subst he
        exact Inv_of_sched hI (lockedDelete_inv hT hR hj hm hs)
  | UpdateCron name cron =>
    simp only [Step.exec, UpdateCron] at he
    cases hl : mapLookup w.sched.jobs name with
    | none =>
      simp only [hl, Option.map, Option.some.injEq] at he
      subst he
      exact hI
    | some p =>
      simp only [hl] at he
      cases hp : cx.Parse cron with
      | error err =>
        simp only [hp, Option.map, Option.some.injEq] at he
        subst he
        exact hI
      | ok expr =>
        simp only [hp] at he
        cases hs : lockedUpdateCron w.sched p expr with
        | none => simp [hs] at he
        | some s1 =>
          simp only [hs, Option.map, Option.some.injEq] at he
          subst he
          exact Inv_of_sched hI (lockedUpdateCron_inv hT hR hs)
  | UpdateNextRun name nextRun now =>
    simp only [Step.exec, UpdateNextRun] at he
    cases hl : mapLookup w.sched.jobs name with
    | none =>
      simp only [hl, Option.map, Option.some.injEq] at he
      subst he
      exact hI
    | some p =>
      obtain ⟨job, hj, _⟩ := hreg name p hl
      simp only [hl] at he
      cases hs : lockedUpdateNextRun w.sched p nextRun now with
      | none => simp [hs] at he
      | some r =>
        obtain ⟨e, s1⟩ := r
        simp only [hs, Option.map, Option.some.injEq] at he
        subst he
        exact Inv_of_sched hI (lockedUpdateNextRun_inv hT hR hj hs)
  | UpdateFunction name function data =>
    simp only [Step.exec, UpdateFunction] at he
    cases hl : mapLookup w.sched.jobs name with
    | none =>
      simp only [hl, Option.map, Option.some.injEq] at he
      subst he
      exact hI
    | some p =>
      simp only [hl] at he
      cases hs : lockedUpdateFunction w.sched p function data with
      | none => simp [hs] at he
      | some s1 =>
        simp only [hs, Option.map, Option.some.injEq] at he
        subst he
        exact Inv_of_sched hI (lockedUpdateFunction_inv hT hR hs)
  | StopAll =>
    simp only [Step.exec, StopAll] at he
    cases hs : stopEach w.sched w.sched.jobs with
    | none => simp [hs] at he
    | some s1 =>
      simp only [hs, Option.map, Option.some.injEq] at he
      subst he
      have hval : ∀ kv ∈ w.sched.jobs, ∃ job, w.sched.heap[kv.2]? = some job := by
        intro kv hkv
        obtain ⟨job, hj, _⟩ := hR.named kv hkv
        exact ⟨job, hj⟩
      exact Inv_of_sched hI (stopEach_inv w.sched.jobs hT hR hval hs)
  | fire t =>
    simp only [Step.exec, Option.some.injEq] at he
    subst he
    exact Inv_of_sched hI (timerFire_inv t hT hR)
  | runBegin t now =>
    simp only [Step.exec] at he
    cases htm : w.sched.timers[t]? with
    | none => simp [htm] at he
    | some tm =>
      simp only [htm] at he
      by_cases hf : tm.status = .fired
      · simp only [hf, if_true] at he
        cases hs : timerRun cx w.sched t now with
        | none => simp [hs] at he
        | some r =>
          obtain ⟨b, s1⟩ := r
          simp only [hs, Option.map, Option.some.injEq] at he
          subst he
          obtain ⟨hT1, hR1, ⟨job, hj, hnr⟩, hfr, hrun⟩ := timerRun_inv cx hT hR htm hf hs
          have hother : ∀ r ∈ w.runs, r.1 ≠ tm.job := by
            intro r hr e
            obtain ⟨jr, hjr, hrr⟩ := hG.running r hr
            rw [e, hj] at hjr
            cases hjr
            exact hnr hrr
          have hkeep : ∀ r ∈ w.runs,
              ∃ jr, s1.heap[r.1]? = some jr ∧ jr.state &&& StateRunning > 0 := by
            intro r hr
            obtain ⟨jr, hjr, hrr⟩ := hG.running r hr
            exact ⟨jr, by rw [hfr _ (hother r hr)]; exact hjr, hrr⟩
          refine ⟨hT1, hR1, ?_⟩
          cases b with
          | false => exact ⟨hkeep, hG.once⟩
          | true =>
            constructor
            · intro r hr
              rcases List.mem_cons.mp hr with e | e
              · subst e
                exact hrun rfl
              · exact hkeep r e
            · show ((tm.job, Phase.toCall) :: w.runs).map Prod.fst |>.Nodup
              simp only [List.map_cons, List.nodup_cons]
              refine ⟨?_, hG.once⟩
              intro hm
              obtain ⟨r, hr, e⟩ := List.mem_map.mp hm
              exact hother r hr e
      · simp [hf] at he
  | runCall p =>
    simp only [Step.exec] at he
    by_cases hm : (p, Phase.toCall) ∈ w.runs
    · simp only [hm, if_true] at he
      cases hj : w.sched.heap[p]? with
      | none => simp [runCall, hj] at he
      | some job =>
        simp only [runCall, hj, Option.map, Option.some.injEq] at he
        subst he
        refine ⟨hT.of_eq rfl rfl, hR.of_fields rfl rfl rfl, ?_, runs_swap_nodup hG.once hm⟩
        intro r hr
        rcases List.mem_cons.mp hr with e | e
        · subst e
          exact hG.running (p, Phase.toCall) hm
        · exact hG.running r (List.mem_of_mem_erase e)
    · simp [hm] at he
  | runEnd p now =>
    simp only [Step.exec] at he
    by_cases hm : (p, Phase.toEnd) ∈ w.runs
    · simp only [hm, if_true] at he
      cases hs : runEnd w.sched p now with
      | none => simp [hs] at he
      | some s1 =>
        simp only [hs, Option.map, Option.some.injEq] at he
        subst he
        obtain ⟨job, hj, hr⟩ := hG.running _ hm
        obtain ⟨hT1, hR1, hfr⟩ := runEnd_inv hT hR hj hr hs
        have hl : w.runs.Nodup := List.Nodup.of_map _ hG.once
        refine ⟨hT1, hR1, ?_, hG.once.sublist ((List.erase_sublist _ _).map Prod.fst)⟩
        intro r hmem
        have hr2 := (List.Nodup.mem_erase_iff hl).mp hmem
        have hne : r.1 ≠ p := by
          intro e
          obtain ⟨r1, r2⟩ := r
          simp only at e
          subst e
          have := key_unique hG.once hr2.2 hm
          subst this
          exact hr2.1 rfl
        obtain ⟨jr, hjr, hrr⟩ := hG.running r hr2.2
        exact ⟨jr, by rw [hfr _ hne]; exact hjr, hrr⟩
    · simp [hm] at he

/-- Every sequence of steps keeps the invariant. -/
theorem execAll_inv (cx : Cronexpr) (steps : List Step) :
    ∀ {w w1 : World}, Inv w → execAll cx w steps = some w1 → Inv w1 := by
  induction steps with
  | nil =>
    intro w w1 h he
    simp only [execAll, Option.some.injEq] at he
    subst he
    exact h
  | cons a rest ih =>
    intro w w1 h he
    cases hs : Step.exec cx w a with
    | none => simp [execAll, hs] at he
    | some w2 =>
      simp only [execAll, hs, Option.bind] at he
      exact ih (exec_inv cx a h hs) he

theorem Reachable_inv (cx : Cronexpr) {w : World} (h : Reachable cx w) : Inv w := by
  obtain ⟨steps, he⟩ := h
  exact execAll_inv cx steps Inv_NewWorld he

theorem sampleWorld_reachable : Reachable sampleCron sampleWorld :=
  ⟨sampleSteps, by decide⟩

/-! ## The counter -/

/-- When every call runs from its lookup to its unlock with no other call in between:
in every world reachable from NewScheduler by Make, Start, Stop, Delete, UpdateCron,
UpdateNextRun, UpdateFunction, StopAll, timer expiries and the parts of `run`, the
counter is the number of registered jobs that are not Stopped; so it is never negative,
and since this holds again after any further step, every step changes the counter by
exactly the change of that number.  With a locked section on a pointer held from an
earlier lookup this fails (`sampleOrphan`). -/
theorem counter_is_count (cx : Cronexpr) (w : World) (h : Reachable cx w) :
    w.sched.jobsNotStopped =
      ((w.sched.jobs.filter fun kv => notStoppedAt w.sched kv.2).length : Int) ∧
    0 ≤ w.sched.jobsNotStopped ∧
    (∀ kv ∈ w.sched.jobs, ∃ job, w.sched.heap[kv.2]? = some job ∧ job.name = kv.1) ∧
    (∀ (p : Nat) (job : jobStruct), w.sched.heap[p]? = some job →
      job.state ≠ StateStopped → (job.name, p) ∈ w.sched.jobs) ∧
    (∀ (a : Step) (w1 : World), Step.exec cx w a = some w1 →
      w1.sched.jobsNotStopped =
        ((w1.sched.jobs.filter fun kv => notStoppedAt w1.sched kv.2).length : Int) ∧
      w1.sched.jobsNotStopped - w.sched.jobsNotStopped =
        ((w1.sched.jobs.filter fun kv => notStoppedAt w1.sched kv.2).length : Int) -
          ((w.sched.jobs.filter fun kv => notStoppedAt w.sched kv.2).length : Int)) := by
  have hI := Reachable_inv cx h
  have hc := hI.2.1.count
  refine ⟨hc, ?_, hI.2.1.named, hI.2.1.registered, ?_⟩
  · rw [hc]
    exact Int.natCast_nonneg _
  · intro a w1 he
    have hc1 := (exec_inv cx a hI he).2.1.count
    exact ⟨hc1, by rw [hc1, hc]⟩

/-- The counter of the world after `sampleSteps`. -/
theorem counter_is_count_witness :
    sampleWorld.sched.jobsNotStopped =
      ((sampleWorld.sched.jobs.filter fun kv =>
        notStoppedAt sampleWorld.sched kv.2).length : Int) ∧
    0 ≤ sampleWorld.sched.jobsNotStopped :=
  ⟨(counter_is_count sampleCron sampleWorld sampleWorld_reachable).1,
    (counter_is_count sampleCron sampleWorld sampleWorld_reachable).2.1⟩

/-! ## Timer handles -/

/-- C16, as the claim states it, fails: after Make, Start, the expiry of the timer and
Stop, the job holds a timer handle and its state is Scheduled|Stopping, not Scheduled. -/
theorem handle_with_stopping_flag :
    Reachable sampleCron sampleWorld ∧
    (sampleWorld.sched.heap[0]?).map (fun j => (j.timer, j.state)) =
      some (some 0, StateScheduled ||| StateStopping) ∧
    StateScheduled ||| StateStopping ≠ StateScheduled :=
  ⟨sampleWorld_reachable, by decide, by decide⟩

/-! ## Invocations and timers that ran -/

/-- Counting the elements that pass a test after one element was replaced. -/
theorem filter_length_set {α : Type} (f : α → Bool) (l : List α) :
    ∀ (i : Nat) (x y : α), l[i]? = some x →
      ((l.set i y).filter f).length + (if f x = true then 1 else 0) =
        (l.filter f).length + (if f y = true then 1 else 0) := by
  induction l with
  | nil => intro i x y h; simp at h
  | cons a rest ih =>
    intro i x y h
    cases i with
    | zero =>
      simp only [List.getElem?_cons_zero, Option.some.injEq] at h
      subst h
      simp only [List.set_cons_zero, List.filter_cons]
      cases hfa : f a <;> cases hfy : f y <;> simp
    | succ j =>
      simp only [List.getElem?_cons_succ] at h
      have hr := ih j x y h
      simp only [List.set_cons_succ, List.filter_cons]
      cases hfa : f a <;> simp <;> omega

theorem ranCount_set {s : Scheduler} {t : Nat} {tm tm1 : Timer} (htm : s.timers[t]? = some tm)
    (h0 : tm.status ≠ .ran) (h1 : tm1.status ≠ .ran) :
    ((s.timers.set t tm1).filter fun x => decide (x.status = .ran)).length = ranCount s := by
  have h := filter_length_set (fun x : Timer => decide (x.status = .ran)) s.timers t tm tm1 htm
  simp only [h0, h1, decide_False, Bool.false_eq_true, if_false, Nat.add_zero] at h
  exact h

theorem ranCount_snoc (l : List Timer) (tn : Timer) (h : tn.status ≠ .ran) :
    ((l ++ [tn]).filter fun x => decide (x.status = .ran)).length =
      (l.filter fun x => decide (x.status = .ran)).length := by
  simp [List.filter_append, h]

theorem Quiet.unchanged (s : Scheduler) : Quiet s s := ⟨rfl, rfl⟩

theorem Quiet.followed {s s1 s2 : Scheduler} (h1 : Quiet s s1) (h2 : Quiet s1 s2) : Quiet s s2 :=
  ⟨h2.1.trans h1.1, h2.2.trans h1.2⟩

theorem timerStop_quiet {s s1 : Scheduler} {t : Option Nat} {b : Bool}
    (h : timerStop s t = some (b, s1)) : Quiet s s1 := by
  cases t with
  | none => simp [timerStop] at h
  | some i =>
    cases htm : s.timers[i]? with
    | none => simp [timerStop, htm] at h
    | some tm =>
      by_cases ha : tm.status = .armed
      · simp only [timerStop, htm, ha, if_true, Option.some.injEq, Prod.mk.injEq] at h
        obtain ⟨_, h2⟩ := h
        subst h2
        refine ⟨rfl, ?_⟩
        exact ranCount_set htm (by rw [ha]; decide) (by simp)
      · simp only [timerStop, htm, ha, if_false, Option.some.injEq, Prod.mk.injEq] at h
        obtain ⟨_, h2⟩ := h
        subst h2
        exact Quiet.unchanged _

theorem setJob_quiet {s s1 : Scheduler} (p : Nat) (job : jobStruct) (h : Quiet s s1) :
    Quiet s (setJob s1 p job) := h

theorem stop_quiet {s s1 : Scheduler} {p : Nat} (hs : stop s p = some s1) : Quiet s s1 := by
  cases hq : s.heap[p]? with
  | none => simp [stop, hq] at hs
  | some jq =>
    by_cases h1 : jq.state = StateStopped
    · simp [stop, hq, h1] at hs
      rw [← hs]
      exact Quiet.unchanged _
    by_cases h2 : jq.state &&& StateRunning > 0
    · simp [stop, hq, h1, h2] at hs
      rw [← hs]
      exact Quiet.unchanged _
    cases hts : timerStop s jq.timer with
    | none => simp [stop, hq, h1, h2, hts] at hs
    | some r =>
      obtain ⟨b, s2⟩ := r
      have hqt := timerStop_quiet hts
      cases b with
      | true =>
        simp [stop, hq, h1, h2, hts] at hs
        rw [← hs]
        exact hqt
      | false =>
        simp [stop, hq, h1, h2, hts] at hs
        rw [← hs]
        exact hqt

theorem jobDelete_quiet {s s1 : Scheduler} {p : Nat} (hs : jobDelete s p = some s1) :
    Quiet s s1 := by
  cases hq : s.heap[p]? with
  | none => simp [jobDelete, hq] at hs
  | some jq =>
    by_cases h1 : jq.state = StateStopped
    · simp [jobDelete, hq, h1] at hs
      rw [← hs]
      exact Quiet.unchanged _
    · simp [jobDelete, hq, h1] at hs
      rw [← hs]
      exact Quiet.unchanged _

theorem lockedStart_quiet {s s1 : Scheduler} {p : Nat} {e : Error} {now : Time}
    (hs : lockedStart s p now = some (e, s1)) : Quiet s s1 := by
  cases hq : s.heap[p]? with
  | none => simp [lockedStart, hq] at hs
  | some jq =>
    by_cases h1 : jq.state = StateStopped
    · rw [lockedStart_stopped now hq h1] at hs
      simp only [Option.some.injEq, Prod.mk.injEq] at hs
      rw [← hs.2]
      exact ⟨rfl, ranCount_snoc _ _ (by simp)⟩
    · simp [lockedStart, hq, h1] at hs
      rw [← hs.2]
      exact Quiet.unchanged _

theorem lockedUpdateNextRun_quiet {s s1 : Scheduler} {p : Nat} {e : Error}
    {nextRun now : Time} (hs : lockedUpdateNextRun s p nextRun now = some (e, s1)) :
    Quiet s s1 := by
  cases hq : s.heap[p]? with
  | none => simp [lockedUpdateNextRun, hq] at hs
  | some jq =>
    by_cases h1 : jq.state = StateStopped
    · rw [lockedUpdateNextRun_stopped nextRun now hq h1] at hs
      simp only [Option.some.injEq, Prod.mk.injEq] at hs
      rw [← hs.2]
      exact Quiet.unchanged _
    by_cases h2 : jq.state &&& StateRunning > 0
    · rw [lockedUpdateNextRun_running nextRun now hq h2] at hs
      simp only [Option.some.injEq, Prod.mk.injEq] at hs
      rw [← hs.2]
      exact Quiet.unchanged _
    cases hts : timerStop s jq.timer with
    | none => simp [lockedUpdateNextRun, hq, h1, h2, hts] at hs
    | some r =>
      obtain ⟨b, s2⟩ := r
      have hqt := timerStop_quiet hts
      cases b with
      | true =>
        simp [lockedUpdateNextRun, hq, h1, h2, hts, AfterFunc] at hs
        rw [← hs.2]
        refine ⟨hqt.1, ?_⟩
        have hsn := ranCount_snoc s2.timers
          { d := Sub nextRun now, job := p, status := TimerStatus.armed } (by simp)
        exact hsn.trans hqt.2
      | false =>
        simp [lockedUpdateNextRun, hq, h1, h2, hts] at hs
        rw [← hs.2]
        exact hqt

theorem stopEach_quiet (entries : List (String × Nat)) :
    ∀ {s s1 : Scheduler}, stopEach s entries = some s1 → Quiet s s1 := by
  induction entries with
  | nil =>
    intro s s1 hs
    simp only [stopEach, Option.some.injEq] at hs
    rw [← hs]
    exact Quiet.unchanged _
  | cons kv rest ih =>
    intro s s1 hs
    obtain ⟨n, p⟩ := kv
    cases hst : stop s p with
    | none => simp [stopEach, hst] at hs
    | some s2 =>
      simp only [stopEach, hst, Option.bind] at hs
      exact (stop_quiet hst).followed (ih hs)

theorem Make_quiet (cx : Cronexpr) (s : Scheduler) (name cron : String) (function : Func)
    (data : Data) (now : Time) : Quiet s (Make cx s name cron function data now).2 := by
  cases hp : cx.Parse cron with
  | error err => simp [Make, hp, Quiet.unchanged]
  | ok expr =>
    cases hl : mapLookup s.jobs name with
    | some q => simp [Make, hp, hl, Quiet.unchanged]
    | none =>
      simp only [Make, hp, hl]
      exact ⟨rfl, rfl⟩

theorem timerFire_quiet (s : Scheduler) (t : Nat) : Quiet s (timerFire s t) := by
  cases htm : s.timers[t]? with
  | none => simp [timerFire, htm, Quiet.unchanged]
  | some tm =>
    by_cases ha : tm.status = .armed
    · simp only [timerFire, htm, ha, if_true]
      exact ⟨rfl, ranCount_set htm (by rw [ha]; decide) (by simp)⟩
    · simp [timerFire, htm, ha, Quiet.unchanged]

theorem doStoppingOrDeleting_quiet {s s1 : Scheduler} {p : Nat} {b : Bool}
    (hs : doStoppingOrDeleting s p = some (b, s1)) : Quiet s s1 := by
  cases hq : s.heap[p]? with
  | none => simp [doStoppingOrDeleting, hq] at hs
  | some jq =>
    by_cases hfl : jq.state &&& StateDeleting > 0 ∨ jq.state &&& StateStopping > 0
    · rw [doStoppingOrDeleting_flagged hq hfl] at hs
      simp only [Option.some.injEq, Prod.mk.injEq] at hs
      rw [← hs.2]
      exact ⟨rfl, rfl⟩
    · rw [doStoppingOrDeleting_clear hq (fun e => hfl (Or.inl e)) (fun e => hfl (Or.inr e))] at hs
      simp only [Option.some.injEq, Prod.mk.injEq] at hs
      rw [← hs.2]
      exact Quiet.unchanged _

theorem runBegin_quiet (cx : Cronexpr) {s s1 : Scheduler} {p : Nat} {b : Bool} {now : Time}
    (hs : runBegin cx s p now = some (b, s1)) : Quiet s s1 := by
  cases hq : s.heap[p]? with
  | none => simp [runBegin, hq] at hs
  | some jq =>
    have hq1 := setJob_heap_self hq { jq with timer := none }
    by_cases hfl : jq.state &&& StateDeleting > 0 ∨ jq.state &&& StateStopping > 0
    · rw [runBegin_flagged cx now hq hfl] at hs
      simp only [Option.some.injEq, Prod.mk.injEq] at hs
      rw [← hs.2]
      exact ⟨rfl, rfl⟩
    · rw [runBegin_clear cx now hq (fun e => hfl (Or.inl e)) (fun e => hfl (Or.inr e))] at hs
      simp only [Option.some.injEq, Prod.mk.injEq] at hs
      rw [← hs.2]
      exact ⟨rfl, rfl⟩

theorem runEnd_quiet {s s1 : Scheduler} {p : Nat} {now : Time}
    (hs : runEnd s p now = some s1) : Quiet s s1 := by
  cases hq : s.heap[p]? with
  | none => simp [runEnd, doStoppingOrDeleting, hq] at hs
  | some jq =>
    by_cases hfl : jq.state &&& StateDeleting > 0 ∨ jq.state &&& StateStopping > 0
    · rw [runEnd_flagged now hq hfl] at hs
      cases hs
      exact ⟨rfl, rfl⟩
    · rw [runEnd_clear now hq (fun e => hfl (Or.inl e)) (fun e => hfl (Or.inr e))] at hs
      cases hs
      exact ⟨rfl, ranCount_snoc _ _ (by simp)⟩

/-- Counting the elements that pass a test after one of them was erased. -/
theorem filter_length_erase {α : Type} [BEq α] [LawfulBEq α] (f : α → Bool) (l : List α) (x : α)
    (h : x ∈ l) :
    ((l.erase x).filter f).length + (if f x = true then 1 else 0) = (l.filter f).length := by
  induction l with
  | nil => cases h
  | cons a rest ih =>
    by_cases e : a = x
    · subst e
      simp only [List.erase_cons_head, List.filter_cons]
      cases hfa : f a <;> simp
    · have hm : x ∈ rest := by
        rcases List.mem_cons.mp h with e2 | e2
        · exact absurd e2.symm e
        · exact e2
      have hr := ih hm
      rw [List.erase_cons_tail (by simpa using e)]
      simp only [List.filter_cons]
      cases hfa : f a <;> simp <;> omega

theorem CallsOk_of_quiet {w : World} {s1 : Scheduler} (h : CallsOk w) (hq : Quiet w.sched s1) :
    CallsOk { w with sched := s1 } := by
  unfold CallsOk toCallCount at *
  show s1.calls.length + _ ≤ ranCount s1
  rw [hq.1, hq.2]
  exact h

/-- Every step keeps the bound on invocations. -/
theorem exec_calls (cx : Cronexpr) {w w1 : World} (a : Step) (h : CallsOk w)
    (he : Step.exec cx w a = some w1) : CallsOk w1 := by
  cases a with
  | Make name cron function data now =>
    simp only [Step.exec, Option.some.injEq] at he
    subst he
    exact CallsOk_of_quiet h (Make_quiet cx _ name cron function data now)
  | Start name now =>
    simp only [Step.exec, Start] at he
    cases hl : mapLookup w.sched.jobs name with
    | none =>
      simp only [hl, Option.map, Option.some.injEq] at he
      subst he
      exact h
    | some p =>
      simp only [hl] at he
      cases hs : lockedStart w.sched p now with
      | none => simp [hs] at he
      | some r =>
        obtain ⟨e, s1⟩ := r
        simp only [hs, Option.map, Option.some.injEq] at he
        subst he
        exact CallsOk_of_quiet h (lockedStart_quiet hs)
  | Stop name =>
    simp only [Step.exec, Stop] at he
    cases hl : mapLookup w.sched.jobs name with
    | none =>
      simp only [hl, Option.map, Option.some.injEq] at he
      subst he
      exact h
    | some p =>
      simp only [hl] at he
      cases hs : stop w.sched p with
      | none => simp [hs] at he
      | some s1 =>
        simp only [hs, Option.map, Option.some.injEq] at he
        subst he
        exact CallsOk_of_quiet h (stop_quiet hs)
  | Delete name =>
    simp only [Step.exec, Delete] at he
    cases hl : mapLookup w.sched.jobs name with
    | none =>
      simp only [hl, Option.map, Option.some.injEq] at he
      subst he
      exact h
    | some p =>
      simp only [hl, lockedDelete] at he
      cases hs : stop w.sched p with
      | none => simp [hs] at he
      | some s2 =>
        simp only [hs, Option.bind] at he
        cases hd : jobDelete s2 p with
        | none => simp [hd] at he
        | some s1 =>
          simp only [hd, Option.map, Option.some.injEq] at he
          subst he
          exact CallsOk_of_quiet h ((stop_quiet hs).followed (jobDelete_quiet hd))
  | UpdateCron name cron =>
    simp only [Step.exec, UpdateCron] at he
    cases hl : mapLookup w.sched.jobs name with
    | none =>
      simp only [hl, Option.map, Option.some.injEq] at he
      subst he
      exact h
    | some p =>
      simp only [hl] at he
      cases hp : cx.Parse cron with
      | error err =>
        simp only [hp, Option.map, Option.some.injEq] at he
        subst he
        exact h
      | ok expr =>
        simp only [hp] at he
        cases hj : w.sched.heap[p]? with
        | none => simp [lockedUpdateCron, hj] at he
        | some job =>
          simp only [lockedUpdateCron, hj, Option.map, Option.some.injEq] at he
          subst he
          exact CallsOk_of_quiet h (Quiet.unchanged _)
  | UpdateNextRun name nextRun now =>
    simp only [Step.exec, UpdateNextRun] at he
    cases hl : mapLookup w.sched.jobs name with
    | none =>
      simp only [hl, Option.map, Option.some.injEq] at he
      subst he
      exact h
    | some p =>
      simp only [hl] at he
      cases hs : lockedUpdateNextRun w.sched p nextRun now with
      | none => simp [hs] at he
      | some r =>
        obtain ⟨e, s1⟩ := r
        simp only [hs, Option.map, Option.some.injEq] at he
        subst he
        exact CallsOk_of_quiet h (lockedUpdateNextRun_quiet hs)
  | UpdateFunction name function data =>
    simp only [Step.exec, UpdateFunction] at he
    cases hl : mapLookup w.sched.jobs name with
    | none =>
      simp only [hl, Option.map, Option.some.injEq] at he
      subst he
      exact h
    | some p =>
      simp only [hl] at he
      cases hj : w.sched.heap[p]? with
      | none => simp [lockedUpdateFunction, hj] at he
      | some job =>
        simp only [lockedUpdateFunction, hj, Option.map, Option.some.injEq] at he
        subst he
        exact CallsOk_of_quiet h (Quiet.unchanged _)
  | StopAll =>
    simp only [Step.exec, StopAll] at he
    cases hs : stopEach w.sched w.sched.jobs with
    | none => simp [hs] at he
    | some s1 =>
      simp only [hs, Option.map, Option.some.injEq] at he
      subst he
      exact CallsOk_of_quiet h (stopEach_quiet _ hs)
  | fire t =>
    simp only [Step.exec, Option.some.injEq] at he
    subst he
    exact CallsOk_of_quiet h (timerFire_quiet _ t)
  | runBegin t now =>
    simp only [Step.exec] at he
    cases htm : w.sched.timers[t]? with
    | none => simp [htm] at he
    | some tm =>
      simp only [htm] at he
      by_cases hf : tm.status = .fired
      · simp only [hf, if_true, timerRun, htm] at he
        cases hs : runBegin cx
            { w.sched with timers := w.sched.timers.set t { tm with status := .ran } }
            tm.job now with
        | none => simp [hs] at he
        | some r =>
          obtain ⟨b, s1⟩ := r
          simp only [hs, Option.map, Option.some.injEq] at he
          subst he
          have hq := runBegin_quiet cx hs
          have hset := filter_length_set (fun x : Timer => decide (x.status = .ran))
            w.sched.timers t tm { tm with status := .ran } htm
          have hran : ranCount s1 = ranCount w.sched + 1 := by
            rw [hq.2]
            simp only [hf, decide_False, decide_True, Bool.false_eq_true, if_false, if_true,
              Nat.add_zero] at hset
            exact hset
          unfold CallsOk toCallCount at *
          show s1.calls.length + _ ≤ ranCount s1
          rw [hq.1, hran]
          show w.sched.calls.length + _ ≤ ranCount w.sched + 1
          cases b with
          | false =>
            simp only [Bool.false_eq_true, if_false]
            omega
          | true =>
            simp only [if_true, List.filter_cons, decide_True, List.length_cons]
            omega
      · simp [hf] at he
  | runCall p =>
    simp only [Step.exec] at he
    by_cases hm : (p, Phase.toCall) ∈ w.runs
    · simp only [hm, if_true] at he
      cases hj : w.sched.heap[p]? with
      | none => simp [runCall, hj] at he
      | some job =>
        simp only [runCall, hj, Option.map, Option.some.injEq] at he
        subst he
        have her := filter_length_erase (fun r : Nat × Phase => decide (r.2 = Phase.toCall))
          w.runs (p, Phase.toCall) hm
        simp only [decide_True, if_true] at her
        unfold CallsOk toCallCount ranCount at *
        simp only [List.length_append, List.length_singleton, List.filter_cons]
        simp only [reduceCtorEq, decide_False, Bool.false_eq_true, if_false]
        omega
    · simp [hm] at he
  | runEnd p now =>
    simp only [Step.exec] at he
    by_cases hm : (p, Phase.toEnd) ∈ w.runs
    · simp only [hm, if_true] at he
      cases hs : runEnd w.sched p now with
      | none => simp [hs] at he
      | some s1 =>
        simp only [hs, Option.map, Option.some.injEq] at he
        subst he
        have hq := runEnd_quiet hs
        have her := filter_length_erase (fun r : Nat × Phase => decide (r.2 = Phase.toCall))
          w.runs (p, Phase.toEnd) hm
        simp only [reduceCtorEq, decide_False, Bool.false_eq_true, if_false, Nat.add_zero] at her
        unfold CallsOk toCallCount at *
        show s1.calls.length + _ ≤ ranCount s1
        rw [hq.1, hq.2]
        show w.sched.calls.length +
          ((w.runs.erase (p, Phase.toEnd)).filter fun r => decide (r.2 = Phase.toCall)).length ≤
            ranCount w.sched
        rw [her]
        exact h
    · simp [hm] at he

/-- Every sequence of steps keeps the bound on invocations. -/
theorem execAll_calls (cx : Cronexpr) (steps : List Step) :
    ∀ {w w1 : World}, CallsOk w → execAll cx w steps = some w1 → CallsOk w1 := by
  induction steps with
  | nil =>
    intro w w1 h he
    simp only [execAll, Option.some.injEq] at he
    subst he
    exact h
  | cons a rest ih =>
    intro w w1 h he
    cases hs : Step.exec cx w a with
    | none => simp [execAll, hs] at he
    | some w2 =>
      simp only [execAll, hs, Option.bind] at he
      exact ih (exec_calls cx a h hs) he

theorem Reachable_calls (cx : Cronexpr) {w : World} (h : Reachable cx w) : CallsOk w := by
  obtain ⟨steps, he⟩ := h
  exact execAll_calls cx steps (Nat.zero_le _) he

theorem runBegin_timers (cx : Cronexpr) {s s1 : Scheduler} {p : Nat} {b : Bool} {now : Time}
    (hs : runBegin cx s p now = some (b, s1)) : s1.timers = s.timers := by
  cases hq : s.heap[p]? with
  | none => simp [runBegin, hq] at hs
  | some jq =>
    by_cases hfl : jq.state &&& StateDeleting > 0 ∨ jq.state &&& StateStopping > 0
    · rw [runBegin_flagged cx now hq hfl] at hs
      simp only [Option.some.injEq, Prod.mk.injEq] at hs
      rw [← hs.2]
      rfl
    · rw [runBegin_clear cx now hq (fun e => hfl (Or.inl e)) (fun e => hfl (Or.inr e))] at hs
      simp only [Option.some.injEq, Prod.mk.injEq] at hs
      rw [← hs.2]
      rfl

/-! ## StopAllWait -/

theorem sampleIdle_reachable : Reachable sampleCron sampleIdle :=
  ⟨sampleSteps.take 2, by decide⟩

/-- A change of the channel alone keeps the invariant. -/
theorem Inv_chan {w : World} (h : Inv w) (c : Nat) :
    Inv { w with sched := { w.sched with chanJobsNotStopped := c } } :=
  Inv_of_sched h ⟨h.1.of_eq rfl rfl, h.2.1.of_fields rfl rfl rfl, RunningKept.refl _⟩

/-- In a world that satisfies the invariant StopAll returns. -/
theorem StopAll_returns {w : World} (h : Inv w) : ∃ s1, StopAll w.sched = some s1 := by
  have hu : ∀ kv ∈ w.sched.jobs, Usable w.sched kv.2 := by
    intro kv hkv
    obtain ⟨job, hj, _⟩ := h.2.1.named kv hkv
    refine ⟨job, hj, ?_⟩
    intro h1 h2
    obtain ⟨t, tm, ht, htm⟩ := h.1.usable hj h1 h2
    refine ⟨t, ht, ?_⟩
    rcases Nat.lt_or_ge t w.sched.timers.length with hl | hl
    · exact hl
    · rw [List.getElem?_eq_none hl] at htm
      cases htm
  obtain ⟨s1, hs, _⟩ := stopEach_usable w.sched.jobs w.sched h.2.1.ptrs hu
  exact ⟨s1, hs⟩

/-- Every step of StopAllWait keeps the invariant of the world and of the call. -/
theorem StopAllWait_inv (cx : Cronexpr) {w : World} {x x1 : Waiter} {s1 : Scheduler}
    {sel : Select} (h : Inv w) (hx : WaiterOk x)
    (hs : StopAllWait w.sched x sel = some (x1, s1)) :
    Inv { w with sched := s1 } ∧ WaiterOk x1 := by
  have hc0 : 0 ≤ w.sched.jobsNotStopped := by
    rw [h.2.1.count]
    exact Int.natCast_nonneg _
  cases x with
  | called =>
    simp only [StopAllWait] at hs
    cases hsa : StopAll w.sched with
    | none => simp [hsa] at hs
    | some s2 =>
      simp only [hsa, Option.map, Option.some.injEq, Prod.mk.injEq] at hs
      obtain ⟨e1, e2⟩ := hs
      subst e1
      subst e2
      have he : Step.exec cx w .StopAll = some { w with sched := s2 } := by
        simp [Step.exec, hsa]
      exact ⟨exec_inv cx .StopAll h he, trivial⟩
  | stopped =>
    simp only [StopAllWait] at hs
    by_cases hlt : w.sched.jobsNotStopped < 1
    · simp only [hlt, if_true, Option.some.injEq, Prod.mk.injEq] at hs
      obtain ⟨e1, e2⟩ := hs
      subst e1
      subst e2
      refine ⟨h, ?_, rfl⟩
      change (w.sched.jobsNotStopped : Int) = 0
      change (w.sched.jobsNotStopped : Int) < 1 at hlt
      change (0 : Int) ≤ w.sched.jobsNotStopped at hc0
      omega
    · simp only [hlt, if_false, Option.some.injEq, Prod.mk.injEq] at hs
      obtain ⟨e1, e2⟩ := hs
      subst e1
      subst e2
      refine ⟨h, hc0, fun _ => ?_⟩
      change ¬ (w.sched.jobsNotStopped : Int) < 1 at hlt
      change (1 : Int) ≤ w.sched.jobsNotStopped
      omega
  | loop c n =>
    simp only [StopAllWait] at hs
    by_cases hpos : c > 0
    · simp only [hpos, if_true] at hs
      cases sel with
      | timeout =>
        simp only [Option.some.injEq, Prod.mk.injEq] at hs
        obtain ⟨e1, e2⟩ := hs
        subst e1
        subst e2
        exact ⟨h, hpos⟩
      | receive =>
        by_cases hch : w.sched.chanJobsNotStopped > 0
        · simp only [hch, if_true, Option.some.injEq, Prod.mk.injEq] at hs
          obtain ⟨e1, e2⟩ := hs
          subst e1
          subst e2
          exact ⟨Inv_chan h _, Nat.succ_pos n⟩
        · simp [hch] at hs
    · simp only [hpos, if_false, Option.some.injEq, Prod.mk.injEq] at hs
      obtain ⟨e1, e2⟩ := hs
      subst e1
      subst e2
      refine ⟨Inv_chan h _, ?_, ?_⟩
      · have h0 := hx.1
        omega
      · rcases Nat.eq_zero_or_pos n with hn | hn
        · have h1 := hx.2 hn
          omega
        · exact hn
  | woken n =>
    simp only [StopAllWait, Option.some.injEq, Prod.mk.injEq] at hs
    obtain ⟨e1, e2⟩ := hs
    subst e1
    subst e2
    refine ⟨h, hc0, fun hn => ?_⟩
    have hx0 : 0 < n := hx
    omega
  | returned how c n => simp [StopAllWait] at hs

/-- Every event keeps the invariant of the world and of the call. -/
theorem Event_inv (cx : Cronexpr) {x x1 : Waiting} (e : Event)
    (h : Inv x.world ∧ WaiterOk x.waiter) (he : Event.exec cx x e = some x1) :
    Inv x1.world ∧ WaiterOk x1.waiter := by
  cases e with
  | other a =>
    simp only [Event.exec] at he
    cases hs : Step.exec cx x.world a with
    | none => simp [hs] at he
    | some w1 =>
      simp only [hs, Option.map, Option.some.injEq] at he
      subst he
      exact ⟨exec_inv cx a h.1 hs, h.2⟩
  | wait sel =>
    simp only [Event.exec] at he
    cases hs : StopAllWait x.world.sched x.waiter sel with
    | none => simp [hs] at he
    | some r =>
      obtain ⟨y, s1⟩ := r
      simp only [hs, Option.map, Option.some.injEq] at he
      subst he
      exact StopAllWait_inv cx h.1 h.2 hs

/-- Every sequence of events keeps the invariant of the world and of the call. -/
theorem waitAll_inv (cx : Cronexpr) (events : List Event) :
    ∀ {x x1 : Waiting}, Inv x.world ∧ WaiterOk x.waiter → waitAll cx x events = some x1 →
      Inv x1.world ∧ WaiterOk x1.waiter := by
  induction events with
  | nil =>
    intro x x1 h he
    simp only [waitAll, Option.some.injEq] at he
    subst he
    exact h
  | cons e rest ih =>
    intro x x1 h he
    cases hs : Event.exec cx x e with
    | none => simp [waitAll, hs] at he
    | some x2 =>
      simp only [waitAll, hs, Option.bind] at he
      exact ih (Event_inv cx e h hs) he

/-- The loop of StopAll over entries with distinct pointers to idle jobs: every one of
them is Stopped afterwards, and no other job is written. -/
theorem stopEach_idle (entries : List (String × Nat)) :
    ∀ s : Scheduler, (entries.map Prod.snd).Nodup → (∀ kv ∈ entries, Idle s kv.2) →
      ∃ s1, stopEach s entries = some s1 ∧
        (∀ kv ∈ entries, ∃ job1, s1.heap[kv.2]? = some job1 ∧ job1.state = StateStopped) ∧
        (∀ q, q ∉ entries.map Prod.snd → s1.heap[q]? = s.heap[q]?) := by
  induction entries with
  | nil =>
    intro s _ _
    exact ⟨s, rfl, by simp, fun _ _ => rfl⟩
  | cons kv rest ih =>
    intro s hnd hid
    obtain ⟨name, p⟩ := kv
    simp only [List.map_cons, List.nodup_cons] at hnd
    obtain ⟨hp, hnd1⟩ := hnd
    obtain ⟨job, hj, hcase⟩ := hid (name, p) (List.mem_cons_self _ _)
    have hne : ∀ kv ∈ rest, kv.2 ≠ p := by
      intro kv hkv e
      exact hp (e ▸ List.mem_map_of_mem Prod.snd hkv)
    rcases hcase with hst | ⟨hst, t, tm, ht, htm, hown, harm⟩
    · have hstop : stop s p = some s := by simp [stop, hj, hst]
      obtain ⟨s1, hs1, hall, hfr⟩ := ih s hnd1
        (fun kv hkv => hid kv (List.mem_cons_of_mem _ hkv))
      refine ⟨s1, by simp [stopEach, hstop, hs1], ?_, ?_⟩
      · intro kv hkv
        rcases List.mem_cons.mp hkv with e | hm
        · subst e
          exact ⟨job, by rw [hfr p hp]; exact hj, hst⟩
        · exact hall kv hm
      · intro q hq
        simp only [List.map_cons, List.mem_cons, not_or] at hq
        exact hfr q hq.2
    · have h1 : job.state ≠ StateStopped := by rw [hst]; decide
      have h2 : ¬ job.state &&& StateRunning > 0 := by rw [hst]; decide
      obtain ⟨s2, hs2⟩ : ∃ s2 : Scheduler, s2 = setJob
          { s with timers := s.timers.set t { tm with status := .stopped },
                   jobsNotStopped := s.jobsNotStopped - 1,
                   chanJobsNotStopped := trySend s.chanJobsNotStopped }
          p { job with timer := none, state := StateStopped } := ⟨_, rfl⟩
      have hstop : stop s p = some s2 := by
        rw [hs2]
        simp [stop, hj, h1, h2, ht, timerStop_armed htm harm]
      have hheap : ∀ q, q ≠ p → s2.heap[q]? = s.heap[q]? := by
        intro q hq
        rw [hs2]
        exact setJob_heap_ne _ hq _
      have hself : s2.heap[p]? = some { job with timer := none, state := StateStopped } := by
        rw [hs2]
        simp [setJob, List.getElem?_set, heap_lt hj]
      have htim : s2.timers = s.timers.set t { tm with status := .stopped } := by
        rw [hs2]
        rfl
      have hid2 : ∀ kv ∈ rest, Idle s2 kv.2 := by
        intro kv hkv
        obtain ⟨jq, hjq, hc⟩ := hid kv (List.mem_cons_of_mem _ hkv)
        refine ⟨jq, by rw [hheap _ (hne kv hkv)]; exact hjq, ?_⟩
        rcases hc with hc | ⟨hc, t1, tm1, ht1, htm1, hown1, harm1⟩
        · exact Or.inl hc
        · refine Or.inr ⟨hc, t1, tm1, ht1, ?_, hown1, harm1⟩
          have hte : t1 ≠ t := by
            intro e
            rw [e, htm] at htm1
            simp only [Option.some.injEq] at htm1
            rw [← htm1, hown] at hown1
            exact hne kv hkv hown1.symm
          rw [htim, List.getElem?_set_ne (Ne.symm hte)]
          exact htm1
      obtain ⟨s1, hs1, hall, hfr⟩ := ih s2 hnd1 hid2
      refine ⟨s1, by simp [stopEach, hstop, hs1], ?_, ?_⟩
      · intro kv hkv
        rcases List.mem_cons.mp hkv with e | hm
        · subst e
          exact ⟨_, by rw [hfr p hp]; exact hself, rfl⟩
        · exact hall kv hm
      · intro q hq
        simp only [List.map_cons, List.mem_cons, not_or] at hq
        rw [hfr q hq.2, hheap q hq.1]

/-- StopAll in a world that satisfies the invariant and whose registered jobs are all
idle: every job is Stopped afterwards and the counter is 0. -/
theorem StopAll_idle (cx : Cronexpr) {w : World} (h : Inv w)
    (hid : ∀ kv ∈ w.sched.jobs, Idle w.sched kv.2) :
    ∃ s1, StopAll w.sched = some s1 ∧ s1.jobsNotStopped = 0 ∧
      (∀ (p : Nat) (job : jobStruct), s1.heap[p]? = some job → job.state = StateStopped) ∧
      Inv { w with sched := s1 } := by
  obtain ⟨s1, hs, hall, hfr⟩ := stopEach_idle w.sched.jobs w.sched h.2.1.ptrs hid
  have he : Step.exec cx w .StopAll = some { w with sched := s1 } := by
    simp [Step.exec, StopAll, hs]
  have hI := exec_inv cx .StopAll h he
  have hstopped : ∀ (p : Nat) (job : jobStruct), s1.heap[p]? = some job →
      job.state = StateStopped := by
    intro p job hj
    by_contra hns
    have hreg := hI.2.1.registered p job hj hns
    obtain ⟨job1, hj1, hst1⟩ := hall (job.name, p) (by
      have hjobs : s1.jobs = w.sched.jobs := by
        obtain ⟨s2, hs2, hjobs2, _⟩ := stopEach_usable w.sched.jobs w.sched h.2.1.ptrs (by
          intro kv hkv
          obtain ⟨jq, hjq, _⟩ := h.2.1.named kv hkv
          refine ⟨jq, hjq, ?_⟩
          intro h1 h2
          obtain ⟨t, tm, ht, htm⟩ := h.1.usable hjq h1 h2
          refine ⟨t, ht, ?_⟩
          rcases Nat.lt_or_ge t w.sched.timers.length with hl | hl
          · exact hl
          · rw [List.getElem?_eq_none hl] at htm
            cases htm)
        rw [hs] at hs2
        simp only [Option.some.injEq] at hs2
        rw [hs2]
        exact hjobs2
      rw [← hjobs]
      exact hreg)
    rw [hj] at hj1
    simp only [Option.some.injEq] at hj1
    rw [← hj1] at hst1
    exact hns hst1
  refine ⟨s1, hs, ?_, hstopped, hI⟩
  have hcnt := hI.2.1.count
  have hnil : (s1.jobs.filter fun kv => notStoppedAt s1 kv.2) = [] := by
    rw [List.filter_eq_nil_iff]
    intro kv hkv
    obtain ⟨jq, hjq, _⟩ := hI.2.1.named kv hkv
    have := hstopped kv.2 jq hjq
    simp [notStoppedAt, hjq, this]
  change s1.jobsNotStopped = _ at hcnt
  rw [hcnt]
  change ((List.filter (fun kv => notStoppedAt s1 kv.2) s1.jobs).length : Int) = 0
  rw [hnil]
  rfl

/-- When every call runs from its lookup to its unlock with no other call in between:
in every reachable world a call of StopAllWait first performs StopAll, which
returns; if the counter it then loads is below 1 it returns at once, with nothing
received and the scheduler untouched, and otherwise it enters the loop; from the head of
the loop it returns in one step only by the timeout case, which can be taken whenever the
value loaded is positive, or when the value loaded is not positive; so in every run,
whatever other goroutines do in between, a call that returned otherwise than by the
timeout loaded 0 last, after at least one receive unless it returned at once, and a call
that returned by the timeout loaded a positive value last; and when every registered job
is idle, StopAll leaves every job Stopped, none Running, the counter at 0, and the call
returns at once after its first two steps.  With a job that lost its registry entry the
last part fails (`sampleOrphan`). -/
theorem StopAllWait_contract (cx : Cronexpr) (w : World) (h : Reachable cx w) :
    (∃ s1, StopAll w.sched = some s1 ∧
      ∀ sel, StopAllWait w.sched .called sel = some (.stopped, s1)) ∧
    (∀ (s : Scheduler) (sel : Select), s.jobsNotStopped < 1 →
      StopAllWait s .stopped sel = some (.returned .atOnce s.jobsNotStopped 0, s)) ∧
    (∀ (s : Scheduler) (sel : Select), ¬ s.jobsNotStopped < 1 →
      StopAllWait s .stopped sel = some (.loop s.jobsNotStopped 0, s)) ∧
    (∀ (s s1 : Scheduler) (c c1 : Int) (n n1 : Nat) (sel : Select) (how : Return),
      StopAllWait s (.loop c n) sel = some (.returned how c1 n1, s1) →
      c1 = c ∧ n1 = n ∧
        ((how = .timeout ∧ sel = .timeout ∧ 0 < c ∧ s1 = s) ∨ (how = .drained ∧ c ≤ 0))) ∧
    (∀ (s : Scheduler) (c : Int) (n : Nat), 0 < c →
      StopAllWait s (.loop c n) .timeout = some (.returned .timeout c n, s)) ∧
    (∀ (events : List Event) (how : Return) (c : Int) (n : Nat),
      (waitAll cx ⟨w, .called⟩ events).map Waiting.waiter = some (.returned how c n) →
      (how ≠ .timeout → c = 0) ∧ (how = .timeout → 0 < c) ∧ (how = .atOnce → n = 0) ∧
        (how = .drained → 0 < n)) ∧
    ((∀ kv ∈ w.sched.jobs, Idle w.sched kv.2) →
      ∃ s1, StopAll w.sched = some s1 ∧ s1.jobsNotStopped = 0 ∧
        (∀ (p : Nat) (job : jobStruct), s1.heap[p]? = some job →
          job.state = StateStopped ∧ ¬ job.state &&& StateRunning > 0) ∧
        ∀ sel1 sel2, waitAll cx ⟨w, .called⟩ [.wait sel1, .wait sel2] =
          some ⟨{ w with sched := s1 }, .returned .atOnce 0 0⟩) := by
  have hI := Reachable_inv cx h
  refine ⟨?_, ?_, ?_, ?_, ?_, ?_, ?_⟩
  · obtain ⟨s1, hs⟩ := StopAll_returns hI
    exact ⟨s1, hs, fun _ => by simp [StopAllWait, hs]⟩
  · intro s sel hlt
    simp [StopAllWait, hlt]
  · intro s sel hlt
    simp [StopAllWait, hlt]
  · intro s s1 c c1 n n1 sel how hs
    simp only [StopAllWait] at hs
    by_cases hpos : c > 0
    · simp only [hpos, if_true] at hs
      cases sel with
      | timeout =>
        simp only [Option.some.injEq, Prod.mk.injEq, Waiter.returned.injEq] at hs
        obtain ⟨⟨e1, e2, e3⟩, e4⟩ := hs
        exact ⟨e2.symm, e3.symm, Or.inl ⟨e1.symm, rfl, hpos, e4.symm⟩⟩
      | receive =>
        by_cases hch : s.chanJobsNotStopped > 0
        · simp [hch] at hs
        · simp [hch] at hs
    · simp only [hpos, if_false, Option.some.injEq, Prod.mk.injEq, Waiter.returned.injEq] at hs
      obtain ⟨⟨e1, e2, e3⟩, _⟩ := hs
      exact ⟨e2.symm, e3.symm, Or.inr ⟨e1.symm, not_lt.mp hpos⟩⟩
  · intro s c n hpos
    simp [StopAllWait, hpos]
  · intro events how c n he
    cases hx : waitAll cx ⟨w, .called⟩ events with
    | none => simp [hx] at he
    | some x =>
      simp only [hx, Option.map, Option.some.injEq] at he
      have h0 : Inv (Waiting.mk w .called).world ∧ WaiterOk (Waiting.mk w .called).waiter :=
        ⟨hI, trivial⟩
      have hok := (waitAll_inv cx events h0 hx).2
      rw [he] at hok
      cases how with
      | atOnce =>
        exact ⟨fun _ => hok.1, (fun e => by cases e), fun _ => hok.2, (fun e => by cases e)⟩
      | timeout =>
        exact ⟨fun e => absurd rfl e, fun _ => hok, (fun e => by cases e),
          (fun e => by cases e)⟩
      | drained =>
        exact ⟨fun _ => hok.1, (fun e => by cases e), (fun e => by cases e), fun _ => hok.2⟩
  · intro hid
    obtain ⟨s1, hs, hc, hst, _⟩ := StopAll_idle cx hI hid
    refine ⟨s1, hs, hc, ?_, ?_⟩
    · intro p job hj
      have e := hst p job hj
      refine ⟨e, ?_⟩
      rw [e]
      decide
    · intro sel1 sel2
      have hlt : s1.jobsNotStopped < 1 := by
        rw [hc]
        decide
      simp [waitAll, Event.exec, StopAllWait, hs, hlt, hc]

/-- StopAllWait at a sample: from the world where the job `a` is Scheduled with its timer
armed the call returns at once with every job Stopped, and in the run `sampleWait` from the
same world, which returns after the loop, the last value loaded is 0. -/
theorem StopAllWait_contract_witness :
    Reachable sampleCron sampleIdle ∧
    (∃ s1, StopAll sampleIdle.sched = some s1 ∧ s1.jobsNotStopped = 0 ∧
      (∀ (p : Nat) (job : jobStruct), s1.heap[p]? = some job →
        job.state = StateStopped ∧ ¬ job.state &&& StateRunning > 0) ∧
      ∀ sel1 sel2, waitAll sampleCron ⟨sampleIdle, .called⟩ [.wait sel1, .wait sel2] =
        some ⟨{ sampleIdle with sched := s1 }, .returned .atOnce 0 0⟩) ∧
    (waitAll sampleCron ⟨sampleIdle, .called⟩ sampleWait).map Waiting.waiter =
      some (.returned .drained 0 1) ∧
    ((Return.drained ≠ Return.timeout → (0 : Int) = 0) ∧
      (Return.drained = Return.timeout → (0 : Int) < 0) ∧
      (Return.drained = Return.atOnce → 1 = 0) ∧ (Return.drained = Return.drained → 0 < 1)) :=
  ⟨sampleIdle_reachable,
    (StopAllWait_contract sampleCron sampleIdle sampleIdle_reachable).2.2.2.2.2.2 (by
      intro kv hkv
      simp only [sampleIdle, List.mem_singleton] at hkv
      subst hkv
      exact ⟨_, rfl, Or.inr ⟨rfl, 0, _, rfl, rfl, rfl, rfl⟩⟩),
    by decide,
    (StopAllWait_contract sampleCron sampleIdle sampleIdle_reachable).2.2.2.2.2.1
      sampleWait .drained 0 1 (by decide)⟩

/-! ## The final send of StopAllWait -/

theorem trySend_ge (c : Nat) : c ≤ trySend c := by
  unfold trySend
  split <;> omega

theorem trySend_pos (c : Nat) : 0 < trySend c := by
  unfold trySend chanCap
  split <;> omega

theorem ChanKept.unmoved (s : Scheduler) : ChanKept s s := Nat.le_refl _

theorem ChanKept.next {s s1 s2 : Scheduler} (h1 : ChanKept s s1) (h2 : ChanKept s1 s2) :
    ChanKept s s2 := Nat.le_trans h1 h2

theorem timerStop_chan {s s1 : Scheduler} {t : Option Nat} {b : Bool}
    (h : timerStop s t = some (b, s1)) : s1.chanJobsNotStopped = s.chanJobsNotStopped := by
  cases t with
  | none => simp [timerStop] at h
  | some i =>
    cases htm : s.timers[i]? with
    | none => simp [timerStop, htm] at h
    | some tm =>
      by_cases ha : tm.status = .armed
      · simp only [timerStop, htm, ha, if_true, Option.some.injEq, Prod.mk.injEq] at h
        obtain ⟨_, h2⟩ := h
        subst h2
        rfl
      · simp only [timerStop, htm, ha, if_false, Option.some.injEq, Prod.mk.injEq] at h
        obtain ⟨_, h2⟩ := h
        subst h2
        rfl

theorem stop_chan {s s1 : Scheduler} {p : Nat} (hs : stop s p = some s1) : ChanKept s s1 := by
  cases hq : s.heap[p]? with
  | none => simp [stop, hq] at hs
  | some jq =>
    by_cases h1 : jq.state = StateStopped
    · simp [stop, hq, h1] at hs
      rw [← hs]
      exact ChanKept.unmoved _
    by_cases h2 : jq.state &&& StateRunning > 0
    · simp [stop, hq, h1, h2] at hs
      rw [← hs]
      exact ChanKept.unmoved _
    cases hts : timerStop s jq.timer with
    | none => simp [stop, hq, h1, h2, hts] at hs
    | some r =>
      obtain ⟨b, s2⟩ := r
      have hqt := timerStop_chan hts
      cases b with
      | true =>
        simp [stop, hq, h1, h2, hts] at hs
        rw [← hs]
        show s.chanJobsNotStopped ≤ trySend s2.chanJobsNotStopped
        rw [hqt]
        exact trySend_ge _
      | false =>
        simp [stop, hq, h1, h2, hts] at hs
        rw [← hs]
        show s.chanJobsNotStopped ≤ s2.chanJobsNotStopped
        rw [hqt]

theorem jobDelete_chan {s s1 : Scheduler} {p : Nat} (hs : jobDelete s p = some s1) :
    ChanKept s s1 := by
  cases hq : s.heap[p]? with
  | none => simp [jobDelete, hq] at hs
  | some jq =>
    by_cases h1 : jq.state = StateStopped
    · simp [jobDelete, hq, h1] at hs
      rw [← hs]
      exact ChanKept.unmoved _
    · simp [jobDelete, hq, h1] at hs
      rw [← hs]
      exact ChanKept.unmoved _

theorem lockedStart_chan {s s1 : Scheduler} {p : Nat} {e : Error} {now : Time}
    (hs : lockedStart s p now = some (e, s1)) : ChanKept s s1 := by
  cases hq : s.heap[p]? with
  | none => simp [lockedStart, hq] at hs
  | some jq =>
    by_cases h1 : jq.state = StateStopped
    · rw [lockedStart_stopped now hq h1] at hs
      simp only [Option.some.injEq, Prod.mk.injEq] at hs
      rw [← hs.2]
      exact ChanKept.unmoved _
    · simp [lockedStart, hq, h1] at hs
      rw [← hs.2]
      exact ChanKept.unmoved _

theorem lockedUpdateNextRun_chan {s s1 : Scheduler} {p : Nat} {e : Error}
    {nextRun now : Time} (hs : lockedUpdateNextRun s p nextRun now = some (e, s1)) :
    ChanKept s s1 := by
  cases hq : s.heap[p]? with
  | none => simp [lockedUpdateNextRun, hq] at hs
  | some jq =>
    by_cases h1 : jq.state = StateStopped
    · rw [lockedUpdateNextRun_stopped nextRun now hq h1] at hs
      simp only [Option.some.injEq, Prod.mk.injEq] at hs
      rw [← hs.2]
      exact ChanKept.unmoved _
    by_cases h2 : jq.state &&& StateRunning > 0
    · rw [lockedUpdateNextRun_running nextRun now hq h2] at hs
      simp only [Option.some.injEq, Prod.mk.injEq] at hs
      rw [← hs.2]
      exact ChanKept.unmoved _
    cases hts : timerStop s jq.timer with
    | none => simp [lockedUpdateNextRun, hq, h1, h2, hts] at hs
    | some r =>
      obtain ⟨b, s2⟩ := r
      have hqt := timerStop_chan hts
      cases b with
      | true =>
        simp [lockedUpdateNextRun, hq, h1, h2, hts, AfterFunc] at hs
        rw [← hs.2]
        show s.chanJobsNotStopped ≤ s2.chanJobsNotStopped
        rw [hqt]
      | false =>
        simp [lockedUpdateNextRun, hq, h1, h2, hts] at hs
        rw [← hs.2]
        show s.chanJobsNotStopped ≤ s2.chanJobsNotStopped
        rw [hqt]

theorem stopEach_chan (entries : List (String × Nat)) :
    ∀ {s s1 : Scheduler}, stopEach s entries = some s1 → ChanKept s s1 := by
  induction entries with
  | nil =>
    intro s s1 hs
    simp only [stopEach, Option.some.injEq] at hs
    rw [← hs]
    exact ChanKept.unmoved _
  | cons kv rest ih =>
    intro s s1 hs
    obtain ⟨n, p⟩ := kv
    cases hst : stop s p with
    | none => simp [stopEach, hst] at hs
    | some s2 =>
      simp only [stopEach, hst, Option.bind] at hs
      exact (stop_chan hst).next (ih hs)

theorem Make_chan (cx : Cronexpr) (s : Scheduler) (name cron : String) (function : Func)
    (data : Data) (now : Time) : ChanKept s (Make cx s name cron function data now).2 := by
  cases hp : cx.Parse cron with
  | error err => simp [Make, hp, ChanKept.unmoved]
  | ok expr =>
    cases hl : mapLookup s.jobs name with
    | some q => simp [Make, hp, hl, ChanKept.unmoved]
    | none =>
      simp only [Make, hp, hl]
      exact ChanKept.unmoved _

theorem timerFire_chan (s : Scheduler) (t : Nat) : ChanKept s (timerFire s t) := by
  cases htm : s.timers[t]? with
  | none => simp [timerFire, htm, ChanKept.unmoved]
  | some tm =>
    by_cases ha : tm.status = .armed
    · simp only [timerFire, htm, ha, if_true]
      exact ChanKept.unmoved _
    · simp [timerFire, htm, ha, ChanKept.unmoved]

theorem runBegin_chan (cx : Cronexpr) {s s1 : Scheduler} {p : Nat} {b : Bool} {now : Time}
    (hs : runBegin cx s p now = some (b, s1)) : ChanKept s s1 := by
  cases hq : s.heap[p]? with
  | none => simp [runBegin, hq] at hs
  | some jq =>
    by_cases hfl : jq.state &&& StateDeleting > 0 ∨ jq.state &&& StateStopping > 0
    · rw [runBegin_flagged cx now hq hfl] at hs
      simp only [Option.some.injEq, Prod.mk.injEq] at hs
      rw [← hs.2]
      exact trySend_ge _
    · rw [runBegin_clear cx now hq (fun e => hfl (Or.inl e)) (fun e => hfl (Or.inr e))] at hs
      simp only [Option.some.injEq, Prod.mk.injEq] at hs
      rw [← hs.2]
      exact ChanKept.unmoved _

theorem runEnd_chan {s s1 : Scheduler} {p : Nat} {now : Time}
    (hs : runEnd s p now = some s1) : ChanKept s s1 := by
  cases hq : s.heap[p]? with
  | none => simp [runEnd, doStoppingOrDeleting, hq] at hs
  | some jq =>
    by_cases hfl : jq.state &&& StateDeleting > 0 ∨ jq.state &&& StateStopping > 0
    · rw [runEnd_flagged now hq hfl] at hs
      cases hs
      exact trySend_ge _
    · rw [runEnd_clear now hq (fun e => hfl (Or.inl e)) (fun e => hfl (Or.inr e))] at hs
      cases hs
      exact ChanKept.unmoved _

/-- No step of the transition system takes a value out of the channel. -/
theorem exec_chan (cx : Cronexpr) {w w1 : World} (a : Step)
    (he : Step.exec cx w a = some w1) : ChanKept w.sched w1.sched := by
  cases a with
  | Make name cron function data now =>
    simp only [Step.exec, Option.some.injEq] at he
    subst he
    exact Make_chan cx _ name cron function data now
  | Start name now =>
    simp only [Step.exec, Start] at he
    cases hl : mapLookup w.sched.jobs name with
    | none =>
      simp only [hl, Option.map, Option.some.injEq] at he
      subst he
      exact ChanKept.unmoved _
    | some p =>
      simp only [hl] at he
      cases hs : lockedStart w.sched p now with
      | none => simp [hs] at he
      | some r =>
        obtain ⟨e, s1⟩ := r
        simp only [hs, Option.map, Option.some.injEq] at he
        subst he
        exact lockedStart_chan hs
  | Stop name =>
    simp only [Step.exec, Stop] at he
    cases hl : mapLookup w.sched.jobs name with
    | none =>
      simp only [hl, Option.map, Option.some.injEq] at he
      subst he
      exact ChanKept.unmoved _
    | some p =>
      simp only [hl] at he
      cases hs : stop w.sched p with
      | none => simp [hs] at he
      | some s1 =>
        simp only [hs, Option.map, Option.some.injEq] at he
        subst he
        exact stop_chan hs
  | Delete name =>
    simp only [Step.exec, Delete] at he
    cases hl : mapLookup w.sched.jobs name with
    | none =>
      simp only [hl, Option.map, Option.some.injEq] at he
      subst he
      exact ChanKept.unmoved _
    | some p =>
      simp only [hl, lockedDelete] at he
      cases hs : stop w.sched p with
      | none => simp [hs] at he
      | some s2 =>
        simp only [hs, Option.bind] at he
        cases hd : jobDelete s2 p with
        | none => simp [hd] at he
        | some s1 =>
          simp only [hd, Option.map, Option.some.injEq] at he
          subst he
          exact (stop_chan hs).next (jobDelete_chan hd)
  | UpdateCron name cron =>
    simp only [Step.exec, UpdateCron] at he
    cases hl : mapLookup w.sched.jobs name with
    | none =>
      simp only [hl, Option.map, Option.some.injEq] at he
      subst he
      exact ChanKept.unmoved _
    | some p =>
      simp only [hl] at he
      cases hp : cx.Parse cron with
      | error err =>
        simp only [hp, Option.map, Option.some.injEq] at he
        subst he
        exact ChanKept.unmoved _
      | ok expr =>
        simp only [hp] at he
        cases hj : w.sched.heap[p]? with
        | none => simp [lockedUpdateCron, hj] at he
        | some job =>
          simp only [lockedUpdateCron, hj, Option.map, Option.some.injEq] at he
          subst he
          exact ChanKept.unmoved _
  | UpdateNextRun name nextRun now =>
    simp only [Step.exec, UpdateNextRun] at he
    cases hl : mapLookup w.sched.jobs name with
    | none =>
      simp only [hl, Option.map, Option.some.injEq] at he
      subst he
      exact ChanKept.unmoved _
    | some p =>
      simp only [hl] at he
      cases hs : lockedUpdateNextRun w.sched p nextRun now with
      | none => simp [hs] at he
      | some r =>
        obtain ⟨e, s1⟩ := r
        simp only [hs, Option.map, Option.some.injEq] at he
        subst he
        exact lockedUpdateNextRun_chan hs
  | UpdateFunction name function data =>
    simp only [Step.exec, UpdateFunction] at he
    cases hl : mapLookup w.sched.jobs name with
    | none =>
      simp only [hl, Option.map, Option.some.injEq] at he
      subst he
      exact ChanKept.unmoved _
    | some p =>
      simp only [hl] at he
      cases hj : w.sched.heap[p]? with
      | none => simp [lockedUpdateFunction, hj] at he
      | some job =>
        simp only [lockedUpdateFunction, hj, Option.map, Option.some.injEq] at he
        subst he
        exact ChanKept.unmoved _
  | StopAll =>
    simp only [Step.exec, StopAll] at he
    cases hs : stopEach w.sched w.sched.jobs with
    | none => simp [hs] at he
    | some s1 =>
      simp only [hs, Option.map, Option.some.injEq] at he
      subst he
      exact stopEach_chan _ hs
  | fire t =>
    simp only [Step.exec, Option.some.injEq] at he
    subst he
    exact timerFire_chan _ t
  | runBegin t now =>
    simp only [Step.exec] at he
    cases htm : w.sched.timers[t]? with
    | none => simp [htm] at he
    | some tm =>
      simp only [htm] at he
      by_cases hf : tm.status = .fired
      · simp only [hf, if_true, timerRun, htm] at he
        cases hs : runBegin cx
            { w.sched with timers := w.sched.timers.set t { tm with status := .ran } }
            tm.job now with
        | none => simp [hs] at he
        | some r =>
          obtain ⟨b, s1⟩ := r
          simp only [hs, Option.map, Option.some.injEq] at he
          subst he
          have hc := runBegin_chan cx hs
          exact hc
      · simp [hf] at he
  | runCall p =>
    simp only [Step.exec] at he
    by_cases hm : (p, Phase.toCall) ∈ w.runs
    · simp only [hm, if_true] at he
      cases hj : w.sched.heap[p]? with
      | none => simp [runCall, hj] at he
      | some job =>
        simp only [runCall, hj, Option.map, Option.some.injEq] at he
        subst he
        exact ChanKept.unmoved _
    · simp [hm] at he
  | runEnd p now =>
    simp only [Step.exec] at he
    by_cases hm : (p, Phase.toEnd) ∈ w.runs
    · simp only [hm, if_true] at he
      cases hs : runEnd w.sched p now with
      | none => simp [hs] at he
      | some s1 =>
        simp only [hs, Option.map, Option.some.injEq] at he
        subst he
        exact runEnd_chan hs
    · simp [hm] at he

/-- Every event keeps: a call that has returned after the loop has left a value in the
channel. -/
theorem Event_sent (cx : Cronexpr) {x x1 : Waiting} (e : Event)
    (h : ∀ c n, x.waiter = .returned .drained c n → 0 < x.world.sched.chanJobsNotStopped)
    (he : Event.exec cx x e = some x1) :
    ∀ c n, x1.waiter = .returned .drained c n → 0 < x1.world.sched.chanJobsNotStopped := by
  cases e with
  | other a =>
    simp only [Event.exec] at he
    cases hs : Step.exec cx x.world a with
    | none => simp [hs] at he
    | some w1 =>
      simp only [hs, Option.map, Option.some.injEq] at he
      subst he
      intro c n hw
      have h0 := h c n hw
      have h1 : x.world.sched.chanJobsNotStopped ≤ w1.sched.chanJobsNotStopped :=
        exec_chan cx a hs
      exact Nat.lt_of_lt_of_le h0 h1
  | wait sel =>
    simp only [Event.exec] at he
    cases hs : StopAllWait x.world.sched x.waiter sel with
    | none => simp [hs] at he
    | some r =>
      obtain ⟨y, s1⟩ := r
      simp only [hs, Option.map, Option.some.injEq] at he
      subst he
      intro c n hw
      simp only at hw
      subst hw
      cases hx : x.waiter with
      | called =>
        rw [hx] at hs
        simp only [StopAllWait] at hs
        cases hsa : StopAll x.world.sched with
        | none => simp [hsa] at hs
        | some s2 => simp [hsa] at hs
      | stopped =>
        rw [hx] at hs
        simp only [StopAllWait] at hs
        split at hs <;> simp at hs
      | loop c0 n0 =>
        rw [hx] at hs
        simp only [StopAllWait] at hs
        by_cases hpos : c0 > 0
        · simp only [hpos, if_true] at hs
          cases sel with
          | timeout => simp at hs
          | receive => split at hs <;> simp at hs
        · simp only [hpos, if_false, Option.some.injEq, Prod.mk.injEq] at hs
          rw [← hs.2]
          exact trySend_pos _
      | woken n0 =>
        rw [hx] at hs
        simp [StopAllWait] at hs
      | returned how c0 n0 =>
        rw [hx] at hs
        simp [StopAllWait] at hs

/-- Every sequence of events keeps: a call that has returned after the loop has left a
value in the channel. -/
theorem waitAll_sent (cx : Cronexpr) (events : List Event) :
    ∀ {x x1 : Waiting},
      (∀ c n, x.waiter = .returned .drained c n → 0 < x.world.sched.chanJobsNotStopped) →
      waitAll cx x events = some x1 →
      ∀ c n, x1.waiter = .returned .drained c n → 0 < x1.world.sched.chanJobsNotStopped := by
  induction events with
  | nil =>
    intro x x1 h he
    simp only [waitAll, Option.some.injEq] at he
    subst he
    exact h
  | cons e rest ih =>
    intro x x1 h he
    cases hs : Event.exec cx x e with
    | none => simp [waitAll, hs] at he
    | some x2 =>
      simp only [waitAll, hs, Option.bind] at he
      exact ih (Event_sent cx e h hs) he

/-- C21, as the claim states it, fails: in the run `sampleTimeout` from the reachable world
`sampleIdle` the call enters the loop and returns by the timeout case with the channel
still empty, where a send would have left one value. -/
theorem timeout_return_without_send :
    Reachable sampleCron sampleIdle ∧
    (waitAll sampleCron ⟨sampleIdle, .called⟩ (sampleTimeout.take 4)).map
        (fun x => (x.waiter, x.world.sched.chanJobsNotStopped)) = some (.loop 1 0, 0) ∧
    (waitAll sampleCron ⟨sampleIdle, .called⟩ sampleTimeout).map
        (fun x => (x.waiter, x.world.sched.chanJobsNotStopped)) =
      some (.returned .timeout 1 0, 0) ∧
    trySend 0 = 1 :=
  ⟨⟨sampleSteps.take 2, by decide⟩, by decide, by decide, by decide⟩

/-- C21, amended: a call of StopAllWait performs the final non-blocking send exactly when
it leaves the loop because the value it loaded is not positive; when it returns by the
timeout case, or at once before the loop, it sends nothing and leaves the scheduler as
it is.  In every run, whatever other goroutines do in between, a call that has returned
after the loop has left a value in the channel, so that the receive case of another call
at the head of the loop is ready. -/
theorem final_send_after_loop (cx : Cronexpr) (w : World) (events : List Event) (x : Waiting)
    (h : waitAll cx ⟨w, .called⟩ events = some x) :
    (∀ (s : Scheduler) (c : Int) (n : Nat) (sel : Select), ¬ c > 0 →
      StopAllWait s (.loop c n) sel =
        some (.returned .drained c n,
          { s with chanJobsNotStopped := trySend s.chanJobsNotStopped })) ∧
    (∀ (s : Scheduler) (c : Int) (n : Nat), c > 0 →
      StopAllWait s (.loop c n) .timeout = some (.returned .timeout c n, s)) ∧
    (∀ (s : Scheduler) (sel : Select), s.jobsNotStopped < 1 →
      StopAllWait s .stopped sel = some (.returned .atOnce s.jobsNotStopped 0, s)) ∧
    (∀ (c : Int) (n : Nat), x.waiter = .returned .drained c n →
      0 < x.world.sched.chanJobsNotStopped ∧
      ∀ (c2 : Int) (n2 : Nat), c2 > 0 →
        StopAllWait x.world.sched (.loop c2 n2) .receive =
          some (.woken (n2 + 1),
            { x.world.sched with
              chanJobsNotStopped := x.world.sched.chanJobsNotStopped - 1 })) := by
  refine ⟨?_, ?_, ?_, ?_⟩
  · intro s c n sel hc
    simp [StopAllWait, hc]
  · intro s c n hc
    simp [StopAllWait, hc]
  · intro s sel hlt
    simp [StopAllWait, hlt]
  · intro c n hw
    have h0 : ∀ (c : Int) (n : Nat), (Waiting.mk w .called).waiter = .returned .drained c n →
        0 < (Waiting.mk w .called).world.sched.chanJobsNotStopped := by
      intro c n e
      cases e
    have hpos := waitAll_sent cx events h0 h c n hw
    refine ⟨hpos, ?_⟩
    intro c2 n2 hc2
    simp [StopAllWait, hc2, hpos]

/-- C21, amended, at a sample: the run `sampleWait` from `sampleIdle`, which returns after
the loop and leaves one value in the channel. -/
theorem final_send_after_loop_witness :
    waitAll sampleCron ⟨sampleIdle, .called⟩ sampleWait = some sampleDrained ∧
    0 < sampleDrained.world.sched.chanJobsNotStopped ∧
    StopAllWait sampleDrained.world.sched (.loop 1 0) .receive =
      some (.woken 1,
        { sampleDrained.world.sched with
          chanJobsNotStopped := sampleDrained.world.sched.chanJobsNotStopped - 1 }) :=
  ⟨by decide,
    ((final_send_after_loop sampleCron sampleIdle sampleWait sampleDrained (by decide)).2.2.2
      0 1 rfl).1,
    ((final_send_after_loop sampleCron sampleIdle sampleWait sampleDrained (by decide)).2.2.2
      0 1 rfl).2 1 0 (by decide)⟩

/-! ## Jobs and timers when locked sections run on pointers held from earlier lookups -/

/-- The stop step keeps the invariant on jobs and timers. -/
theorem stop_sound {s s1 : Scheduler} {p : Nat} {job : jobStruct} (hT : TimersOk s)
    (hj : s.heap[p]? = some job) (hs : stop s p = some s1) :
    TimersOk s1 ∧ RunningKept s s1 ∧
    ∃ job1, s1.heap[p]? = some job1 ∧
      (job1.state = StateStopped ∨ job1.state &&& StateStopping > 0) := by
  have hv := hT.shape p job hj
  rcases stop_cases hj (hT.usable hj) with ⟨h1, e⟩ | ⟨h2, e⟩ | ⟨t, tm, h1, h2, ht, htm, ha, e⟩ |
      ⟨t, tm, h1, h2, ht, htm, ha, e⟩
  · rw [e] at hs
    cases hs
    exact ⟨hT, RunningKept.refl _, job, hj, Or.inl h1⟩
  · rw [e] at hs
    cases hs
    have hne := running_ne_stopped _ h2
    have hrk : (job.state ||| StateStopping) &&& StateRunning > 0 := by
      rw [stopping_keeps_running]; exact h2
    refine ⟨hT.same hj rfl rfl rfl ?_ ?_ (validState_flags hv hne).1,
      running_kept_set hj rfl (fun _ => hrk),
      _, setJob_heap_self hj _, Or.inr (stopping_set _)⟩
    · exact ⟨fun e => absurd e (stopping_ne_stopped _), fun e => absurd e hne⟩
    · exact ⟨fun _ => h2, fun _ => hrk⟩
  · rw [e] at hs
    cases hs
    obtain ⟨j1, hj1⟩ : ∃ j1 : jobStruct,
        j1 = { job with timer := none, state := StateStopped } := ⟨_, rfl⟩
    obtain ⟨tm1, htm1⟩ : ∃ tm1 : Timer, tm1 = { tm with status := .stopped } := ⟨_, rfl⟩
    rw [← hj1, ← htm1]
    have hst1 : j1.state = StateStopped := by rw [hj1]
    have hh : (setJob
        { s with timers := s.timers.set t tm1,
                 jobsNotStopped := s.jobsNotStopped - 1,
                 chanJobsNotStopped := trySend s.chanJobsNotStopped } p j1).heap =
        s.heap.set p j1 := rfl
    refine ⟨hT.drop hj ht htm hh rfl ?_ (by rw [hj1]) (by rw [hst1]; exact validState_stopped)
        (Or.inl hst1),
      running_kept_set hj hh (fun e => absurd e h2),
      j1, by rw [hh]; simp [List.getElem?_set, heap_lt hj], Or.inl hst1⟩
    rw [htm1]
    simp
  · rw [e] at hs
    cases hs
    have hrk : ¬ (job.state ||| StateStopping) &&& StateRunning > 0 := by
      rw [stopping_keeps_running]; exact h2
    refine ⟨hT.same hj rfl rfl rfl ?_ ?_ (validState_flags hv h1).1,
      running_kept_set hj rfl (fun e => absurd e h2),
      _, setJob_heap_self hj _, Or.inr (stopping_set _)⟩
    · exact ⟨fun e => absurd e (stopping_ne_stopped _), fun e => absurd e h1⟩
    · exact ⟨fun e => absurd e hrk, fun e => absurd e h2⟩

/-- The locked section of Start keeps the invariant on jobs and timers. -/
theorem lockedStart_sound {s s1 : Scheduler} {p : Nat} {job : jobStruct} {e : Error}
    {now : Time} (hT : TimersOk s) (hj : s.heap[p]? = some job)
    (hs : lockedStart s p now = some (e, s1)) :
    TimersOk s1 ∧ RunningKept s s1 := by
  by_cases h1 : job.state = StateStopped
  · rw [lockedStart_stopped now hj h1] at hs
    simp only [Option.some.injEq, Prod.mk.injEq] at hs
    obtain ⟨_, hs⟩ := hs
    subst hs
    obtain ⟨j1, hj1⟩ : ∃ j1 : jobStruct,
        j1 = { job with state := StateScheduled, timer := some s.timers.length } := ⟨_, rfl⟩
    rw [← hj1]
    have hst1 : j1.state = StateScheduled := by rw [hj1]
    have hh : (setJob
        { s with jobsNotStopped := s.jobsNotStopped + 1,
                 timers := s.timers ++
                   [{ d := Sub job.nextRun now, job := p, status := .armed }] } p j1).heap =
        s.heap.set p j1 := rfl
    have hnr : ¬ job.state &&& StateRunning > 0 := by rw [h1]; decide
    exact ⟨hT.arm hj (hT.idle p job hj (Or.inl h1)) hh rfl rfl rfl (by rw [hj1])
        (by rw [hst1]; exact validState_scheduled) (by rw [hst1]; decide)
        (by rw [hst1]; decide),
      running_kept_set hj hh (fun e => absurd e hnr)⟩
  · simp only [lockedStart, hj, ne_eq, h1, not_false_eq_true, if_true, Option.some.injEq,
      Prod.mk.injEq] at hs
    obtain ⟨_, hs⟩ := hs
    subst hs
    exact ⟨hT, RunningKept.refl _⟩

/-- The step `jobDelete` keeps the invariant on jobs and timers on a job that is Stopped
or carries the Stopping flag. -/
theorem jobDelete_sound {s s1 : Scheduler} {p : Nat} {job : jobStruct} (hT : TimersOk s)
    (hj : s.heap[p]? = some job)
    (hpre : job.state = StateStopped ∨ job.state &&& StateStopping > 0)
    (hs : jobDelete s p = some s1) :
    TimersOk s1 ∧ RunningKept s s1 := by
  have hv := hT.shape p job hj
  by_cases h1 : job.state = StateStopped
  · rw [jobDelete_stopped hj h1] at hs
    cases hs
    exact ⟨hT.of_eq rfl rfl, RunningKept.refl _⟩
  · rw [jobDelete_busy hj h1] at hs
    cases hs
    have hflag : job.state &&& StateStopping > 0 := by
      rcases hpre with h | h
      · exact absurd h h1
      · exact h
    have hv1 : validState (job.state ||| StateDeleting) := by
      unfold validState at hv
      rcases hv with h | h | h | h | h | h | h <;> rw [h] at hflag ⊢ <;>
        first
        | exact absurd hflag (by decide)
        | (unfold validState; decide)
    obtain ⟨j1, hj1⟩ : ∃ j1 : jobStruct,
        j1 = { job with state := job.state ||| StateDeleting } := ⟨_, rfl⟩
    rw [← hj1]
    have hst1 : j1.state = job.state ||| StateDeleting := by rw [hj1]
    have hh : (setJob s p j1).heap = s.heap.set p j1 := rfl
    have hne1 : j1.state ≠ StateStopped := by rw [hst1]; exact deleting_ne_stopped _
    have hrk : j1.state &&& StateRunning > 0 ↔ job.state &&& StateRunning > 0 := by
      rw [hst1, deleting_keeps_running]
    exact ⟨hT.same hj hh rfl (by rw [hj1]) ⟨fun e => absurd e hne1, fun e => absurd e h1⟩ hrk
        (by rw [hst1]; exact hv1),
      running_kept_set hj hh hrk.mpr⟩

/-- The locked section of Delete keeps the invariant on jobs and timers. -/
theorem lockedDelete_sound {s s1 : Scheduler} {p : Nat} {job : jobStruct} (hT : TimersOk s)
    (hj : s.heap[p]? = some job) (hs : lockedDelete s p = some s1) :
    TimersOk s1 ∧ RunningKept s s1 := by
  simp only [lockedDelete] at hs
  cases hst : stop s p with
  | none => simp [hst] at hs
  | some s2 =>
    simp only [hst, Option.bind] at hs
    obtain ⟨hT2, hk2, job2, hj2, hflag2⟩ := stop_sound hT hj hst
    obtain ⟨hT3, hk3⟩ := jobDelete_sound hT2 hj2 hflag2 hs
    exact ⟨hT3, hk2.trans hk3⟩

/-- The locked section of UpdateNextRun keeps the invariant on jobs and timers. -/
theorem lockedUpdateNextRun_sound {s s1 : Scheduler} {p : Nat} {job : jobStruct} {e : Error}
    {nextRun now : Time} (hT : TimersOk s) (hj : s.heap[p]? = some job)
    (hs : lockedUpdateNextRun s p nextRun now = some (e, s1)) :
    TimersOk s1 ∧ RunningKept s s1 := by
  have hv := hT.shape p job hj
  by_cases h1 : job.state = StateStopped
  · rw [lockedUpdateNextRun_stopped nextRun now hj h1] at hs
    simp only [Option.some.injEq, Prod.mk.injEq] at hs
    obtain ⟨_, hs⟩ := hs
    subst hs
    obtain ⟨j1, hj1⟩ : ∃ j1 : jobStruct, j1 = { job with nextRun := nextRun } := ⟨_, rfl⟩
    rw [← hj1]
    have hst1 : j1.state = job.state := by rw [hj1]
    have hh : (setJob s p j1).heap = s.heap.set p j1 := rfl
    exact ⟨hT.same hj hh rfl (by rw [hj1]) (by rw [hst1]) (by rw [hst1])
        (by rw [hst1]; exact hv),
      running_kept_set hj hh (fun e => by rw [hst1]; exact e)⟩
  by_cases h2 : job.state &&& StateRunning > 0
  · rw [lockedUpdateNextRun_running nextRun now hj h2] at hs
    simp only [Option.some.injEq, Prod.mk.injEq] at hs
    obtain ⟨_, hs⟩ := hs
    subst hs
    exact ⟨hT, RunningKept.refl _⟩
  obtain ⟨t, tm, ht, htm, _, _⟩ := hT.pending p job hj h1 h2
  by_cases ha : tm.status = .armed
  · rw [lockedUpdateNextRun_armed nextRun now hj h1 h2 ht htm ha] at hs
    simp only [Option.some.injEq, Prod.mk.injEq] at hs
    obtain ⟨_, hs⟩ := hs
    subst hs
    obtain ⟨jm, hjm⟩ : ∃ jm : jobStruct,
        jm = { job with timer := none, state := StateStopped } := ⟨_, rfl⟩
    obtain ⟨sm, hsm⟩ : ∃ sm : Scheduler,
        sm = { s with heap := s.heap.set p jm,
                      timers := s.timers.set t { tm with status := .stopped } } := ⟨_, rfl⟩
    have hTm : TimersOk sm := by
      refine hT.drop hj ht htm (by rw [hsm]) (by rw [hsm]) ?_ (by rw [hjm])
        (by rw [hjm]; exact validState_stopped) (Or.inl (by rw [hjm]))
      simp
    have hjmp : sm.heap[p]? = some jm := by
      rw [hsm]
      simp [List.getElem?_set, heap_lt hj]
    obtain ⟨j1, hj1⟩ : ∃ j1 : jobStruct,
        j1 = { job with nextRun := nextRun, timer := some s.timers.length } := ⟨_, rfl⟩
    obtain ⟨tn, htn⟩ : ∃ tn : Timer,
        tn = { d := Sub nextRun now, job := p, status := .armed } := ⟨_, rfl⟩
    rw [← hj1, ← htn]
    have hst1 : j1.state = job.state := by rw [hj1]
    have hlen : sm.timers.length = s.timers.length := by
      rw [hsm]
      simp
    have hh0 : (setJob { s with timers := s.timers.set t { tm with status := .stopped } ++ [tn] }
        p j1).heap = s.heap.set p j1 := rfl
    have hh1 : (setJob { s with timers := s.timers.set t { tm with status := .stopped } ++ [tn] }
        p j1).heap = sm.heap.set p j1 := by
      rw [hh0, hsm]
      simp [List.set_set]
    have ht1 : (setJob { s with timers := s.timers.set t { tm with status := .stopped } ++ [tn] }
        p j1).timers = sm.timers ++ [tn] := by
      rw [hsm]
      rfl
    refine ⟨?_, ?_⟩
    · exact hTm.arm hjmp (by rw [hjm]) hh1 ht1 (by rw [htn]) (by rw [htn])
        (by rw [hj1, hlen]) (by rw [hst1]; exact hv) (by rw [hst1]; exact h1)
        (by rw [hst1]; exact h2)
    · exact running_kept_set hj hh0 (fun e => absurd e h2)
  · rw [lockedUpdateNextRun_fired nextRun now hj h1 h2 ht htm ha] at hs
    simp only [Option.some.injEq, Prod.mk.injEq] at hs
    obtain ⟨_, hs⟩ := hs
    subst hs
    exact ⟨hT, RunningKept.refl _⟩

/-- A job rewritten in fields other than the state and the timer handle. -/
theorem setJob_sound {s : Scheduler} {p : Nat} {job j1 : jobStruct} (hT : TimersOk s)
    (hj : s.heap[p]? = some job) (hst : j1.state = job.state) (htm : j1.timer = job.timer) :
    TimersOk (setJob s p j1) ∧ RunningKept s (setJob s p j1) := by
  have hh : (setJob s p j1).heap = s.heap.set p j1 := rfl
  exact ⟨hT.same hj hh rfl htm (by rw [hst]) (by rw [hst])
      (by rw [hst]; exact hT.shape p job hj),
    running_kept_set hj hh (fun e => by rw [hst]; exact e)⟩

theorem lockedUpdateCron_sound {s s1 : Scheduler} {p : Nat} {expr : Expression}
    (hT : TimersOk s) (hs : lockedUpdateCron s p expr = some s1) :
    TimersOk s1 ∧ RunningKept s s1 := by
  cases hj : s.heap[p]? with
  | none => simp [lockedUpdateCron, hj] at hs
  | some job =>
    simp only [lockedUpdateCron, hj, Option.some.injEq] at hs
    subst hs
    exact setJob_sound hT hj rfl rfl

theorem lockedUpdateFunction_sound {s s1 : Scheduler} {p : Nat} {function : Func}
    {data : Data} (hT : TimersOk s) (hs : lockedUpdateFunction s p function data = some s1) :
    TimersOk s1 ∧ RunningKept s s1 := by
  cases hj : s.heap[p]? with
  | none => simp [lockedUpdateFunction, hj] at hs
  | some job =>
    simp only [lockedUpdateFunction, hj, Option.some.injEq] at hs
    subst hs
    exact setJob_sound hT hj rfl rfl

/-- Make keeps the invariant on jobs and timers. -/
theorem Make_sound (cx : Cronexpr) {s : Scheduler} (name cron : String) (function : Func)
    (data : Data) (now : Time) (hT : TimersOk s) :
    TimersOk (Make cx s name cron function data now).2 ∧
    RunningKept s (Make cx s name cron function data now).2 := by
  cases hp : cx.Parse cron with
  | error err =>
    have e : (Make cx s name cron function data now).2 = s := by simp [Make, hp]
    rw [e]
    exact ⟨hT, RunningKept.refl _⟩
  | ok expr =>
    cases hl : mapLookup s.jobs name with
    | some q =>
      have e : (Make cx s name cron function data now).2 = s := by simp [Make, hp, hl]
      rw [e]
      exact ⟨hT, RunningKept.refl _⟩
    | none =>
      obtain ⟨jn, hjn⟩ : ∃ jn : jobStruct,
          jn = { name := name, cronExpression := expr, function := function, data := data,
                 state := StateStopped, nextRun := cx.Next expr now, timer := none } :=
        ⟨_, rfl⟩
      have e : (Make cx s name cron function data now).2 =
          { s with heap := s.heap ++ [jn], jobs := (name, s.heap.length) :: s.jobs } := by
        rw [hjn]
        simp [Make, hp, hl, mapInsert, mapDelete_absent _ _ hl]
      rw [e]
      refine ⟨hT.make rfl rfl (by rw [hjn]) (by rw [hjn]), ?_⟩
      intro q jq hq hr
      exact ⟨jq, by
        show (s.heap ++ [jn])[q]? = some jq
        rw [List.getElem?_append_left (heap_lt hq)]
        exact hq, hr⟩

/-- The expiry of a timer keeps the invariant on jobs and timers. -/
theorem timerFire_sound {s : Scheduler} (t : Nat) (hT : TimersOk s) :
    TimersOk (timerFire s t) ∧ RunningKept s (timerFire s t) := by
  cases htm : s.timers[t]? with
  | none =>
    have e : timerFire s t = s := by simp [timerFire, htm]
    rw [e]
    exact ⟨hT, RunningKept.refl _⟩
  | some tm =>
    by_cases ha : tm.status = .armed
    · have e : timerFire s t =
          { s with timers := s.timers.set t { tm with status := .fired } } := by
        simp [timerFire, htm, ha]
      rw [e]
      refine ⟨hT.status htm rfl rfl rfl ?_, running_kept_eq rfl⟩
      simp [ha]
    · have e : timerFire s t = s := by simp [timerFire, htm, ha]
      rw [e]
      exact ⟨hT, RunningKept.refl _⟩

/-- The loop of StopAll keeps the invariant on jobs and timers. -/
theorem stopEach_sound (entries : List (String × Nat)) :
    ∀ {s s1 : Scheduler}, TimersOk s → stopEach s entries = some s1 →
      TimersOk s1 ∧ RunningKept s s1 := by
  induction entries with
  | nil =>
    intro s s1 hT hs
    simp only [stopEach, Option.some.injEq] at hs
    subst hs
    exact ⟨hT, RunningKept.refl _⟩
  | cons kv rest ih =>
    intro s s1 hT hs
    obtain ⟨n, p⟩ := kv
    cases hst : stop s p with
    | none => simp [stopEach, hst] at hs
    | some s2 =>
      simp only [stopEach, hst, Option.bind] at hs
      cases hj : s.heap[p]? with
      | none => simp [stop, hj] at hst
      | some job =>
        obtain ⟨hT2, hk2, _⟩ := stop_sound hT hj hst
        obtain ⟨hT3, hk3⟩ := ih hT2 hs
        exact ⟨hT3, hk2.trans hk3⟩

/-- The goroutine of a fired timer, in its first locked section, keeps the invariant on
jobs and timers; it touches only the timer's job, which was not Running, and leaves it
Running when it goes on to the callback. -/
theorem timerRun_sound (cx : Cronexpr) {s s1 : Scheduler} {t : Nat} {tm : Timer} {b : Bool}
    {now : Time} (hT : TimersOk s) (htm : s.timers[t]? = some tm)
    (hf : tm.status = .fired) (hs : timerRun cx s t now = some (b, s1)) :
    TimersOk s1 ∧
    (∃ job, s.heap[tm.job]? = some job ∧ ¬ job.state &&& StateRunning > 0) ∧
    (∀ q, q ≠ tm.job → s1.heap[q]? = s.heap[q]?) ∧
    (b = true → ∃ job1, s1.heap[tm.job]? = some job1 ∧ job1.state &&& StateRunning > 0) := by
  obtain ⟨job, hj, hhandle⟩ := hT.owner t tm htm (Or.inr hf)
  obtain ⟨hns, hnr⟩ := hT.holder hj hhandle
  obtain ⟨p, hp⟩ : ∃ p : Nat, p = tm.job := ⟨_, rfl⟩
  rw [← hp] at hj ⊢
  obtain ⟨tm1, htm1⟩ : ∃ tm1 : Timer, tm1 = { tm with status := .ran } := ⟨_, rfl⟩
  obtain ⟨s0, hs0⟩ : ∃ s0 : Scheduler, s0 = { s with timers := s.timers.set t tm1 } :=
    ⟨_, rfl⟩
  have hrun : timerRun cx s t now = runBegin cx s0 p now := by
    rw [hs0, htm1, hp]
    simp [timerRun, htm, hf]
  rw [hrun] at hs
  have hj0 : s0.heap[p]? = some job := by rw [hs0]; exact hj
  have hno : ¬ (tm1.status = .armed ∨ tm1.status = .fired) := by
    rw [htm1]
    simp
  obtain ⟨jn, hjn⟩ : ∃ jn : jobStruct, jn = { job with timer := none } := ⟨_, rfl⟩
  by_cases hfl : job.state &&& StateDeleting > 0 ∨ job.state &&& StateStopping > 0
  · rw [runBegin_flagged cx now hj0 hfl, ← hjn] at hs
    simp only [Option.some.injEq, Prod.mk.injEq] at hs
    obtain ⟨hb, hs⟩ := hs
    subst hs
    obtain ⟨j8, hj8⟩ : ∃ j8 : jobStruct, j8 = { jn with state := StateStopped } := ⟨_, rfl⟩
    have hh : (stoppedBy (setJob s0 p jn) p jn).heap = s.heap.set p j8 := by
      rw [hs0, hj8]
      simp [stoppedBy, setJob, List.set_set]
    have ht : (stoppedBy (setJob s0 p jn) p jn).timers = s.timers.set t tm1 := by
      rw [hs0]
      rfl
    refine ⟨hT.drop hj hhandle htm hh ht hno (by rw [hj8, hjn])
        (by rw [hj8]; exact validState_stopped) (Or.inl (by rw [hj8])),
      ⟨job, hj, hnr⟩, ?_, ?_⟩
    · intro q hq
      rw [hh]
      simp [List.getElem?_set, Ne.symm hq]
    · intro e
      rw [← hb] at e
      cases e
  · have hd : ¬ job.state &&& StateDeleting > 0 := fun e => hfl (Or.inl e)
    have hst : ¬ job.state &&& StateStopping > 0 := fun e => hfl (Or.inr e)
    rw [runBegin_clear cx now hj0 hd hst] at hs
    simp only [Option.some.injEq, Prod.mk.injEq] at hs
    obtain ⟨_, hs⟩ := hs
    subst hs
    obtain ⟨jr, hjr⟩ : ∃ jr : jobStruct,
        jr = { job with timer := none, state := StateRunning,
                        nextRun := cx.Next job.cronExpression now } := ⟨_, rfl⟩
    rw [← hjr]
    have hstr : jr.state = StateRunning := by rw [hjr]
    have hrr : jr.state &&& StateRunning > 0 := by rw [hstr]; decide
    have hh : (setJob s0 p jr).heap = s.heap.set p jr := by
      rw [hs0]
      rfl
    have ht : (setJob s0 p jr).timers = s.timers.set t tm1 := by
      rw [hs0]
      rfl
    refine ⟨hT.drop hj hhandle htm hh ht hno (by rw [hjr])
        (by rw [hstr]; exact validState_running) (Or.inr hrr),
      ⟨job, hj, hnr⟩, ?_, fun _ => ⟨jr, setJob_heap_self hj0 _, hrr⟩⟩
    intro q hq
    rw [hh]
    simp [List.getElem?_set, Ne.symm hq]

/-- The second locked section of `run`, on a job that is Running, keeps the invariant on
jobs and timers and touches only that job. -/
theorem runEnd_sound {s s1 : Scheduler} {p : Nat} {job : jobStruct} {now : Time}
    (hT : TimersOk s) (hj : s.heap[p]? = some job)
    (hr : job.state &&& StateRunning > 0) (hs : runEnd s p now = some s1) :
    TimersOk s1 ∧ (∀ q, q ≠ p → s1.heap[q]? = s.heap[q]?) := by
  have hne := running_ne_stopped _ hr
  have hnone := hT.idle p job hj (Or.inr hr)
  by_cases hfl : job.state &&& StateDeleting > 0 ∨ job.state &&& StateStopping > 0
  · rw [runEnd_flagged now hj hfl] at hs
    cases hs
    obtain ⟨j8, hj8⟩ : ∃ j8 : jobStruct, j8 = { job with state := StateStopped } := ⟨_, rfl⟩
    have hh : (stoppedBy s p job).heap = s.heap.set p j8 := by rw [hj8]; rfl
    refine ⟨hT.quiet hj hnone hh rfl (by rw [hj8]; exact hnone)
        (by rw [hj8]; exact validState_stopped) (Or.inl (by rw [hj8])), ?_⟩
    intro q hq
    rw [hh]
    simp [List.getElem?_set, Ne.symm hq]
  · have hd : ¬ job.state &&& StateDeleting > 0 := fun e => hfl (Or.inl e)
    have hst : ¬ job.state &&& StateStopping > 0 := fun e => hfl (Or.inr e)
    rw [runEnd_clear now hj hd hst] at hs
    cases hs
    obtain ⟨j1, hj1⟩ : ∃ j1 : jobStruct,
        j1 = { job with state := StateScheduled, timer := some s.timers.length } := ⟨_, rfl⟩
    obtain ⟨tn, htn⟩ : ∃ tn : Timer,
        tn = { d := Sub job.nextRun now, job := p, status := .armed } := ⟨_, rfl⟩
    rw [← hj1, ← htn]
    have hst1 : j1.state = StateScheduled := by rw [hj1]
    have hne1 : j1.state ≠ StateStopped := by rw [hst1]; decide
    have hh : (setJob { s with timers := s.timers ++ [tn] } p j1).heap = s.heap.set p j1 := rfl
    refine ⟨hT.arm hj hnone hh rfl (by rw [htn]) (by rw [htn]) (by rw [hj1])
        (by rw [hst1]; exact validState_scheduled) hne1 (by rw [hst1]; decide), ?_⟩
    intro q hq
    rw [hh]
    simp [List.getElem?_set, Ne.symm hq]

theorem Sound_NewWorld : Sound NewWorld := by
  refine ⟨⟨?_, ?_, ?_, ?_⟩, ⟨?_, ?_⟩⟩ <;> simp [NewWorld, NewScheduler]

/-- A step that leaves the goroutines alone and keeps Running jobs Running. -/
theorem Sound_of_sched {w : World} {s1 : Scheduler} (h : Sound w)
    (hs : TimersOk s1 ∧ RunningKept w.sched s1) : Sound { w with sched := s1 } :=
  ⟨hs.1, h.2.frame rfl hs.2⟩

/-- Every step of the transition system keeps the invariant on jobs, timers and
goroutines, whatever the registry holds. -/
theorem exec_sound (cx : Cronexpr) {w w1 : World} (a : Step) (h : Sound w)
    (he : Step.exec cx w a = some w1) : Sound w1 := by
  obtain ⟨hT, hG⟩ := h
  have hI : Sound w := ⟨hT, hG⟩
  cases a with
  | Make name cron function data now =>
    simp only [Step.exec, Option.some.injEq] at he
    subst he
    exact Sound_of_sched hI (Make_sound cx name cron function data now hT)
  | Start name now =>
    simp only [Step.exec, Start] at he
    cases hl : mapLookup w.sched.jobs name with
    | none =>
      simp only [hl, Option.map, Option.some.injEq] at he
      subst he
      exact hI
    | some p =>
      simp only [hl] at he
      cases hs : lockedStart w.sched p now with
      | none => simp [hs] at he
      | some r =>
        obtain ⟨e, s1⟩ := r
        simp only [hs, Option.map, Option.some.injEq] at he
        subst he
        cases hj : w.sched.heap[p]? with
        | none => simp [lockedStart, hj] at hs
        | some job => exact Sound_of_sched hI (lockedStart_sound hT hj hs)
  | Stop name =>
    simp only [Step.exec, Stop] at he
    cases hl : mapLookup w.sched.jobs name with
    | none =>
      simp only [hl, Option.map, Option.some.injEq] at he
      subst he
      exact hI
    | some p =>
      simp only [hl] at he
      cases hs : stop w.sched p with
      | none => simp [hs] at he
      | some s1 =>
        simp only [hs, Option.map, Option.some.injEq] at he
        subst he
        cases hj : w.sched.heap[p]? with
        | none => simp [stop, hj] at hs
        | some job =>
          obtain ⟨h1, h2, _⟩ := stop_sound hT hj hs
          exact Sound_of_sched hI ⟨h1, h2⟩
  | Delete name =>
    simp only [Step.exec, Delete] at he
    cases hl : mapLookup w.sched.jobs name with
    | none =>
      simp only [hl, Option.map, Option.some.injEq] at he
      subst he
      exact hI
    | some p =>
      simp only [hl] at he
      cases hs : lockedDelete w.sched p with
      | none => simp [hs] at he
      | some s1 =>
        simp only [hs, Option.map, Option.some.injEq] at he
        subst he
        cases hj : w.sched.heap[p]? with
        | none => simp [lockedDelete, stop, hj] at hs
        | some job => exact Sound_of_sched hI (lockedDelete_sound hT hj hs)
  | UpdateCron name cron =>
    simp only [Step.exec, UpdateCron] at he
    cases hl : mapLookup w.sched.jobs name with
    | none =>
      simp only [hl, Option.map, Option.some.injEq] at he
      subst he
      exact hI
    | some p =>
      simp only [hl] at he
      cases hp : cx.Parse cron with
      | error err =>
        simp only [hp, Option.map, Option.some.injEq] at he
        subst he
        exact hI
      | ok expr =>
        simp only [hp] at he
        cases hs : lockedUpdateCron w.sched p expr with
        | none => simp [hs] at he
        | some s1 =>
          simp only [hs, Option.map, Option.some.injEq] at he
          subst he
          exact Sound_of_sched hI (lockedUpdateCron_sound hT hs)
  | UpdateNextRun name nextRun now =>
    simp only [Step.exec, UpdateNextRun] at he
    cases hl : mapLookup w.sched.jobs name with
    | none =>
      simp only [hl, Option.map, Option.some.injEq] at he
      subst he
      exact hI
    | some p =>
      simp only [hl] at he
      cases hs : lockedUpdateNextRun w.sched p nextRun now with
      | none => simp [hs] at he
      | some r =>
        obtain ⟨e, s1⟩ := r
        simp only [hs, Option.map, Option.some.injEq] at he
        subst he
        cases hj : w.sched.heap[p]? with
        | none => simp [lockedUpdateNextRun, hj] at hs
        | some job => exact Sound_of_sched hI (lockedUpdateNextRun_sound hT hj hs)
  | UpdateFunction name function data =>
    simp only [Step.exec, UpdateFunction] at he
    cases hl : mapLookup w.sched.jobs name with
    | none =>
      simp only [hl, Option.map, Option.some.injEq] at he
      subst he
      exact hI
    | some p =>
      simp only [hl] at he
      cases hs : lockedUpdateFunction w.sched p function data with
      | none => simp [hs] at he
      | some s1 =>
        simp only [hs, Option.map, Option.some.injEq] at he
        subst he
        exact Sound_of_sched hI (lockedUpdateFunction_sound hT hs)
  | StopAll =>
    simp only [Step.exec, StopAll] at he
    cases hs : stopEach w.sched w.sched.jobs with
    | none => simp [hs] at he
    | some s1 =>
      simp only [hs, Option.map, Option.some.injEq] at he
      subst he
      exact Sound_of_sched hI (stopEach_sound w.sched.jobs hT hs)
  | fire t =>
    simp only [Step.exec, Option.some.injEq] at he
    subst he
    exact Sound_of_sched hI (timerFire_sound t hT)
  | runBegin t now =>
    simp only [Step.exec] at he
    cases htm : w.sched.timers[t]? with
    | none => simp [htm] at he
    | some tm =>
      simp only [htm] at he
      by_cases hf : tm.status = .fired
      · simp only [hf, if_true] at he
        cases hs : timerRun cx w.sched t now with
        | none => simp [hs] at he
        | some r =>
          obtain ⟨b, s1⟩ := r
          simp only [hs, Option.map, Option.some.injEq] at he
          subst he
          obtain ⟨hT1, ⟨job, hj, hnr⟩, hfr, hrun⟩ := timerRun_sound cx hT htm hf hs
          have hother : ∀ r ∈ w.runs, r.1 ≠ tm.job := by
            intro r hr e
            obtain ⟨jr, hjr, hrr⟩ := hG.running r hr
            rw [e, hj] at hjr
            cases hjr
            exact hnr hrr
          have hkeep : ∀ r ∈ w.runs,
              ∃ jr, s1.heap[r.1]? = some jr ∧ jr.state &&& StateRunning > 0 := by
            intro r hr
            obtain ⟨jr, hjr, hrr⟩ := hG.running r hr
            exact ⟨jr, by rw [hfr _ (hother r hr)]; exact hjr, hrr⟩
          refine ⟨hT1, ?_⟩
          cases b with
          | false => exact ⟨hkeep, hG.once⟩
          | true =>
            constructor
            · intro r hr
              rcases List.mem_cons.mp hr with e | e
              · subst e
                exact hrun rfl
              · exact hkeep r e
            · show ((tm.job, Phase.toCall) :: w.runs).map Prod.fst |>.Nodup
              simp only [List.map_cons, List.nodup_cons]
              refine ⟨?_, hG.once⟩
              intro hm
              obtain ⟨r, hr, e⟩ := List.mem_map.mp hm
              exact hother r hr e
      · simp [hf] at he
  | runCall p =>
    simp only [Step.exec] at he
    by_cases hm : (p, Phase.toCall) ∈ w.runs
    · simp only [hm, if_true] at he
      cases hj : w.sched.heap[p]? with
      | none => simp [runCall, hj] at he
      | some job =>
        simp only [runCall, hj, Option.map, Option.some.injEq] at he
        subst he
        refine ⟨hT.of_eq rfl rfl, ?_, runs_swap_nodup hG.once hm⟩
        intro r hr
        rcases List.mem_cons.mp hr with e | e
        · subst e
          exact hG.running (p, Phase.toCall) hm
        · exact hG.running r (List.mem_of_mem_erase e)
    · simp [hm] at he
  | runEnd p now =>
    simp only [Step.exec] at he
    by_cases hm : (p, Phase.toEnd) ∈ w.runs
    · simp only [hm, if_true] at he
      cases hs : runEnd w.sched p now with
      | none => simp [hs] at he
      | some s1 =>
        simp only [hs, Option.map, Option.some.injEq] at he
        subst he
        obtain ⟨job, hj, hr⟩ := hG.running _ hm
        obtain ⟨hT1, hfr⟩ := runEnd_sound hT hj hr hs
        have hl : w.runs.Nodup := List.Nodup.of_map _ hG.once
        refine ⟨hT1, ?_, hG.once.sublist ((List.erase_sublist _ _).map Prod.fst)⟩
        intro r hmem
        have hr2 := (List.Nodup.mem_erase_iff hl).mp hmem
        have hne : r.1 ≠ p := by
          intro e
          obtain ⟨r1, r2⟩ := r
          simp only at e
          subst e
          have := key_unique hG.once hr2.2 hm
          subst this
          exact hr2.1 rfl
        obtain ⟨jr, hjr, hrr⟩ := hG.running r hr2.2
        exact ⟨jr, by rw [hfr _ hne]; exact hjr, hrr⟩
    · simp [hm] at he

/-- Every step on a held job pointer keeps the invariant on jobs and timers. -/
theorem held_sound (cx : Cronexpr) {s s1 : Scheduler} (a : Meanwhile) (hT : TimersOk s)
    (he : Meanwhile.exec cx s a = some s1) : TimersOk s1 ∧ RunningKept s s1 := by
  cases a with
  | make name cron function data now =>
    simp only [Meanwhile.exec, Option.some.injEq] at he
    subst he
    exact Make_sound cx name cron function data now hT
  | start p now =>
    simp only [Meanwhile.exec] at he
    cases hs : lockedStart s p now with
    | none => simp [hs] at he
    | some r =>
      obtain ⟨e, s2⟩ := r
      simp only [hs, Option.map, Option.some.injEq] at he
      subst he
      cases hj : s.heap[p]? with
      | none => simp [lockedStart, hj] at hs
      | some job => exact lockedStart_sound hT hj hs
  | stop p =>
    simp only [Meanwhile.exec] at he
    cases hj : s.heap[p]? with
    | none => simp [stop, hj] at he
    | some job =>
      obtain ⟨h1, h2, _⟩ := stop_sound hT hj he
      exact ⟨h1, h2⟩
  | delete p =>
    simp only [Meanwhile.exec] at he
    cases hj : s.heap[p]? with
    | none => simp [lockedDelete, stop, hj] at he
    | some job => exact lockedDelete_sound hT hj he
  | updateCron p cronExpression =>
    simp only [Meanwhile.exec] at he
    exact lockedUpdateCron_sound hT he
  | updateNextRun p nextRun now =>
    simp only [Meanwhile.exec] at he
    cases hs : lockedUpdateNextRun s p nextRun now with
    | none => simp [hs] at he
    | some r =>
      obtain ⟨e, s2⟩ := r
      simp only [hs, Option.map, Option.some.injEq] at he
      subst he
      cases hj : s.heap[p]? with
      | none => simp [lockedUpdateNextRun, hj] at hs
      | some job => exact lockedUpdateNextRun_sound hT hj hs
  | updateFunction p function data =>
    simp only [Meanwhile.exec] at he
    exact lockedUpdateFunction_sound hT he
  | fire t =>
    simp only [Meanwhile.exec, Option.some.injEq] at he
    subst he
    exact timerFire_sound t hT

/-- Every move keeps the invariant on jobs, timers and goroutines. -/
theorem Move_sound (cx : Cronexpr) {w w1 : World} (m : Move) (h : Sound w)
    (he : Move.exec cx w m = some w1) : Sound w1 := by
  cases m with
  | call a => exact exec_sound cx a h he
  | held a =>
    simp only [Move.exec] at he
    cases hs : Meanwhile.exec cx w.sched a with
    | none => simp [hs] at he
    | some s1 =>
      simp only [hs, Option.map, Option.some.injEq] at he
      subst he
      exact Sound_of_sched h (held_sound cx a h.1 hs)

/-- Every sequence of moves keeps the invariant on jobs, timers and goroutines. -/
theorem moveAll_sound (cx : Cronexpr) (moves : List Move) :
    ∀ {w w1 : World}, Sound w → moveAll cx w moves = some w1 → Sound w1 := by
  induction moves with
  | nil =>
    intro w w1 h he
    simp only [moveAll, Option.some.injEq] at he
    subst he
    exact h
  | cons m rest ih =>
    intro w w1 h he
    cases hs : Move.exec cx w m with
    | none => simp [moveAll, hs] at he
    | some w2 =>
      simp only [moveAll, hs, Option.bind] at he
      exact ih (Move_sound cx m h hs) he

theorem Attainable_sound (cx : Cronexpr) {w : World} (h : Attainable cx w) : Sound w := by
  obtain ⟨moves, he⟩ := h
  exact moveAll_sound cx moves Sound_NewWorld he

/-- The steps of the transition system are moves. -/
theorem moveAll_calls (cx : Cronexpr) (steps : List Step) :
    ∀ w : World, moveAll cx w (steps.map Move.call) = execAll cx w steps := by
  induction steps with
  | nil => intro w; rfl
  | cons a rest ih =>
    intro w
    simp only [List.map_cons, moveAll, execAll, Move.exec]
    cases Step.exec cx w a with
    | none => rfl
    | some w1 => exact ih w1

/-- Every reachable world is attainable. -/
theorem Reachable_attainable (cx : Cronexpr) {w : World} (h : Reachable cx w) :
    Attainable cx w := by
  obtain ⟨steps, he⟩ := h
  exact ⟨steps.map Move.call, by rw [moveAll_calls]; exact he⟩

theorem sampleHeld_attainable : Attainable sampleCron sampleHeld :=
  ⟨sampleMoves, by decide⟩

/-- The registry does not tell the attainable worlds: in `sampleHeld` a job is Scheduled
and not registered, which no reachable world shows. -/
theorem sampleHeld_not_reachable : ¬ Reachable sampleCron sampleHeld := by
  intro h
  have hR := (Reachable_inv sampleCron h).2.1
  have hm := hR.registered 0 _ (by rfl : sampleHeld.sched.heap[0]? = some _) (by decide)
  revert hm
  decide

/-! ## The state of a job is well formed -/

/-- The values of a valid state, flag by flag. -/
theorem validState_bits {st : State} (h : validState st) :
    ((st &&& StateScheduled > 0 ∧ ¬ st &&& StateRunning > 0 ∧ ¬ st &&& StateStopped > 0) ∨
      (¬ st &&& StateScheduled > 0 ∧ st &&& StateRunning > 0 ∧ ¬ st &&& StateStopped > 0) ∨
      (¬ st &&& StateScheduled > 0 ∧ ¬ st &&& StateRunning > 0 ∧ st &&& StateStopped > 0)) ∧
    (st &&& StateStopped > 0 → st = StateStopped) ∧
    (st &&& StateDeleting > 0 → st &&& StateStopping > 0) := by
  unfold validState at h
  rcases h with h | h | h | h | h | h | h <;> subst h <;> decide

/-- C22: in every world that moves lead to from NewScheduler (calls by name executed to
their end, locked sections on job pointers held from earlier lookups, timer expiries
and the parts of `run`), the state of every job is Stopped, or Scheduled or Running with
no flag, with Stopping, or with Stopping and Deleting: it has exactly one of the base
flags Scheduled, Running, Stopped; the Stopped flag comes with no other flag; the
Deleting flag comes only with the Stopping flag; a job whose state is not Stopped and
lacks the Running flag holds the handle of a timer made for it that is armed or has
fired; and so the stop step, the locked section of Delete and the locked section of
UpdateNextRun on the job return, with no nil timer dereferenced. -/
theorem state_well_formed (cx : Cronexpr) (w : World) (h : Attainable cx w) (p : Nat)
    (job : jobStruct) (hj : w.sched.heap[p]? = some job) :
    validState job.state ∧
    ((job.state &&& StateScheduled > 0 ∧ ¬ job.state &&& StateRunning > 0 ∧
        ¬ job.state &&& StateStopped > 0) ∨
      (¬ job.state &&& StateScheduled > 0 ∧ job.state &&& StateRunning > 0 ∧
        ¬ job.state &&& StateStopped > 0) ∨
      (¬ job.state &&& StateScheduled > 0 ∧ ¬ job.state &&& StateRunning > 0 ∧
        job.state &&& StateStopped > 0)) ∧
    (job.state &&& StateStopped > 0 → job.state = StateStopped) ∧
    (job.state &&& StateDeleting > 0 → job.state &&& StateStopping > 0) ∧
    (job.state ≠ StateStopped → ¬ job.state &&& StateRunning > 0 →
      ∃ t tm, job.timer = some t ∧ w.sched.timers[t]? = some tm ∧ tm.job = p ∧
        (tm.status = .armed ∨ tm.status = .fired)) ∧
    (∃ s1, stop w.sched p = some s1) ∧
    (∃ s1, lockedDelete w.sched p = some s1) ∧
    (∀ (nextRun now : Time), ∃ r, lockedUpdateNextRun w.sched p nextRun now = some r) ∧
    (∀ (m : Move) (w1 : World), Move.exec cx w m = some w1 →
      ∀ (q : Nat) (jq : jobStruct), w1.sched.heap[q]? = some jq →
        validState jq.state ∧
        (jq.state ≠ StateStopped → ¬ jq.state &&& StateRunning > 0 → jq.timer ≠ none)) := by
  have hS := Attainable_sound cx h
  have hT := hS.1
  have hv := hT.shape p job hj
  obtain ⟨hb1, hb2, hb3⟩ := validState_bits hv
  have hstop : ∃ s1, stop w.sched p = some s1 := by
    rcases stop_cases hj (hT.usable hj) with ⟨_, e⟩ | ⟨_, e⟩ | ⟨_, _, _, _, _, _, _, e⟩ |
        ⟨_, _, _, _, _, _, _, e⟩ <;> exact ⟨_, e⟩
  refine ⟨hv, hb1, hb2, hb3, hT.pending p job hj, hstop, ?_, ?_, ?_⟩
  · obtain ⟨s1, hs1⟩ := hstop
    obtain ⟨_, _, job1, hj1, _⟩ := stop_sound hT hj hs1
    have hd : lockedDelete w.sched p = jobDelete s1 p := by simp [lockedDelete, hs1]
    rw [hd]
    by_cases h1 : job1.state = StateStopped
    · exact ⟨_, jobDelete_stopped hj1 h1⟩
    · exact ⟨_, jobDelete_busy hj1 h1⟩
  · intro nextRun now
    by_cases h1 : job.state = StateStopped
    · exact ⟨_, lockedUpdateNextRun_stopped nextRun now hj h1⟩
    by_cases h2 : job.state &&& StateRunning > 0
    · exact ⟨_, lockedUpdateNextRun_running nextRun now hj h2⟩
    obtain ⟨t, tm, ht, htm, _, _⟩ := hT.pending p job hj h1 h2
    by_cases ha : tm.status = .armed
    · exact ⟨_, lockedUpdateNextRun_armed nextRun now hj h1 h2 ht htm ha⟩
    · exact ⟨_, lockedUpdateNextRun_fired nextRun now hj h1 h2 ht htm ha⟩
  · intro m w1 he q jq hq
    have hT1 := (Move_sound cx m hS he).1
    refine ⟨hT1.shape q jq hq, ?_⟩
    intro h1 h2 e
    obtain ⟨t, tm, ht, _⟩ := hT1.pending q jq hq h1 h2
    rw [e] at ht
    cases ht

/-- C22 at a sample: the job that `sampleMoves` leave Scheduled|Stopping|Deleting and not
registered, holding the handle of its fired timer. -/
theorem state_well_formed_witness :
    Attainable sampleCron sampleHeld ∧
    (∃ job, sampleHeld.sched.heap[0]? = some job ∧
      job.state = StateScheduled ||| StateStopping ||| StateDeleting ∧
      validState job.state ∧
      (job.state &&& StateDeleting > 0 → job.state &&& StateStopping > 0) ∧
      (job.state ≠ StateStopped → ¬ job.state &&& StateRunning > 0 →
        ∃ t tm, job.timer = some t ∧ sampleHeld.sched.timers[t]? = some tm ∧ tm.job = 0 ∧
          (tm.status = .armed ∨ tm.status = .fired))) ∧
    (∃ s1, stop sampleHeld.sched 0 = some s1) :=
  ⟨sampleHeld_attainable,
    ⟨_, rfl, rfl,
      (state_well_formed sampleCron sampleHeld sampleHeld_attainable 0 _ rfl).1,
      (state_well_formed sampleCron sampleHeld sampleHeld_attainable 0 _ rfl).2.2.2.1,
      (state_well_formed sampleCron sampleHeld sampleHeld_attainable 0 _ rfl).2.2.2.2.1⟩,
    (state_well_formed sampleCron sampleHeld sampleHeld_attainable 0 _ rfl).2.2.2.2.2.1⟩

/-! ## A job that lost its registry entry -/

theorem sampleOrphan_attainable : Attainable sampleCron sampleOrphan :=
  ⟨orphanMoves, by decide⟩

/-- C15 fails on the code: after `orphanMoves` (a Delete that holds a pointer looked up
before another Delete, Make and Start of the same name) the registry holds no job, so
the number of registered jobs that are not Stopped is 0, while the counter is 1: job 1 is
Scheduled with its timer armed, counted, and not registered. -/
theorem counter_counts_unregistered_job :
    moveAll sampleCron NewWorld orphanMoves = some sampleOrphan ∧
    sampleOrphan.sched.jobs = [] ∧
    ((sampleOrphan.sched.jobs.filter fun kv =>
      notStoppedAt sampleOrphan.sched kv.2).length : Int) = 0 ∧
    sampleOrphan.sched.jobsNotStopped = 1 ∧
    sampleOrphan.sched.jobsNotStopped ≠
      ((sampleOrphan.sched.jobs.filter fun kv =>
        notStoppedAt sampleOrphan.sched kv.2).length : Int) ∧
    (sampleOrphan.sched.heap[0]?).map (fun j => j.state) = some StateStopped ∧
    (sampleOrphan.sched.heap[1]?).map (fun j => (j.state, j.timer)) =
      some (StateScheduled, some 0) ∧
    (sampleOrphan.sched.timers[0]?).map (fun tm => (tm.job, tm.status)) =
      some (1, TimerStatus.armed) :=
  ⟨by decide, by decide, by decide, by decide, by decide, by decide, by decide, by decide⟩

/-- C13 fails on the code: in the world after `orphanMoves` every started job is idle
(job 1 is Scheduled with its timer armed, job 0 is Stopped), yet StopAll, which walks the
registry, reaches no job; the call loads the counter 1 and enters the loop with the
channel empty, so that its receive case is not ready and it returns only by the timeout,
with the counter at 1 and job 1 still Scheduled, or Running when the timer of job 1 has
expired in between. -/
theorem StopAllWait_misses_unregistered_job :
    moveAll sampleCron NewWorld orphanMoves = some sampleOrphan ∧
    Idle sampleOrphan.sched 0 ∧ Idle sampleOrphan.sched 1 ∧
    StopAll sampleOrphan.sched = some sampleOrphan.sched ∧
    (∀ sel1 sel2, waitAll sampleCron ⟨sampleOrphan, .called⟩ [.wait sel1, .wait sel2] =
      some ⟨sampleOrphan, .loop 1 0⟩) ∧
    StopAllWait sampleOrphan.sched (.loop 1 0) .receive = none ∧
    StopAllWait sampleOrphan.sched (.loop 1 0) .timeout =
      some (.returned .timeout 1 0, sampleOrphan.sched) ∧
    (waitAll sampleCron ⟨sampleOrphan, .called⟩
        [.wait .receive, .wait .receive, .wait .timeout]).map
        (fun x => (x.waiter, x.world.sched.jobsNotStopped,
          (x.world.sched.heap[1]?).map fun j => j.state)) =
      some (.returned .timeout 1 0, 1, some StateScheduled) ∧
    (waitAll sampleCron ⟨sampleOrphan, .called⟩
        [.wait .receive, .wait .receive, .other (.fire 0), .other (.runBegin 0 20),
          .wait .timeout]).map
        (fun x => (x.waiter, x.world.sched.jobsNotStopped,
          (x.world.sched.heap[1]?).map fun j => j.state)) =
      some (.returned .timeout 1 0, 1, some StateRunning) :=
  ⟨by decide, ⟨_, rfl, Or.inl rfl⟩, ⟨_, rfl, Or.inr ⟨rfl, 0, _, rfl, rfl, rfl, rfl⟩⟩,
    by decide, by intro sel1 sel2; cases sel1 <;> cases sel2 <;> decide, by decide, by decide,
    by decide, by decide⟩

/-! ## Timer handles, one timer a job, and invocations with held pointers -/

/-- No step on a held job pointer invokes a callback or starts a goroutine of `run`. -/
theorem held_quiet (cx : Cronexpr) {s s1 : Scheduler} (a : Meanwhile)
    (he : Meanwhile.exec cx s a = some s1) : Quiet s s1 := by
  cases a with
  | make name cron function data now =>
    simp only [Meanwhile.exec, Option.some.injEq] at he
    subst he
    exact Make_quiet cx s name cron function data now
  | start p now =>
    simp only [Meanwhile.exec] at he
    cases hs : lockedStart s p now with
    | none => simp [hs] at he
    | some r =>
      obtain ⟨e, s2⟩ := r
      simp only [hs, Option.map, Option.some.injEq] at he
      subst he
      exact lockedStart_quiet hs
  | stop p =>
    simp only [Meanwhile.exec] at he
    exact stop_quiet he
  | delete p =>
    simp only [Meanwhile.exec, lockedDelete] at he
    cases hs : stop s p with
    | none => simp [hs] at he
    | some s2 =>
      simp only [hs, Option.bind] at he
      exact (stop_quiet hs).followed (jobDelete_quiet he)
  | updateCron p cronExpression =>
    simp only [Meanwhile.exec, lockedUpdateCron] at he
    cases hj : s.heap[p]? with
    | none => simp [hj] at he
    | some job =>
      simp only [hj, Option.some.injEq] at he
      subst he
      exact ⟨rfl, rfl⟩
  | updateNextRun p nextRun now =>
    simp only [Meanwhile.exec] at he
    cases hs : lockedUpdateNextRun s p nextRun now with
    | none => simp [hs] at he
    | some r =>
      obtain ⟨e, s2⟩ := r
      simp only [hs, Option.map, Option.some.injEq] at he
      subst he
      exact lockedUpdateNextRun_quiet hs
  | updateFunction p function data =>
    simp only [Meanwhile.exec, lockedUpdateFunction] at he
    cases hj : s.heap[p]? with
    | none => simp [hj] at he
    | some job =>
      simp only [hj, Option.some.injEq] at he
      subst he
      exact ⟨rfl, rfl⟩
  | fire t =>
    simp only [Meanwhile.exec, Option.some.injEq] at he
    subst he
    exact timerFire_quiet s t

/-- Every move keeps the bound on invocations. -/
theorem Move_callsOk (cx : Cronexpr) {w w1 : World} (m : Move) (h : CallsOk w)
    (he : Move.exec cx w m = some w1) : CallsOk w1 := by
  cases m with
  | call a => exact exec_calls cx a h he
  | held a =>
    simp only [Move.exec] at he
    cases hs : Meanwhile.exec cx w.sched a with
    | none => simp [hs] at he
    | some s1 =>
      simp only [hs, Option.map, Option.some.injEq] at he
      subst he
      exact CallsOk_of_quiet h (held_quiet cx a hs)

/-- Every sequence of moves keeps the bound on invocations. -/
theorem moveAll_callsOk (cx : Cronexpr) (moves : List Move) :
    ∀ {w w1 : World}, CallsOk w → moveAll cx w moves = some w1 → CallsOk w1 := by
  induction moves with
  | nil =>
    intro w w1 h he
    simp only [moveAll, Option.some.injEq] at he
    subst he
    exact h
  | cons m rest ih =>
    intro w w1 h he
    cases hs : Move.exec cx w m with
    | none => simp [moveAll, hs] at he
    | some w2 =>
      simp only [moveAll, hs, Option.bind] at he
      exact ih (Move_callsOk cx m h hs) he

theorem Attainable_callsOk (cx : Cronexpr) {w : World} (h : Attainable cx w) : CallsOk w := by
  obtain ⟨moves, he⟩ := h
  exact moveAll_callsOk cx moves (Nat.zero_le _) he

theorem sampleWorld_attainable : Attainable sampleCron sampleWorld :=
  Reachable_attainable sampleCron sampleWorld_reachable

/-- C16, amended: in every attainable world (calls by name, locked sections on job
pointers held from earlier lookups, timer expiries, the parts of `run`) a job holds a
timer handle exactly when its state has the Scheduled flag, that is, when the state is
Scheduled, Scheduled|Stopping or Scheduled|Stopping|Deleting; a job that is exactly Scheduled holds one, a job that is
Stopped or Running holds none, and the handle held is that of a timer made for the job
that is armed or has fired. -/
theorem handle_iff_scheduled_flag (cx : Cronexpr) (w : World) (h : Attainable cx w)
    (p : Nat) (job : jobStruct) (hj : w.sched.heap[p]? = some job) :
    (job.timer ≠ none ↔ job.state &&& StateScheduled > 0) ∧
    (job.timer ≠ none ↔
      (job.state = StateScheduled ∨ job.state = StateScheduled ||| StateStopping ∨
        job.state = StateScheduled ||| StateStopping ||| StateDeleting)) ∧
    (job.state = StateScheduled → job.timer ≠ none) ∧
    (job.state = StateStopped ∨ job.state &&& StateRunning > 0 → job.timer = none) ∧
    (∀ t, job.timer = some t →
      ∃ tm, w.sched.timers[t]? = some tm ∧ tm.job = p ∧
        (tm.status = .armed ∨ tm.status = .fired)) := by
  have hT := (Attainable_sound cx h).1
  have hv := hT.shape p job hj
  have hidle := hT.idle p job hj
  have hpend := hT.pending p job hj
  have hsome : job.state ≠ StateStopped → ¬ job.state &&& StateRunning > 0 →
      job.timer ≠ none := by
    intro h1 h2 e
    obtain ⟨t, _, ht, _⟩ := hpend h1 h2
    rw [e] at ht
    cases ht
  refine ⟨?_, ?_, ?_, hidle, ?_⟩
  · rcases validState_base hv with ⟨h1, h2, _⟩ | ⟨h1, h2, h3⟩ | ⟨h1, h2, h3⟩
    · exact ⟨fun e => absurd (hidle (Or.inl h1)) e, fun e => absurd e h2⟩
    · exact ⟨fun _ => h2, fun _ => hsome h1 h3⟩
    · exact ⟨fun e => absurd (hidle (Or.inr h3)) e, fun e => absurd e h2⟩
  · constructor
    · intro hne
      unfold validState at hv
      rcases hv with e | e | e | e | e | e | e
      · exact absurd (hidle (Or.inl e)) hne
      · exact Or.inl e
      · exact Or.inr (Or.inl e)
      · exact Or.inr (Or.inr e)
      · exact absurd (hidle (Or.inr (by rw [e]; decide))) hne
      · exact absurd (hidle (Or.inr (by rw [e]; decide))) hne
      · exact absurd (hidle (Or.inr (by rw [e]; decide))) hne
    · rintro (e | e | e) <;>
        exact hsome (by rw [e]; decide) (by rw [e]; decide)
  · intro e
    exact hsome (by rw [e]; decide) (by rw [e]; decide)
  · intro t ht
    obtain ⟨h1, h2⟩ := hT.holder hj ht
    obtain ⟨t0, tm, ht0, htm, hjob, hout⟩ := hpend h1 h2
    rw [ht] at ht0
    cases ht0
    exact ⟨tm, htm, hjob, hout⟩

/-- C16 amended, at a sample: the job of the world after `sampleSteps`. -/
theorem handle_iff_scheduled_flag_witness :
    ((some 0 : Option Nat) ≠ none ↔
      (StateScheduled ||| StateStopping) &&& StateScheduled > 0) ∧
    ((some 0 : Option Nat) ≠ none ↔
      (StateScheduled ||| StateStopping = StateScheduled ∨
        StateScheduled ||| StateStopping = StateScheduled ||| StateStopping ∨
        StateScheduled ||| StateStopping =
          StateScheduled ||| StateStopping ||| StateDeleting)) :=
  ⟨(handle_iff_scheduled_flag sampleCron sampleWorld sampleWorld_attainable 0
      { name := "a", cronExpression := ⟨13⟩, function := 3, data := none,
        state := StateScheduled ||| StateStopping, nextRun := 14, timer := some 0 }
      (by decide)).1,
    (handle_iff_scheduled_flag sampleCron sampleWorld sampleWorld_attainable 0
      { name := "a", cronExpression := ⟨13⟩, function := 3, data := none,
        state := StateScheduled ||| StateStopping, nextRun := 14, timer := some 0 }
      (by decide)).2.1⟩

/-- C17: in every world that moves lead to from NewScheduler (Make, Start, Stop, Delete,
UpdateCron, UpdateNextRun, UpdateFunction and StopAll by name, their locked sections on
job pointers held from earlier lookups, timer expiries and the parts of `run`), two
timers of one job that are both outstanding (armed, or fired with the run not
yet started) are the same timer; a job that is Stopped or has the Running flag has no
outstanding timer; both hold again after any further move, so no move arms a second
timer beside an outstanding one; and the invocations made or about to be made are no
more than the timers whose run has started, each of which starts its run once. -/
theorem one_outstanding_timer (cx : Cronexpr) (w : World) (h : Attainable cx w) :
    (∀ (t1 t2 : Nat) (tm1 tm2 : Timer),
      w.sched.timers[t1]? = some tm1 → w.sched.timers[t2]? = some tm2 →
      tm1.status = .armed ∨ tm1.status = .fired → tm2.status = .armed ∨ tm2.status = .fired →
      tm1.job = tm2.job → t1 = t2) ∧
    (∀ (p : Nat) (job : jobStruct) (t : Nat) (tm : Timer), w.sched.heap[p]? = some job →
      job.state = StateStopped ∨ job.state &&& StateRunning > 0 →
      w.sched.timers[t]? = some tm → tm.job = p →
      ¬ (tm.status = .armed ∨ tm.status = .fired)) ∧
    (∀ (m : Move) (w1 : World), Move.exec cx w m = some w1 →
      (∀ (t1 t2 : Nat) (tm1 tm2 : Timer),
        w1.sched.timers[t1]? = some tm1 → w1.sched.timers[t2]? = some tm2 →
        tm1.status = .armed ∨ tm1.status = .fired →
        tm2.status = .armed ∨ tm2.status = .fired → tm1.job = tm2.job → t1 = t2) ∧
      w1.sched.calls.length + toCallCount w1 ≤ ranCount w1.sched) ∧
    w.sched.calls.length + toCallCount w ≤ ranCount w.sched ∧
    (∀ (t : Nat) (now : Time) (w1 : World), Step.exec cx w (.runBegin t now) = some w1 →
      ∃ tm tm1, w.sched.timers[t]? = some tm ∧ tm.status = .fired ∧
        w1.sched.timers[t]? = some tm1 ∧ tm1.status = .ran) := by
  have hI := Attainable_sound cx h
  have hC := Attainable_callsOk cx h
  have one : ∀ s : Scheduler, TimersOk s → ∀ (t1 t2 : Nat) (tm1 tm2 : Timer),
      s.timers[t1]? = some tm1 → s.timers[t2]? = some tm2 →
      tm1.status = .armed ∨ tm1.status = .fired → tm2.status = .armed ∨ tm2.status = .fired →
      tm1.job = tm2.job → t1 = t2 := by
    intro s hT t1 t2 tm1 tm2 h1 h2 o1 o2 e
    obtain ⟨j1, hj1, ht1⟩ := hT.owner t1 tm1 h1 o1
    obtain ⟨j2, hj2, ht2⟩ := hT.owner t2 tm2 h2 o2
    rw [e, hj2] at hj1
    simp only [Option.some.injEq] at hj1
    subst hj1
    rw [ht2] at ht1
    simpa using ht1.symm
  refine ⟨one _ hI.1, ?_, ?_, hC, ?_⟩
  · intro p job t tm hj hst htm hp o
    obtain ⟨j1, hj1, ht1⟩ := hI.1.owner t tm htm o
    rw [hp, hj] at hj1
    simp only [Option.some.injEq] at hj1
    subst hj1
    rw [hI.1.idle p job hj hst] at ht1
    cases ht1
  · intro m w1 he
    exact ⟨one _ (Move_sound cx m hI he).1, Move_callsOk cx m hC he⟩
  · intro t now w1 he
    simp only [Step.exec] at he
    cases htm : w.sched.timers[t]? with
    | none => simp [htm] at he
    | some tm =>
      simp only [htm] at he
      by_cases hf : tm.status = .fired
      · simp only [hf, if_true, timerRun, htm] at he
        cases hs : runBegin cx
            { w.sched with timers := w.sched.timers.set t { tm with status := .ran } }
            tm.job now with
        | none => simp [hs] at he
        | some r =>
          obtain ⟨b, s1⟩ := r
          simp only [hs, Option.map, Option.some.injEq] at he
          subst he
          have hlt : t < w.sched.timers.length := by
            rcases Nat.lt_or_ge t w.sched.timers.length with hl | hl
            · exact hl
            · rw [List.getElem?_eq_none hl] at htm
              cases htm
          have hkeep := runBegin_timers cx hs
          refine ⟨tm, { tm with status := .ran }, rfl, hf, ?_, rfl⟩
          show s1.timers[t]? = _
          rw [hkeep]
          show (w.sched.timers.set t { tm with status := .ran })[t]? = _
          simp [hlt]
      · simp [hf] at he

/-- C17 at a sample: the world after `sampleSteps`, whose one timer has fired. -/
theorem one_outstanding_timer_witness :
    Attainable sampleCron sampleWorld ∧
    (∀ (t1 t2 : Nat) (tm1 tm2 : Timer),
      sampleWorld.sched.timers[t1]? = some tm1 → sampleWorld.sched.timers[t2]? = some tm2 →
      tm1.status = .armed ∨ tm1.status = .fired → tm2.status = .armed ∨ tm2.status = .fired →
      tm1.job = tm2.job → t1 = t2) ∧
    sampleWorld.sched.calls.length + toCallCount sampleWorld ≤ ranCount sampleWorld.sched :=
  ⟨sampleWorld_attainable,
    (one_outstanding_timer sampleCron sampleWorld sampleWorld_attainable).1,
    (one_outstanding_timer sampleCron sampleWorld sampleWorld_attainable).2.2.2.1⟩

end GoScheduler
